import Mathlib

/-!
# Buddy memory manager (`src/lab.c`)

A shallow embedding of the buddy allocator of `src/lab.c` and theorems about it.

* The header `lab.h` is not part of the sources, so the constants it defines
  (`SMALLEST_K`, `MIN_K`, `MAX_K`, `DEFAULT_K`, the three block tags, the size of
  `struct avail`) and `ENOMEM` are the fields of a `Config`; every definition takes it
  as a parameter.
* A pointer to a `struct avail` is `Ptr`: `NULL`, the address of a list sentinel
  `&pool->avail[i]`, or an address inside the arena, given by its offset from
  `pool->base`.  The four fields of `struct avail` are four maps from pointers to values.
* Unsigned 64-bit arithmetic is arithmetic on `Nat` modulo `2 ^ 64`.
* Every loop is a recursion on a counter that starts at the number of passes the loop can
  make at most (`MAX_K - i`, `kval_m + 1 - index`, `index - requested_k`,
  `kval_m - free_ptr->kval`); the test of the loop is made in every pass, as in the code.

The definitions come first.  The theorems follow: `btok` and `buddy_init`, the doubly
linked lists, the arithmetic of aligned blocks, the invariant `Inv` with its preservation
by `buddy_malloc` (`malloc_inv`) and `buddy_free` (`free_inv`), and the properties of the
specification at the end.
-/

namespace Buddy

/-! ## Constants -/

/-- The constants the code takes from `lab.h` and `errno.h`. `hdr` is `sizeof(struct avail)`. -/
structure Config where
  SMALLEST_K : Nat
  MIN_K : Nat
  MAX_K : Nat
  DEFAULT_K : Nat
  BLOCK_AVAIL : Nat
  BLOCK_RESERVED : Nat
  BLOCK_UNUSED : Nat
  ENOMEM : Nat
  hdr : Nat
deriving DecidableEq, Repr

/-- Conditions on the constants under which the embedding follows the C code: the orders
are nested as their names say, every shift `1 << k` with `k ≤ MAX_K` stays inside 64 bits,
a control record fits into the smallest block, and the three tags are different values. -/
def Config.WF (c : Config) : Prop :=
  c.SMALLEST_K ≤ c.MIN_K ∧ c.MIN_K ≤ c.DEFAULT_K ∧ c.DEFAULT_K < c.MAX_K ∧ c.MAX_K < 64 ∧
  0 < c.hdr ∧ c.hdr ≤ 2 ^ c.SMALLEST_K ∧
  c.BLOCK_AVAIL ≠ c.BLOCK_RESERVED ∧ c.BLOCK_AVAIL ≠ c.BLOCK_UNUSED ∧
  c.BLOCK_RESERVED ≠ c.BLOCK_UNUSED

instance (c : Config) : Decidable c.WF := by
  unfold Config.WF; infer_instance

/-- The values the course header `lab.h` gives the constants on a 64-bit Linux target
(`struct avail` is two `unsigned short` fields and two pointers, 24 bytes with padding;
`ENOMEM` is 12).  Used for concrete runs only; the general theorems hold for every
well-formed `Config`. -/
def labConfig : Config where
  SMALLEST_K := 6
  MIN_K := 20
  MAX_K := 48
  DEFAULT_K := 30
  BLOCK_AVAIL := 1
  BLOCK_RESERVED := 0
  BLOCK_UNUSED := 3
  ENOMEM := 12
  hdr := 24

/-! ## Machine integers -/

/-- Reduction of a natural number to an unsigned 64-bit value (`size_t`, `uintptr_t`). -/
def wrap64 (n : Nat) : Nat := n % 2 ^ 64

/-- The value of `UINT64_C(1) << i` (for `i < 64`; larger shifts are undefined in C). -/
def shl1 (i : Nat) : Nat := wrap64 (2 ^ i)

/-- Conversion of an unsigned 64-bit value to a C `int` (32 bits, two's complement; for
a value that does not fit, the result is implementation-defined in C, and gcc and clang
reduce it modulo `2 ^ 32`). -/
def toInt32 (v : Nat) : Int :=
  if v % 2 ^ 32 < 2 ^ 31 then ((v % 2 ^ 32 : Nat) : Int) else ((v % 2 ^ 32 : Nat) : Int) - 2 ^ 32

/-- Conversion of a C `int` to `size_t`, as the usual arithmetic conversions do for the
comparison `bytes <= num_bytes`. -/
def intToSize (z : Int) : Nat := (z % 2 ^ 64).toNat

/-! ## `btok` -/

/-- The `for` loop of `btok`; `fuel` is `MAX_K - i`. -/
def btokLoop (c : Config) (bytes : Nat) : Nat → Nat → Nat
  | 0, _ => c.MAX_K
  | fuel + 1, i =>
    if i < c.MAX_K then
      let num_bytes : Int := toInt32 (shl1 i)
      if bytes ≤ intToSize num_bytes then i
      else btokLoop c bytes fuel (i + 1)
    else c.MAX_K

/-- The function `size_t btok(size_t bytes)`. -/
def btok (c : Config) (bytes : Nat) : Nat :=
  btokLoop c bytes (c.MAX_K - c.SMALLEST_K) c.SMALLEST_K

/-! ## Pointers and the pool -/

/-- A `struct avail *`. -/
inductive Ptr where
  | null : Ptr
  | head (i : Nat) : Ptr
  | blk (o : Nat) : Ptr
deriving DecidableEq, Repr

/-- The `struct buddy_pool` together with the arena it manages: `kval_m`, `numbytes`, and the
fields of every `struct avail` (the sentinels `avail[i]` and the control records in the
arena).  Orders stay below 64 in every state the allocator reaches (`Inv.K_lt`,
`Inv.aligned`), so the width of the `kval` field plays no role. -/
structure Pool where
  kval_m : Nat
  numbytes : Nat
  tag : Ptr → Nat
  kval : Ptr → Nat
  next : Ptr → Ptr
  prev : Ptr → Ptr

namespace Pool

/-- The assignment `q->tag = v`. -/
def setTag (p : Pool) (q : Ptr) (v : Nat) : Pool := { p with tag := Function.update p.tag q v }
/-- The assignment `q->kval = v`. -/
def setKval (p : Pool) (q : Ptr) (v : Nat) : Pool := { p with kval := Function.update p.kval q v }
/-- The assignment `q->next = v`. -/
def setNext (p : Pool) (q : Ptr) (v : Ptr) : Pool := { p with next := Function.update p.next q v }
/-- The assignment `q->prev = v`. -/
def setPrev (p : Pool) (q : Ptr) (v : Ptr) : Pool := { p with prev := Function.update p.prev q v }

end Pool

open Ptr

/-- The arena offset a block pointer stands for.  The sentinels and `NULL` have none (the
value 0 is a convention); the code only does address arithmetic on the head of a non-empty
free list, which is an arena block in every state the allocator reaches
(`Inv.next_head`). -/
def Ptr.off : Ptr → Nat
  | blk o => o
  | _ => 0

/-! ## `buddy_init` -/

/-- The order `buddy_init` chooses for the size hint (lines 177-186). -/
def initKval (c : Config) (size : Nat) : Nat :=
  let kval := if size = 0 then c.DEFAULT_K else btok c size
  let kval := if kval < c.MIN_K then c.MIN_K else kval
  let kval := if kval > c.MAX_K then c.MAX_K - 1 else kval
  kval

/-- The loop of `buddy_init` that makes every list empty; `fuel` is `kval + 1 - i`. -/
def initHeads (c : Config) (kval : Nat) : Nat → Nat → Pool → Pool
  | 0, _, p => p
  | fuel + 1, i, p =>
    if i ≤ kval then
      let p := p.setPrev (head i) (head i)
      let p := p.setNext (head i) (p.prev (head i))
      let p := p.setKval (head i) i
      let p := p.setTag (head i) c.BLOCK_UNUSED
      initHeads c kval fuel (i + 1) p
    else p

/-- The function `buddy_init(pool, size)`, for an `mmap` that succeeds: the pool structure is cleared
by `memset` and the fresh anonymous mapping is zero-filled. -/
def buddy_init (c : Config) (size : Nat) : Pool :=
  let kval := initKval c size
  let p : Pool :=
    { kval_m := kval, numbytes := shl1 kval,
      tag := fun _ => 0, kval := fun _ => 0, next := fun _ => null, prev := fun _ => null }
  let p := initHeads c kval (kval + 1) 0 p
  let p := p.setPrev (head kval) (blk 0)
  let p := p.setNext (head kval) (p.prev (head kval))
  let m := p.next (head kval)
  let p := p.setTag m c.BLOCK_AVAIL
  let p := p.setKval m kval
  let p := p.setPrev m (head kval)
  let p := p.setNext m (p.prev m)
  p

/-! ## `buddy_calc` -/

/-- The function `buddy_calc(pool, buddy)` on arena offsets: the offset of the block `buddy` is
XOR-ed with `1 << buddy->kval`. -/
def buddy_calc (p : Pool) (buddy : Nat) : Nat :=
  let buddy_size := shl1 (p.kval (blk buddy))
  buddy ^^^ buddy_size

/-! ## `buddy_malloc` -/

/-- What a call of `buddy_malloc` leaves behind: the pool, the returned pointer (`none`
is `NULL`, `some h` is `pool->base + h`) and the value stored into `errno`, if any. -/
structure MallocResult where
  pool : Pool
  ret : Option Nat
  err : Option Nat

/-- Step R1, the scan for a non-empty list; `fuel` is `kval_m + 1 - index`. -/
def scanLoop (p : Pool) : Nat → Nat → Nat
  | 0, index => index
  | fuel + 1, index =>
    if index ≤ p.kval_m ∧ p.next (head index) = head index then scanLoop p fuel (index + 1)
    else index

/-- The four assignments that link the arena block at offset `n` in at the head of list
`i` (lines 111-114 of `buddy_malloc`, and again lines 155-158 of `buddy_free`). -/
def insertHead (p : Pool) (i n : Nat) : Pool :=
  let p := p.setNext (blk n) (p.next (head i))
  let p := p.setPrev (blk n) (head i)
  let p := p.setPrev (p.next (head i)) (blk n)
  let p := p.setNext (head i) (blk n)
  p

/-- Step R4, one pass through the body of the split loop after `index--`: the upper half
of the returned block becomes an available block of order `index`. -/
def splitStep (c : Config) (returned_block index : Nat) (p : Pool) : Pool :=
  let buddy := returned_block + shl1 index
  let p := p.setTag (blk buddy) c.BLOCK_AVAIL
  let p := p.setKval (blk buddy) index
  let p := insertHead p index buddy
  let p := p.setKval (blk returned_block) index
  p

/-- Steps R3 and R4, the split loop; `fuel` is `index - requested_k`. -/
def splitLoop (c : Config) (requested_k returned_block : Nat) : Nat → Nat → Pool → Pool
  | 0, _, p => p
  | fuel + 1, index, p =>
    if index > requested_k then
      let index := index - 1
      splitLoop c requested_k returned_block fuel index (splitStep c returned_block index p)
    else p

/-- Step R2: the head of list `index` is taken off the list and marked reserved. -/
def takeHead (c : Config) (p : Pool) (index : Nat) : Pool :=
  let returned_block := p.next (head index)
  let next_block := p.next returned_block
  let p := p.setNext (head index) next_block
  let p := p.setPrev next_block (head index)
  let p := p.setTag returned_block c.BLOCK_RESERVED
  let p := p.setKval returned_block index
  p

/-- The body of `buddy_malloc` for a pool that is not `NULL` and a size that is not 0. -/
def mallocBody (c : Config) (p : Pool) (size : Nat) : MallocResult :=
  let requested_k := btok c (wrap64 (size + c.hdr))
  let index := scanLoop p (p.kval_m + 1 - requested_k) requested_k
  if index > p.kval_m then
    { pool := p, ret := none, err := some c.ENOMEM }
  else
    let returned_block := p.next (head index)
    let p := takeHead c p index
    let p := splitLoop c requested_k returned_block.off (index - requested_k) index p
    { pool := p, ret := some (returned_block.off + c.hdr), err := none }

/-- The function `buddy_malloc(pool, size)`; `pool = none` is the `NULL` pool, for which the call
returns `NULL` and there is no pool to report (`none`). -/
def buddy_malloc (c : Config) (pool : Option Pool) (size : Nat) : Option MallocResult :=
  match pool with
  | none => none
  | some p =>
    if size = 0 then some { pool := p, ret := none, err := none }
    else some (mallocBody c p size)

/-! ## `buddy_free` -/

/-- The two assignments that take `q` out of its list (lines 135-136). -/
def unlink (p : Pool) (q : Ptr) : Pool :=
  let p := p.setNext (p.prev q) (p.next q)
  let p := p.setPrev (p.next q) (p.prev q)
  p

/-- One pass through the body of the merge loop; returns the pool and the new
`free_ptr`. -/
def mergeStep (p : Pool) (free_ptr buddy_ptr : Nat) : Pool × Nat :=
  let p := unlink p (blk buddy_ptr)
  let free_ptr := if buddy_ptr < free_ptr then buddy_ptr else free_ptr
  let p := p.setKval (blk free_ptr) (p.kval (blk free_ptr) + 1)
  (p, free_ptr)

/-- The merge loop of `buddy_free`; `fuel` is `kval_m - free_ptr->kval`.  Returns the pool
and the final `free_ptr`. -/
def mergeLoop (c : Config) : Nat → Nat → Nat → Pool → Pool × Nat
  | 0, free_ptr, _, p => (p, free_ptr)
  | fuel + 1, free_ptr, buddy_ptr, p =>
    if p.kval (blk free_ptr) < p.kval_m ∧ p.tag (blk buddy_ptr) = c.BLOCK_AVAIL ∧
        p.kval (blk buddy_ptr) = p.kval (blk free_ptr) then
      let s := mergeStep p free_ptr buddy_ptr
      mergeLoop c fuel s.2 (buddy_calc s.1 s.2) s.1
    else (p, free_ptr)

/-- The end of `buddy_free` (lines 150-158): the block is marked available and put at the
head of the list of its order. -/
def release (c : Config) (p : Pool) (free_ptr : Nat) : Pool :=
  let p := p.setTag (blk free_ptr) c.BLOCK_AVAIL
  let kval := p.kval (blk free_ptr)
  insertHead p kval free_ptr

/-- The function `buddy_free(pool, ptr)` for a pool that is not `NULL`; `ptr = none` is `NULL`, and
`some h` is the address `pool->base + h`. -/
def buddy_free (c : Config) (p : Pool) (ptr : Option Nat) : Pool :=
  match ptr with
  | none => p
  | some h =>
    let free_ptr := h - c.hdr
    let buddy_ptr := buddy_calc p free_ptr
    let s := mergeLoop c (p.kval_m - p.kval (blk free_ptr)) free_ptr buddy_ptr p
    release c s.1 s.2

/-! ## The loops with their passes counted

The functions below run the three `while` loops exactly as `scanLoop`, `splitLoop` and
`mergeLoop` do and report how often the body is entered, and in which states the test of
the merge loop is evaluated. -/

/-- The number of passes through the body (`index++`) of the scan loop of `buddy_malloc`
started at `index`, with at most `fuel` passes allowed. -/
def scanPasses (p : Pool) : Nat → Nat → Nat
  | 0, _ => 0
  | fuel + 1, index =>
    if index ≤ p.kval_m ∧ p.next (head index) = head index then
      scanPasses p fuel (index + 1) + 1
    else 0

/-- The number of passes through the body of the split loop of `buddy_malloc` started at
`index`, with at most `fuel` passes allowed. -/
def splitPasses (c : Config) (requested_k returned_block : Nat) : Nat → Nat → Pool → Nat
  | 0, _, _ => 0
  | fuel + 1, index, p =>
    if index > requested_k then
      let index := index - 1
      splitPasses c requested_k returned_block fuel index (splitStep c returned_block index p)
        + 1
    else 0

/-- The number of passes through the body of the merge loop of `buddy_free`, with at most
`fuel` passes allowed. -/
def mergePasses (c : Config) : Nat → Nat → Nat → Pool → Nat
  | 0, _, _, _ => 0
  | fuel + 1, free_ptr, buddy_ptr, p =>
    if p.kval (blk free_ptr) < p.kval_m ∧ p.tag (blk buddy_ptr) = c.BLOCK_AVAIL ∧
        p.kval (blk buddy_ptr) = p.kval (blk free_ptr) then
      let s := mergeStep p free_ptr buddy_ptr
      mergePasses c fuel s.2 (buddy_calc s.1 s.2) s.1 + 1
    else 0

/-- The states in which the test of the merge loop of `buddy_free` is evaluated, first to
last: the pool, `free_ptr` and `buddy_ptr` at each evaluation (line 132). -/
def mergeTests (c : Config) : Nat → Nat → Nat → Pool → List (Pool × Nat × Nat)
  | 0, free_ptr, buddy_ptr, p => [(p, free_ptr, buddy_ptr)]
  | fuel + 1, free_ptr, buddy_ptr, p =>
    (p, free_ptr, buddy_ptr) ::
      (if p.kval (blk free_ptr) < p.kval_m ∧ p.tag (blk buddy_ptr) = c.BLOCK_AVAIL ∧
          p.kval (blk buddy_ptr) = p.kval (blk free_ptr) then
        let s := mergeStep p free_ptr buddy_ptr
        mergeTests c fuel s.2 (buddy_calc s.1 s.2) s.1
      else [])

/-! ## Reading a free list -/

/-- Follows `next` from `q` until the sentinel `stop` comes back, collecting the arena
offsets passed on the way. -/
def walk (p : Pool) (stop : Ptr) : Nat → Ptr → List Nat
  | 0, _ => []
  | fuel + 1, q =>
    if q = stop then [] else
      match q with
      | blk o => o :: walk p stop fuel (p.next q)
      | _ => []

/-- The members of free list `i`, first to last.  A list has at most `numbytes` members. -/
def freeList (p : Pool) (i : Nat) : List Nat :=
  walk p (head i) p.numbytes (p.next (head i))

/-! ## Reachable states -/

/-- The states a client can bring the allocator into: `Reachable c p L` says that the pool
`p` results from `buddy_init` followed by calls of `buddy_malloc` and of `buddy_free` on
live handles, and that `L` lists the handles handed out and not yet released. -/
inductive Reachable (c : Config) : Pool → List Nat → Prop
  | init (size : Nat) : size < 2 ^ 64 → Reachable c (buddy_init c size) []
  | malloc (p : Pool) (L : List Nat) (size : Nat) (r : MallocResult) :
      Reachable c p L → size < 2 ^ 64 → buddy_malloc c (some p) size = some r →
      Reachable c r.pool (r.ret.toList ++ L)
  | free (p : Pool) (L : List Nat) (h : Nat) :
      Reachable c p L → h ∈ L → Reachable c (buddy_free c p (some h)) (L.erase h)

/-! ## The invariant of the allocator -/

/-- The chain `Links p a l z`: following `next` from `a` passes exactly through the arena blocks
`l`, in this order, and arrives at `z`; following `prev` from `z` goes the same way back. -/
def Links (p : Pool) : Ptr → List Nat → Ptr → Prop
  | a, [], z => p.next a = z ∧ p.prev z = a
  | a, o :: l, z => p.next a = blk o ∧ p.prev (blk o) = a ∧ Links p (blk o) l z

/-- The live blocks: those on a free list `fl i` and those in the list `res` of blocks
that are handed out (or under release). -/
def Live (fl : Nat → List Nat) (res : List Nat) (o : Nat) : Prop :=
  o ∈ res ∨ ∃ i, o ∈ fl i

/-- The invariant that `buddy_init` sets up and `buddy_malloc` and `buddy_free` keep.
`fl i` is the content of free list `i`, `res` the offsets of the blocks that are not on a
list, and `x` the block under release inside `buddy_free`, if any (its tag is not looked
at).  The order of a live block is the `kval` of its control record. -/
structure Inv (c : Config) (p : Pool) (fl : Nat → List Nat) (res : List Nat)
    (x : Option Nat) : Prop where
  K_lt : p.kval_m < 64
  numbytes_eq : p.numbytes = 2 ^ p.kval_m
  head_tag : ∀ i, i ≤ p.kval_m → p.tag (head i) = c.BLOCK_UNUSED
  lists : ∀ i, i ≤ p.kval_m → Links p (head i) (fl i) (head i)
  above : ∀ i, p.kval_m < i → fl i = []
  nodup : ∀ i, (fl i).Nodup
  res_nodup : res.Nodup
  free_tag : ∀ i o, o ∈ fl i → p.tag (blk o) = c.BLOCK_AVAIL ∧ p.kval (blk o) = i
  res_tag : ∀ o, o ∈ res → some o ≠ x → p.tag (blk o) = c.BLOCK_RESERVED
  sep : ∀ i o, o ∈ fl i → o ∉ res
  inflight : ∀ o, x = some o → o ∈ res
  aligned : ∀ o, Live fl res o →
    p.kval (blk o) ≤ p.kval_m ∧ 2 ^ p.kval (blk o) ∣ o ∧ o + 2 ^ p.kval (blk o) ≤ 2 ^ p.kval_m
  disjoint : ∀ o o2, Live fl res o → Live fl res o2 →
    o < o2 + 2 ^ p.kval (blk o2) → o2 < o + 2 ^ p.kval (blk o) → o = o2
  cover : ∀ y, y < 2 ^ p.kval_m →
    ∃ o, Live fl res o ∧ o ≤ y ∧ y < o + 2 ^ p.kval (blk o)
  nobuddy : ∀ i o, i < p.kval_m → o ∈ fl i → (o ^^^ 2 ^ i) ∉ fl i
  order_ge : ∀ o, Live fl res o → c.SMALLEST_K ≤ p.kval (blk o)

/-! ## The effect of the operations on the contents of the free lists

The functions below work on the contents `fl i` of the free lists instead of the pointers;
`malloc_inv` and `free_inv` show that `buddy_malloc` and `buddy_free` act on the lists
of a pool in this way. -/

/-- Step R1 on list contents: the first order from `index` on whose list is not empty
(`K + 1` if there is none). -/
def scanG (fl : Nat → List Nat) (K : Nat) : Nat → Nat → Nat
  | 0, index => index
  | fuel + 1, index =>
    if index ≤ K ∧ fl index = [] then scanG fl K fuel (index + 1) else index

/-- Steps R3 and R4 on list contents: the upper halves `o + 2 ^ i`, for `i` from
`index - 1` down to `r`, are put at the head of their lists. -/
def splitG (r o : Nat) : Nat → Nat → (Nat → List Nat) → Nat → List Nat
  | 0, _, fl => fl
  | fuel + 1, index, fl =>
    if index > r then
      splitG r o fuel (index - 1)
        (Function.update fl (index - 1) ((o + 2 ^ (index - 1)) :: fl (index - 1)))
    else fl

/-- The merge loop on list contents: as long as the buddy `f XOR 2 ^ k` of the block
`f` of order `k < K` is on list `k`, it is taken off and the block becomes the lower of
the two, of order `k + 1`.  Returns the lists, the final block and its order. -/
def mergeG (K : Nat) : Nat → Nat → Nat → (Nat → List Nat) → (Nat → List Nat) × Nat × Nat
  | 0, f, k, fl => (fl, f, k)
  | fuel + 1, f, k, fl =>
    if k < K ∧ (f ^^^ 2 ^ k) ∈ fl k then
      mergeG K fuel (if f ^^^ 2 ^ k < f then f ^^^ 2 ^ k else f) (k + 1)
        (Function.update fl k ((fl k).erase (f ^^^ 2 ^ k)))
    else (fl, f, k)

/-- The lists after `buddy_free` of the block `f` of order `k`. -/
def freeG (K : Nat) (f k : Nat) (fl : Nat → List Nat) : Nat → List Nat :=
  let s := mergeG K (K - k) f k fl
  Function.update s.1 s.2.2 (s.2.1 :: s.1 s.2.2)

/-! ## The notions the specification speaks about -/

/-- The offset `o` with its low `i` bits cleared: the start of the block of order `i` that
contains `o`. -/
def clearLow (o i : Nat) : Nat := o - o % 2 ^ i


/-- The block at offset `o` is an available block of order `k`: it is a member of free
list `k`, one of the lists `0 .. kval_m` of the pool. -/
def Available (p : Pool) (o k : Nat) : Prop :=
  k ≤ p.kval_m ∧ o ∈ freeList p k

/-- The block at offset `o` is a reserved block of order `k`: its handle `o + hdr` was
handed out and is not released yet (`L` lists the live handles), and `k` is the order in
its control record. -/
def Reserved (c : Config) (p : Pool) (L : List Nat) (o k : Nat) : Prop :=
  o + c.hdr ∈ L ∧ p.kval (blk o) = k

/-- The live blocks partition the arena: no block is listed twice (neither on a free list
nor among the live handles), the byte range `[o, o + 2 ^ k)` of every available or reserved
block lies in the arena `[0, 2 ^ kval_m)`, the ranges of two different blocks do not
overlap, no block is both available and reserved, and every byte of the arena lies in the
range of a block. -/
def Partition (c : Config) (p : Pool) (L : List Nat) : Prop :=
  (∀ k, k ≤ p.kval_m → (freeList p k).Nodup) ∧ L.Nodup ∧
  (∀ o k, Available p o k ∨ Reserved c p L o k → o + 2 ^ k ≤ 2 ^ p.kval_m) ∧
  (∀ o k o2 k2, Available p o k ∨ Reserved c p L o k →
    Available p o2 k2 ∨ Reserved c p L o2 k2 → (o ≠ o2 ∨ k ≠ k2) →
    o + 2 ^ k ≤ o2 ∨ o2 + 2 ^ k2 ≤ o) ∧
  (∀ o k k2, Available p o k → ¬ Reserved c p L o k2) ∧
  (∀ y, y < 2 ^ p.kval_m →
    ∃ o k, (Available p o k ∨ Reserved c p L o k) ∧ o ≤ y ∧ y < o + 2 ^ k)

/-- The pool is in its initial state: the block at offset 0 is available, has order
`kval_m` and is the only member of list `kval_m`, and every list of a smaller order is
empty, its sentinel linked to itself and tagged unused. -/
def Pristine (c : Config) (p : Pool) : Prop :=
  freeList p p.kval_m = [0] ∧
  p.next (head p.kval_m) = blk 0 ∧ p.prev (head p.kval_m) = blk 0 ∧
  p.next (blk 0) = head p.kval_m ∧ p.prev (blk 0) = head p.kval_m ∧
  p.tag (blk 0) = c.BLOCK_AVAIL ∧ p.kval (blk 0) = p.kval_m ∧
  ∀ i, i < p.kval_m →
    freeList p i = [] ∧ p.next (head i) = head i ∧ p.prev (head i) = head i ∧
      p.tag (head i) = c.BLOCK_UNUSED

/-! ## Concrete pools -/

/-- A fresh pool of order 20 (1 MiB) under the constants of `labConfig`. -/
def pool20 : Pool := buddy_init labConfig (2 ^ 20)

/-- The pool of order 20 after `buddy_malloc(pool, 100)`: the block at offset 0 is
reserved with order 7 and its handle is 24. -/
def pool20a : Pool := (mallocBody labConfig pool20 100).pool

/-- The pool after a second `buddy_malloc(pool, 100)`: the block at offset 128 is reserved
with order 7 and its handle is 152. -/
def pool20b : Pool := (mallocBody labConfig pool20a 100).pool

/-! # Theorems

## Constants, `btok` and `buddy_init` -/


theorem labConfig_wf : labConfig.WF := by decide

theorem btokLoop_le (c : Config) (bytes : Nat) :
    ∀ fuel i, btokLoop c bytes fuel i ≤ c.MAX_K := by
  intro fuel
  induction fuel with
  | zero => intro i; simp [btokLoop]
  | succ n ih =>
    intro i
    simp only [btokLoop]
    split_ifs with h1 h2
    · exact h1.le
    · exact ih _
    · exact le_rfl

theorem btok_le (c : Config) (bytes : Nat) : btok c bytes ≤ c.MAX_K := btokLoop_le c bytes _ _

theorem initKval_le (c : Config) (hc : c.WF) (size : Nat) : initKval c size ≤ c.MAX_K := by
  obtain ⟨h1, h2, h3, -⟩ := hc
  have hb := btok_le c size
  unfold initKval
  simp only []
  split_ifs <;> omega

theorem initKval_ge (c : Config) (hc : c.WF) (size : Nat) : c.MIN_K ≤ initKval c size := by
  obtain ⟨h1, h2, h3, -⟩ := hc
  have hb := btok_le c size
  unfold initKval
  simp only []
  split_ifs <;> omega

theorem shl1_eq {i : Nat} (h : i < 64) : shl1 i = 2 ^ i :=
  by
  unfold shl1 wrap64; exact Nat.mod_eq_of_lt (Nat.pow_lt_pow_right (by norm_num) h)

theorem malloc_fail_of_gt (c : Config) (p : Pool) (size : Nat) (hs : size ≠ 0)
    (h : p.kval_m < btok c (wrap64 (size + c.hdr))) :
    buddy_malloc c (some p) size = some { pool := p, ret := none, err := some c.ENOMEM } := by
  have hf : p.kval_m + 1 - btok c (wrap64 (size + c.hdr)) = 0 := by omega
  simp [buddy_malloc, hs, mallocBody, hf, scanLoop, h]

theorem buddy_calc_twice (p : Pool) (o : Nat)
    (h : p.kval (blk (buddy_calc p o)) = p.kval (blk o)) :
    buddy_calc p (buddy_calc p o) = o := by
  unfold buddy_calc at h ⊢
  simp only [h, Nat.xor_assoc, Nat.xor_self, Nat.xor_zero]



theorem initHeads_spec (c : Config) (kval : Nat) :
    ∀ fuel i p, fuel = kval + 1 - i →
      (initHeads c kval fuel i p).kval_m = p.kval_m ∧
      (initHeads c kval fuel i p).numbytes = p.numbytes ∧
      (∀ x, (initHeads c kval fuel i p).next x =
        match x with
        | head j => if i ≤ j ∧ j ≤ kval then head j else p.next x
        | _ => p.next x) ∧
      (∀ x, (initHeads c kval fuel i p).prev x =
        match x with
        | head j => if i ≤ j ∧ j ≤ kval then head j else p.prev x
        | _ => p.prev x) ∧
      (∀ x, (initHeads c kval fuel i p).tag x =
        match x with
        | head j => if i ≤ j ∧ j ≤ kval then c.BLOCK_UNUSED else p.tag x
        | _ => p.tag x) ∧
      (∀ x, (initHeads c kval fuel i p).kval x =
        match x with
        | head j => if i ≤ j ∧ j ≤ kval then j else p.kval x
        | _ => p.kval x) := by
  intro fuel
  induction fuel with
  | zero =>
    intro i p h
    have hi : kval < i := by omega
    simp only [initHeads, true_and]
    refine ⟨?_, ?_, ?_, ?_⟩ <;> intro x <;> cases x <;> try rfl
    all_goals
      rename_i j
      have : ¬ (i ≤ j ∧ j ≤ kval) := by omega
      simp only [this, if_false]
  | succ n ih =>
    intro i p h
    have hi : i ≤ kval := by omega
    simp only [initHeads, hi, if_true]
    obtain ⟨h1, h2, h3, h4, h5, h6⟩ := ih (i + 1) _ (by omega)
    rw [h1, h2]
    refine ⟨rfl, rfl, ?_, ?_, ?_, ?_⟩
    · intro x
      rw [h3]
      cases x with
      | null => simp [Pool.setTag, Pool.setKval, Pool.setNext, Pool.setPrev]
      | blk o => simp [Pool.setTag, Pool.setKval, Pool.setNext, Pool.setPrev]
      | head j =>
        simp only [Pool.setTag, Pool.setKval, Pool.setNext, Pool.setPrev, Function.update_apply]
        by_cases hj : j = i
        · subst hj; simp [hi]
        · have : ¬ (head j = head i) := by simpa using hj
          simp only [this, if_false]
          by_cases h7 : i + 1 ≤ j ∧ j ≤ kval
          · have : i ≤ j ∧ j ≤ kval := ⟨by omega, h7.2⟩
            simp [h7, this]
          · have : ¬ (i ≤ j ∧ j ≤ kval) := by omega
            simp [h7, this]
    · intro x
      rw [h4]
      cases x with
      | null => simp [Pool.setTag, Pool.setKval, Pool.setNext, Pool.setPrev]
      | blk o => simp [Pool.setTag, Pool.setKval, Pool.setNext, Pool.setPrev]
      | head j =>
        simp only [Pool.setTag, Pool.setKval, Pool.setNext, Pool.setPrev, Function.update_apply]
        by_cases hj : j = i
        · subst hj; simp [hi]
        · have : ¬ (head j = head i) := by simpa using hj
          simp only [this, if_false]
          by_cases h7 : i + 1 ≤ j ∧ j ≤ kval
          · have : i ≤ j ∧ j ≤ kval := ⟨by omega, h7.2⟩
            simp [h7, this]
          · have : ¬ (i ≤ j ∧ j ≤ kval) := by omega
            simp [h7, this]
    · intro x
      rw [h5]
      cases x with
      | null => simp [Pool.setTag, Pool.setKval, Pool.setNext, Pool.setPrev]
      | blk o => simp [Pool.setTag, Pool.setKval, Pool.setNext, Pool.setPrev]
      | head j =>
        simp only [Pool.setTag, Pool.setKval, Pool.setNext, Pool.setPrev, Function.update_apply]
        by_cases hj : j = i
        · subst hj; simp [hi]
        · have : ¬ (head j = head i) := by simpa using hj
          simp only [this, if_false]
          by_cases h7 : i + 1 ≤ j ∧ j ≤ kval
          · have : i ≤ j ∧ j ≤ kval := ⟨by omega, h7.2⟩
            simp [h7, this]
          · have : ¬ (i ≤ j ∧ j ≤ kval) := by omega
            simp [h7, this]
    · intro x
      rw [h6]
      cases x with
      | null => simp [Pool.setTag, Pool.setKval, Pool.setNext, Pool.setPrev]
      | blk o => simp [Pool.setTag, Pool.setKval, Pool.setNext, Pool.setPrev]
      | head j =>
        simp only [Pool.setTag, Pool.setKval, Pool.setNext, Pool.setPrev, Function.update_apply]
        by_cases hj : j = i
        · subst hj; simp [hi]
        · have : ¬ (head j = head i) := by simpa using hj
          simp only [this, if_false]
          by_cases h7 : i + 1 ≤ j ∧ j ≤ kval
          · have : i ≤ j ∧ j ≤ kval := ⟨by omega, h7.2⟩
            simp [h7, this]
          · have : ¬ (i ≤ j ∧ j ≤ kval) := by omega
            simp [h7, this]


theorem buddy_init_fields (c : Config) (size : Nat) :
    (buddy_init c size).kval_m = initKval c size ∧
    (buddy_init c size).numbytes = shl1 (initKval c size) ∧
    (∀ x, (buddy_init c size).next x =
      match x with
      | head j => if j = initKval c size then blk 0 else if j ≤ initKval c size then head j else null
      | blk o => if o = 0 then head (initKval c size) else null
      | null => null) ∧
    (∀ x, (buddy_init c size).prev x =
      match x with
      | head j => if j = initKval c size then blk 0 else if j ≤ initKval c size then head j else null
      | blk o => if o = 0 then head (initKval c size) else null
      | null => null) ∧
    (∀ x, (buddy_init c size).tag x =
      match x with
      | head j => if j ≤ initKval c size then c.BLOCK_UNUSED else 0
      | blk o => if o = 0 then c.BLOCK_AVAIL else 0
      | null => 0) ∧
    (∀ x, (buddy_init c size).kval x =
      match x with
      | head j => if j ≤ initKval c size then j else 0
      | blk o => if o = 0 then initKval c size else 0
      | null => 0) := by
  obtain ⟨h1, h2, h3, h4, h5, h6⟩ := initHeads_spec c (initKval c size) (initKval c size + 1) 0
    { kval_m := initKval c size, numbytes := shl1 (initKval c size),
      tag := fun _ => 0, kval := fun _ => 0, next := fun _ => null, prev := fun _ => null } rfl
  unfold buddy_init
  simp only [Pool.setTag, Pool.setKval, Pool.setNext, Pool.setPrev, Function.update_same]
  refine ⟨h1, h2, ?_, ?_, ?_, ?_⟩
  · intro x
    simp only [Function.update_apply, h3]
    cases x <;> simp
  · intro x
    simp only [Function.update_apply, h4]
    cases x <;> simp
  · intro x
    simp only [Function.update_apply, h5]
    cases x <;> simp
  · intro x
    simp only [Function.update_apply, h6]
    cases x <;> simp

/-! ## What `btok` computes -/

/-- The value `btok` compares `bytes` with: exact up to order 30. -/
theorem numBytes_small {i : Nat} (h : i ≤ 30) : intToSize (toInt32 (shl1 i)) = 2 ^ i := by
  interval_cases i <;> rfl

/-- At order 31 the `int` is negative and converts to `2 ^ 64 - 2 ^ 31`. -/
theorem numBytes_31 : intToSize (toInt32 (shl1 31)) = 2 ^ 64 - 2 ^ 31 := by
  rfl

/-- From order 32 on the `int` is 0. -/
theorem numBytes_large {i : Nat} (h : 32 ≤ i) : intToSize (toInt32 (shl1 i)) = 0 := by
  have h1 : shl1 i % 2 ^ 32 = 0 := by
    unfold shl1 wrap64
    rw [Nat.mod_mod_of_dvd _ (Nat.pow_dvd_pow 2 (by norm_num : 32 ≤ 64))]
    exact Nat.mod_eq_zero_of_dvd (Nat.pow_dvd_pow 2 h)
  unfold toInt32
  rw [h1]
  rfl

/-- The loop of `btok` returns the first order from `i` on that passes the test
`bytes <= num_bytes`, or `MAX_K` when none below `MAX_K` does. -/
theorem btokLoop_spec (c : Config) (bytes : Nat) :
    ∀ fuel i, fuel = c.MAX_K - i →
      (btokLoop c bytes fuel i < c.MAX_K ∧ i ≤ btokLoop c bytes fuel i ∧
        bytes ≤ intToSize (toInt32 (shl1 (btokLoop c bytes fuel i))) ∧
        ∀ j, i ≤ j → j < btokLoop c bytes fuel i → ¬ bytes ≤ intToSize (toInt32 (shl1 j))) ∨
      (btokLoop c bytes fuel i = c.MAX_K ∧
        ∀ j, i ≤ j → j < c.MAX_K → ¬ bytes ≤ intToSize (toInt32 (shl1 j))) := by
  intro fuel
  induction fuel with
  | zero =>
    intro i hf
    right
    exact ⟨rfl, fun j h1 h2 => by omega⟩
  | succ n ih =>
    intro i hf
    have hi : i < c.MAX_K := by omega
    simp only [btokLoop, hi, if_true]
    by_cases ht : bytes ≤ intToSize (toInt32 (shl1 i))
    · rw [if_pos ht]
      left
      exact ⟨hi, le_rfl, ht, fun j h1 h2 => by omega⟩
    · rw [if_neg ht]
      rcases ih (i + 1) (by omega) with ⟨h1, h2, h3, h4⟩ | ⟨h1, h4⟩
      · left
        refine ⟨h1, by omega, h3, ?_⟩
        intro j hj1 hj2
        by_cases e : j = i
        · rw [e]; exact ht
        · exact h4 j (by omega) hj2
      · right
        refine ⟨h1, ?_⟩
        intro j hj1 hj2
        by_cases e : j = i
        · rw [e]; exact ht
        · exact h4 j (by omega) hj2

/-- For byte counts up to `2 ^ 30` (and `SMALLEST_K` at most 31) `btok` is the size
classifier of the specification: the smallest order in `[SMALLEST_K, MAX_K)` whose power of
two is at least `bytes`, and `MAX_K` when there is none. -/
theorem btok_small (c : Config) (hc : c.SMALLEST_K ≤ 31) (bytes : Nat) (hb : bytes ≤ 2 ^ 30) :
    (btok c bytes < c.MAX_K ∧ c.SMALLEST_K ≤ btok c bytes ∧ bytes ≤ 2 ^ btok c bytes ∧
      ∀ j, c.SMALLEST_K ≤ j → j < btok c bytes → 2 ^ j < bytes) ∨
    (btok c bytes = c.MAX_K ∧ ∀ j, c.SMALLEST_K ≤ j → j < c.MAX_K → 2 ^ j < bytes) := by
  have h31 : ∀ j, c.SMALLEST_K ≤ j → ¬ bytes ≤ intToSize (toInt32 (shl1 j)) → j ≠ 31 := by
    intro j _ hj e
    rw [e, numBytes_31] at hj
    exact hj (le_trans hb (by norm_num))
  have hfail : ∀ j, j ≤ 30 → ¬ bytes ≤ intToSize (toInt32 (shl1 j)) → 2 ^ j < bytes := by
    intro j h30 hj
    rw [numBytes_small h30] at hj
    omega
  unfold btok
  rcases btokLoop_spec c bytes (c.MAX_K - c.SMALLEST_K) c.SMALLEST_K rfl with
    ⟨h1, h2, h3, h4⟩ | ⟨h1, h4⟩
  · left
    generalize btokLoop c bytes (c.MAX_K - c.SMALLEST_K) c.SMALLEST_K = res at *
    have hres : res ≤ 31 := by
      by_contra hgt
      exact h31 31 hc (h4 31 hc (by omega)) rfl
    refine ⟨h1, h2, ?_, ?_⟩
    · by_cases e : res ≤ 30
      · rw [numBytes_small e] at h3; exact h3
      · have : res = 31 := by omega
        rw [this]
        exact le_trans hb (by norm_num)
    · intro j hj1 hj2
      exact hfail j (by omega) (h4 j hj1 hj2)
  · right
    refine ⟨h1, ?_⟩
    have hmax : c.MAX_K ≤ 31 := by
      by_contra hgt
      exact h31 31 hc (h4 31 hc (by omega)) rfl
    intro j hj1 hj2
    exact hfail j (by omega) (h4 j hj1 hj2)

/-- For byte counts above `2 ^ 30` the test at order 31 is the first that passes, whatever
the byte count (up to `2 ^ 64 - 2 ^ 31`): `btok` returns 31. -/
theorem btok_large (c : Config) (h1 : c.SMALLEST_K ≤ 31) (h2 : 31 < c.MAX_K) (bytes : Nat)
    (hb1 : 2 ^ 30 < bytes) (hb2 : bytes ≤ 2 ^ 64 - 2 ^ 31) : btok c bytes = 31 := by
  unfold btok
  rcases btokLoop_spec c bytes (c.MAX_K - c.SMALLEST_K) c.SMALLEST_K rfl with
    ⟨-, g2, g3, g4⟩ | ⟨-, g4⟩
  · generalize btokLoop c bytes (c.MAX_K - c.SMALLEST_K) c.SMALLEST_K = res at *
    rcases Nat.lt_trichotomy res 31 with hlt | heq | hgt
    · exfalso
      rw [numBytes_small (by omega)] at g3
      have : 2 ^ res ≤ 2 ^ 30 := Nat.pow_le_pow_right (by norm_num) (by omega)
      omega
    · exact heq
    · exfalso
      have := g4 31 h1 hgt
      rw [numBytes_31] at this
      exact this hb2
  · exfalso
    have := g4 31 h1 h2
    rw [numBytes_31] at this
    exact this hb2

/-- No test passes for a byte count above `2 ^ 64 - 2 ^ 31`: `btok` returns `MAX_K`. -/
theorem btok_huge (c : Config) (bytes : Nat) (hb : 2 ^ 64 - 2 ^ 31 < bytes) :
    btok c bytes = c.MAX_K := by
  unfold btok
  rcases btokLoop_spec c bytes (c.MAX_K - c.SMALLEST_K) c.SMALLEST_K rfl with
    ⟨-, -, g3, -⟩ | ⟨g1, -⟩
  · exfalso
    generalize btokLoop c bytes (c.MAX_K - c.SMALLEST_K) c.SMALLEST_K = res at *
    rcases Nat.lt_trichotomy res 31 with hlt | heq | hgt
    · rw [numBytes_small (by omega)] at g3
      have : 2 ^ res ≤ 2 ^ 30 := Nat.pow_le_pow_right (by norm_num) (by omega)
      omega
    · rw [heq, numBytes_31] at g3
      omega
    · rw [numBytes_large (by omega)] at g3
      omega
  · exact g1

/-- The order `buddy_init` chooses lies in `[MIN_K, MAX_K]`, and it is `MAX_K` itself for
a size hint above `2 ^ 64 - 2 ^ 31`: the upper clamp never applies. -/
theorem initKval_range (c : Config) (hc : c.WF) (size : Nat) :
    c.MIN_K ≤ initKval c size ∧ initKval c size ≤ c.MAX_K ∧
      (size = 0 → initKval c size = c.DEFAULT_K) ∧
      (2 ^ 64 - 2 ^ 31 < size → initKval c size = c.MAX_K) := by
  refine ⟨initKval_ge c hc size, initKval_le c hc size, ?_, ?_⟩
  · intro h0
    obtain ⟨-, h2, h3, -⟩ := hc
    unfold initKval
    simp only [h0, if_true]
    split_ifs <;> omega
  · intro hs
    obtain ⟨-, h2, h3, -⟩ := hc
    have h0 : size ≠ 0 := by omega
    unfold initKval
    simp only [h0, if_false, btok_huge c size hs]
    split_ifs <;> omega

/-- The classifier gives `btok (2 ^ K) = K` for the orders `K ≤ 30` a pool can have. -/
theorem btok_two_pow (c : Config) (K : Nat) (h1 : c.SMALLEST_K ≤ K) (h2 : K ≤ c.MAX_K)
    (h3 : K ≤ 30) : btok c (2 ^ K) = K := by
  have hmono : ∀ j, 2 ^ j < 2 ^ K → j < K := fun j hj =>
    (Nat.pow_lt_pow_iff_right (by norm_num)).1 hj
  rcases btok_small c (by omega) (2 ^ K) (Nat.pow_le_pow_right (by norm_num) h3) with
    ⟨g1, g2, g3, g4⟩ | ⟨g1, g4⟩
  · have hle : K ≤ btok c (2 ^ K) := (Nat.pow_le_pow_iff_right (by norm_num)).1 g3
    rcases Nat.lt_or_eq_of_le hle with hlt | heq
    · have := hmono K (g4 K h1 hlt)
      omega
    · exact heq.symm
  · rcases Nat.lt_or_eq_of_le h2 with hlt | heq
    · have := hmono K (g4 K h1 hlt)
      omega
    · rw [g1, heq]

/-- The classifier `btok` never returns an order below `SMALLEST_K`. -/
theorem btok_ge (c : Config) (h : c.SMALLEST_K ≤ c.MAX_K) (bytes : Nat) :
    c.SMALLEST_K ≤ btok c bytes := by
  unfold btok
  rcases btokLoop_spec c bytes (c.MAX_K - c.SMALLEST_K) c.SMALLEST_K rfl with
    ⟨-, g2, -⟩ | ⟨g1, -⟩
  · exact g2
  · rw [g1]; exact h

/-- For an order `K` up to 31 in the range of `btok`, `btok (2 ^ K) = K`: up to order 30 the
`int` holds the power of two, at order 31 the test is passed through the negative `int`,
and with `MAX_K = 31` the value is the fallback `MAX_K`. -/
theorem btok_two_pow_le31 (c : Config) (K : Nat) (h1 : c.SMALLEST_K ≤ K) (h2 : K ≤ c.MAX_K)
    (h3 : K ≤ 31) : btok c (2 ^ K) = K := by
  rcases Nat.lt_or_eq_of_le h3 with hlt | heq
  · exact btok_two_pow c K h1 h2 (by omega)
  · subst heq
    rcases Nat.lt_or_eq_of_le h2 with hlt | heq
    · exact btok_large c h1 hlt (2 ^ 31) (by norm_num) (by norm_num)
    · unfold btok
      rcases btokLoop_spec c (2 ^ 31) (c.MAX_K - c.SMALLEST_K) c.SMALLEST_K rfl with
        ⟨g1, -, g3, -⟩ | ⟨g1, -⟩
      · exfalso
        generalize btokLoop c (2 ^ 31) (c.MAX_K - c.SMALLEST_K) c.SMALLEST_K = res at *
        rw [numBytes_small (by omega)] at g3
        have : 2 ^ res ≤ 2 ^ 30 := Nat.pow_le_pow_right (by norm_num) (by omega)
        omega
      · rw [g1]
        exact heq.symm

/-- With the constants of `lab.h`, `buddy_init` chooses an order between 20 and 31, or the
order 48 (for a size hint above `2 ^ 64 - 2 ^ 31`). -/
theorem initKval_lab_orders (hint : Nat) :
    (20 ≤ initKval labConfig hint ∧ initKval labConfig hint ≤ 31) ∨
      (2 ^ 64 - 2 ^ 31 < hint ∧ initKval labConfig hint = 48) := by
  have hge := initKval_ge labConfig labConfig_wf hint
  have hMIN : labConfig.MIN_K = 20 := rfl
  have hMAX : labConfig.MAX_K = 48 := rfl
  have hDEF : labConfig.DEFAULT_K = 30 := rfl
  have hSM : labConfig.SMALLEST_K = 6 := rfl
  by_cases h0 : hint = 0
  · left
    refine ⟨hge, ?_⟩
    subst h0
    decide
  · have hb : (btok labConfig hint ≤ 31) ∨ (2 ^ 64 - 2 ^ 31 < hint ∧ btok labConfig hint = 48) := by
      by_cases hs : hint ≤ 2 ^ 30
      · left
        rcases btok_small labConfig (by decide) hint hs with ⟨-, -, -, g4⟩ | ⟨-, g4⟩
        · by_contra hcon
          have := g4 30 (by rw [hSM]; norm_num) (by omega)
          omega
        · have := g4 30 (by rw [hSM]; norm_num) (by rw [hMAX]; norm_num)
          omega
      · by_cases hl : hint ≤ 2 ^ 64 - 2 ^ 31
        · left
          rw [btok_large labConfig (by decide) (by decide) hint (by omega) hl]
        · right
          exact ⟨by omega, btok_huge labConfig hint (by omega)⟩
    unfold initKval
    simp only [h0, if_false, hMIN, hMAX]
    rcases hb with hb | ⟨hb1, hb2⟩
    · left
      split_ifs <;> omega
    · right
      refine ⟨hb1, ?_⟩
      rw [hb2]
      simp

/-! ## Doubly linked lists -/

@[simp] theorem setTag_fields (p : Pool) (q : Ptr) (v : Nat) :
    (p.setTag q v).kval_m = p.kval_m ∧ (p.setTag q v).numbytes = p.numbytes ∧
    (p.setTag q v).kval = p.kval ∧ (p.setTag q v).next = p.next ∧
    (p.setTag q v).prev = p.prev ∧ (p.setTag q v).tag = Function.update p.tag q v :=
  ⟨rfl, rfl, rfl, rfl, rfl, rfl⟩

@[simp] theorem setKval_fields (p : Pool) (q : Ptr) (v : Nat) :
    (p.setKval q v).kval_m = p.kval_m ∧ (p.setKval q v).numbytes = p.numbytes ∧
    (p.setKval q v).tag = p.tag ∧ (p.setKval q v).next = p.next ∧
    (p.setKval q v).prev = p.prev ∧ (p.setKval q v).kval = Function.update p.kval q v :=
  ⟨rfl, rfl, rfl, rfl, rfl, rfl⟩

@[simp] theorem setNext_fields (p : Pool) (q : Ptr) (v : Ptr) :
    (p.setNext q v).kval_m = p.kval_m ∧ (p.setNext q v).numbytes = p.numbytes ∧
    (p.setNext q v).tag = p.tag ∧ (p.setNext q v).kval = p.kval ∧
    (p.setNext q v).prev = p.prev ∧ (p.setNext q v).next = Function.update p.next q v :=
  ⟨rfl, rfl, rfl, rfl, rfl, rfl⟩

@[simp] theorem setPrev_fields (p : Pool) (q : Ptr) (v : Ptr) :
    (p.setPrev q v).kval_m = p.kval_m ∧ (p.setPrev q v).numbytes = p.numbytes ∧
    (p.setPrev q v).tag = p.tag ∧ (p.setPrev q v).kval = p.kval ∧
    (p.setPrev q v).next = p.next ∧ (p.setPrev q v).prev = Function.update p.prev q v :=
  ⟨rfl, rfl, rfl, rfl, rfl, rfl⟩

theorem Links.frame {p q : Pool} :
    ∀ (l : List Nat) (a z : Ptr), Links p a l z → q.next a = p.next a →
      (∀ o ∈ l, q.next (blk o) = p.next (blk o)) →
      (∀ o ∈ l, q.prev (blk o) = p.prev (blk o)) → q.prev z = p.prev z → Links q a l z := by
  intro l
  induction l with
  | nil =>
    intro a z h ha _ _ hz
    exact ⟨ha.trans h.1, hz.trans h.2⟩
  | cons o l ih =>
    intro a z h ha hn hp hz
    obtain ⟨h1, h2, h3⟩ := h
    refine ⟨ha.trans h1, (hp o (List.mem_cons_self _ _)).trans h2, ?_⟩
    exact ih (blk o) z h3 (hn o (List.mem_cons_self _ _))
      (fun o2 ho2 => hn o2 (List.mem_cons_of_mem _ ho2))
      (fun o2 ho2 => hp o2 (List.mem_cons_of_mem _ ho2)) hz

theorem walk_links (p : Pool) (i : Nat) :
    ∀ (l : List Nat) (a : Ptr) (fuel : Nat), Links p a l (head i) → l.length ≤ fuel →
      walk p (head i) fuel (p.next a) = l := by
  intro l
  induction l with
  | nil =>
    intro a fuel h _
    cases fuel with
    | zero => rfl
    | succ n => simp [walk, h.1]
  | cons o l ih =>
    intro a fuel h hf
    cases fuel with
    | zero => simp at hf
    | succ n =>
      obtain ⟨h1, _, h3⟩ := h
      simp only [walk, h1]
      have : ¬ (blk o = head i) := by simp
      simp only [this, if_false]
      rw [ih (blk o) n h3 (by simpa using hf)]

theorem insertHead_fields (p : Pool) (i n : Nat) :
    (insertHead p i n).kval_m = p.kval_m ∧ (insertHead p i n).numbytes = p.numbytes ∧
    (insertHead p i n).tag = p.tag ∧ (insertHead p i n).kval = p.kval ∧
    (insertHead p i n).next =
      Function.update (Function.update p.next (blk n) (p.next (head i))) (head i) (blk n) ∧
    (insertHead p i n).prev =
      Function.update (Function.update p.prev (blk n) (head i)) (p.next (head i)) (blk n) := by
  simp [insertHead]

theorem Links.insertHead {p : Pool} {i n : Nat} {l : List Nat}
    (h : Links p (head i) l (head i)) (hn : n ∉ l) (hl : l.Nodup) :
    Links (Buddy.insertHead p i n) (head i) (n :: l) (head i) := by
  obtain ⟨-, -, -, -, hnx, hpv⟩ := insertHead_fields p i n
  cases l with
  | nil =>
    obtain ⟨h1, h2⟩ := h
    refine ⟨?_, ?_, ?_, ?_⟩
    · rw [hnx]; simp
    · rw [hpv, h1]; simp
    · rw [hnx, h1]; simp
    · rw [hpv, h1]; simp
  | cons o l =>
    obtain ⟨h1, h2, h3⟩ := h
    have hno : n ≠ o := fun e => hn (e ▸ List.mem_cons_self _ _)
    have hol : o ∉ l := (List.nodup_cons.1 hl).1
    refine ⟨?_, ?_, ?_, ?_, ?_⟩
    · rw [hnx]; simp
    · rw [hpv, h1]; simp [hno]
    · rw [hnx, h1]; simp
    · rw [hpv, h1]; simp
    · refine Links.frame l (blk o) (head i) h3 ?_ ?_ ?_ ?_
      · rw [hnx]; simp [Function.update_apply, Ne.symm hno]
      · intro o2 ho2
        have : o2 ≠ n := fun e => hn (e ▸ List.mem_cons_of_mem _ ho2)
        rw [hnx]; simp [Function.update_apply, this]
      · intro o2 ho2
        have h4 : o2 ≠ n := fun e => hn (e ▸ List.mem_cons_of_mem _ ho2)
        have h5 : o2 ≠ o := fun e => hol (e ▸ ho2)
        rw [hpv, h1]; simp [Function.update_apply, h4, h5]
      · rw [hpv, h1]; simp [Function.update_apply]

theorem unlink_fields (p : Pool) (q : Ptr) :
    (unlink p q).kval_m = p.kval_m ∧ (unlink p q).numbytes = p.numbytes ∧
    (unlink p q).tag = p.tag ∧ (unlink p q).kval = p.kval ∧
    (unlink p q).next = Function.update p.next (p.prev q) (p.next q) ∧
    (unlink p q).prev = Function.update p.prev (p.next q) (p.prev q) := by
  refine ⟨rfl, rfl, rfl, rfl, rfl, ?_⟩
  simp only [unlink, setPrev_fields, setNext_fields, Function.update_apply]
  split_ifs <;> rfl

/-- The predecessor of a member of a chain is the start of the chain or a member before it. -/
theorem Links.prev_mem {p : Pool} {b : Nat} {l2 : List Nat} {z : Ptr} :
    ∀ (l1 : List Nat) (a : Ptr), Links p a (l1 ++ b :: l2) z →
      (l1 = [] ∧ p.prev (blk b) = a) ∨ ∃ o ∈ l1, p.prev (blk b) = blk o := by
  intro l1
  induction l1 with
  | nil => intro a h; exact Or.inl ⟨rfl, h.2.1⟩
  | cons o l1 ih =>
    intro a h
    right
    rcases ih (blk o) h.2.2 with ⟨-, h1⟩ | ⟨o2, h1, h2⟩
    · exact ⟨o, List.mem_cons_self _ _, h1⟩
    · exact ⟨o2, List.mem_cons_of_mem _ h1, h2⟩

/-- The successor of a member of a chain is the end of the chain or a member after it. -/
theorem Links.next_mem {p : Pool} {b : Nat} {l2 : List Nat} {z : Ptr} :
    ∀ (l1 : List Nat) (a : Ptr), Links p a (l1 ++ b :: l2) z →
      (l2 = [] ∧ p.next (blk b) = z) ∨ ∃ o ∈ l2, p.next (blk b) = blk o := by
  intro l1
  induction l1 with
  | nil =>
    intro a h
    cases l2 with
    | nil => exact Or.inl ⟨rfl, h.2.2.1⟩
    | cons o l2 => exact Or.inr ⟨o, List.mem_cons_self _ _, h.2.2.1⟩
  | cons o l1 ih => intro a h; exact ih (blk o) h.2.2

theorem Links.unlink {p : Pool} {b : Nat} {l2 : List Nat} {z : Ptr} :
    ∀ (l1 : List Nat) (a : Ptr), Links p a (l1 ++ b :: l2) z → (l1 ++ b :: l2).Nodup →
      (∀ o ∈ l1 ++ b :: l2, blk o ≠ a ∧ blk o ≠ z) →
      Links (Buddy.unlink p (blk b)) a (l1 ++ l2) z := by
  obtain ⟨-, -, -, -, hnx, hpv⟩ := unlink_fields p (blk b)
  intro l1
  induction l1 with
  | nil =>
    intro a h hnd haz
    obtain ⟨h1, h2, h3⟩ := h
    simp only [List.nil_append] at hnd haz ⊢
    cases l2 with
    | nil =>
      obtain ⟨h4, h5⟩ := h3
      exact ⟨by rw [hnx, h2, h4]; simp, by rw [hpv, h2, h4]; simp⟩
    | cons o l2 =>
      obtain ⟨h4, h5, h6⟩ := h3
      have hbo : b ≠ o := fun e => (List.nodup_cons.1 hnd).1 (e ▸ List.mem_cons_self _ _)
      have hnd2 : (o :: l2).Nodup := (List.nodup_cons.1 hnd).2
      have hoa := haz o (List.mem_cons_of_mem _ (List.mem_cons_self _ _))
      refine ⟨by rw [hnx, h2, h4]; simp, by rw [hpv, h2, h4]; simp, ?_⟩
      refine Links.frame l2 (blk o) z h6 ?_ ?_ ?_ ?_
      · rw [hnx, h2]; simp [Function.update_apply, hoa.1]
      · intro o2 ho2
        have := haz o2 (List.mem_cons_of_mem _ (List.mem_cons_of_mem _ ho2))
        rw [hnx, h2]; simp [Function.update_apply, this.1]
      · intro o2 ho2
        have : o2 ≠ o := fun e => (List.nodup_cons.1 hnd2).1 (e ▸ ho2)
        rw [hpv, h4]; simp [Function.update_apply, this]
      · rw [hpv, h4]; simp [Function.update_apply, Ne.symm hoa.2]
  | cons o l1 ih =>
    intro a h hnd haz
    have h0 := h
    obtain ⟨h1, h2, h3⟩ := h
    simp only [List.cons_append] at hnd haz ⊢
    have hnd2 := (List.nodup_cons.1 hnd).2
    have ho := (List.nodup_cons.1 hnd).1
    have hoa := haz o (List.mem_cons_self _ _)
    refine ⟨?_, ?_, ?_⟩
    · rcases Links.prev_mem (o :: l1) a h0 with ⟨h4, -⟩ | ⟨o2, h4, h5⟩
      · simp at h4
      · have := (haz o2 (by
          rcases List.mem_cons.1 h4 with e | e
          · exact e ▸ List.mem_cons_self _ _
          · exact List.mem_cons_of_mem _ (List.mem_append_left _ e))).1
        rw [hnx, h5]; simp only [Function.update_apply, Ne.symm this, if_false]; exact h1
    · rcases Links.next_mem (o :: l1) a h0 with ⟨-, h4⟩ | ⟨o2, h4, h5⟩
      · rw [hpv, h4]; simp only [Function.update_apply, hoa.2, if_false]; exact h2
      · have : o ≠ o2 := fun e => ho (e ▸ List.mem_append_right _ (List.mem_cons_of_mem _ h4))
        rw [hpv, h5]; simp only [Function.update_apply]
        rw [if_neg (by simpa using this)]; exact h2
    · refine ih (blk o) h3 hnd2 ?_
      intro o2 ho2
      refine ⟨?_, (haz o2 (List.mem_cons_of_mem _ ho2)).2⟩
      intro e
      exact ho ((Ptr.blk.inj e) ▸ ho2)

theorem takeHead_fields (c : Config) (p : Pool) (j o : Nat) (h : p.next (head j) = blk o) :
    (takeHead c p j).kval_m = p.kval_m ∧ (takeHead c p j).numbytes = p.numbytes ∧
    (takeHead c p j).tag = Function.update p.tag (blk o) c.BLOCK_RESERVED ∧
    (takeHead c p j).kval = Function.update p.kval (blk o) j ∧
    (takeHead c p j).next = Function.update p.next (head j) (p.next (blk o)) ∧
    (takeHead c p j).prev = Function.update p.prev (p.next (blk o)) (head j) := by
  simp [takeHead, h]

theorem Links.takeHead {c : Config} {p : Pool} {j o : Nat} {l : List Nat}
    (h : Links p (head j) (o :: l) (head j)) (hl : (o :: l).Nodup) :
    Links (Buddy.takeHead c p j) (head j) l (head j) := by
  obtain ⟨h1, h2, h3⟩ := h
  obtain ⟨-, -, -, -, hnx, hpv⟩ := takeHead_fields c p j o h1
  cases l with
  | nil =>
    obtain ⟨h4, h5⟩ := h3
    exact ⟨by rw [hnx, h4]; simp, by rw [hpv, h4]; simp⟩
  | cons o2 l =>
    obtain ⟨h4, h5, h6⟩ := h3
    have hnd2 := (List.nodup_cons.1 hl).2
    refine ⟨by rw [hnx, h4]; simp, by rw [hpv, h4]; simp, ?_⟩
    refine Links.frame l (blk o2) (head j) h6 ?_ ?_ ?_ ?_
    · rw [hnx]; simp [Function.update_apply]
    · intro o3 _
      rw [hnx]; simp [Function.update_apply]
    · intro o3 ho3
      have : o3 ≠ o2 := fun e => (List.nodup_cons.1 hnd2).1 (e ▸ ho3)
      rw [hpv, h4]; simp [Function.update_apply, this]
    · rw [hpv, h4]; simp [Function.update_apply]

/-! ## Arithmetic of aligned blocks -/

/-- Two multiples of `d` that are less than `d` apart are in order. -/
theorem le_of_dvd_of_lt_add {d a b : Nat} (ha : d ∣ a) (hb : d ∣ b) (h : a < b + d) : a ≤ b := by
  obtain ⟨x, rfl⟩ := ha
  obtain ⟨y, rfl⟩ := hb
  have hd : 0 < d := by
    rcases Nat.eq_zero_or_pos d with h0 | h0
    · subst h0; simp at h
    · exact h0
  have : d * x < d * (y + 1) := by rw [Nat.mul_add, Nat.mul_one]; exact h
  have := Nat.lt_of_mul_lt_mul_left this
  exact Nat.mul_le_mul_left d (by omega)

theorem pow_succ_dvd_or {k f : Nat} (h : 2 ^ k ∣ f) :
    2 ^ (k + 1) ∣ f ∨ (2 ^ k ≤ f ∧ 2 ^ (k + 1) ∣ f - 2 ^ k) := by
  obtain ⟨m, rfl⟩ := h
  rcases Nat.even_or_odd m with ⟨n, hn⟩ | ⟨n, hn⟩
  · left
    exact ⟨n, by rw [hn, pow_succ]; ring⟩
  · right
    have hpos : 0 < 2 ^ k := Nat.two_pow_pos k
    refine ⟨by rw [hn]; nlinarith, n, ?_⟩
    rw [hn, pow_succ]
    have : 2 ^ k * (2 * n + 1) = 2 ^ k * 2 * n + 2 ^ k := by ring
    rw [this, Nat.add_sub_cancel]

theorem xor_pow_of_dvd {k o : Nat} (h : 2 ^ (k + 1) ∣ o) : o ^^^ 2 ^ k = o + 2 ^ k := by
  obtain ⟨a, rfl⟩ := h
  have hlt : 2 ^ k < 2 ^ (k + 1) := Nat.pow_lt_pow_right (by norm_num) (Nat.lt_succ_self k)
  apply Nat.eq_of_testBit_eq
  intro j
  rw [Nat.testBit_xor, Nat.testBit_mul_pow_two_add a hlt, Nat.testBit_mul_pow_two,
    Nat.testBit_two_pow]
  by_cases hj : j < k + 1
  · have : ¬ (j ≥ k + 1) := by omega
    simp [hj, this]
  · have h1 : j ≥ k + 1 := by omega
    have h2 : k ≠ j := by omega
    simp [hj, h1, h2]

theorem xor_pow_of_dvd_sub {k f : Nat} (h1 : 2 ^ k ≤ f) (h : 2 ^ (k + 1) ∣ f - 2 ^ k) :
    f ^^^ 2 ^ k = f - 2 ^ k := by
  have h2 := xor_pow_of_dvd h
  rw [Nat.sub_add_cancel h1] at h2
  have h3 := Nat.xor_cancel_right (2 ^ k) (f - 2 ^ k)
  rw [h2] at h3
  exact h3

/-- An aligned block that starts at or before an aligned address of at least its own
order and reaches beyond it starts at that address. -/
theorem start_eq_of_aligned {j k z b : Nat} (hz : 2 ^ j ∣ z) (hb : 2 ^ k ∣ b) (hjk : j ≤ k)
    (h1 : z ≤ b) (h2 : b < z + 2 ^ j) : z = b := by
  have hb2 : 2 ^ j ∣ b := Nat.dvd_trans (Nat.pow_dvd_pow 2 hjk) hb
  exact Nat.le_antisymm h1 (le_of_dvd_of_lt_add hb2 hz h2)

/-- An aligned block of order above `k` that meets an aligned block of order `k + 1`
contains it. -/
theorem contains_of_aligned {j k z P y : Nat} (hz : 2 ^ j ∣ z) (hP : 2 ^ (k + 1) ∣ P)
    (hkj : k < j) (h1 : z ≤ y) (h2 : y < z + 2 ^ j) (h3 : P ≤ y) (h4 : y < P + 2 ^ (k + 1)) :
    z ≤ P ∧ P + 2 ^ (k + 1) ≤ z + 2 ^ j := by
  have hd : 2 ^ (k + 1) ∣ 2 ^ j := Nat.pow_dvd_pow 2 hkj
  have hz2 : 2 ^ (k + 1) ∣ z := Nat.dvd_trans hd hz
  have hz3 : 2 ^ (k + 1) ∣ z + 2 ^ j := Nat.dvd_add hz2 hd
  refine ⟨le_of_dvd_of_lt_add hz2 hP (by omega), ?_⟩
  have : P + 2 ^ (k + 1) ≤ z + 2 ^ j :=
    le_of_dvd_of_lt_add (Nat.dvd_add hP (dvd_refl _)) hz3 (by omega)
  exact this

/-! ## The invariant holds initially -/

/-- The free lists of a fresh pool of order `K`. -/
theorem mem_initial_lists {K i o : Nat} :
    o ∈ (fun i => if i = K then [0] else ([] : List Nat)) i ↔ i = K ∧ o = 0 := by
  by_cases h : i = K <;> simp [h]

theorem inv_init (c : Config) (hc : c.WF) (size : Nat) :
    Inv c (buddy_init c size) (fun i => if i = initKval c size then [0] else []) [] none := by
  obtain ⟨h1, h2, h3, h4, h5, h6⟩ := buddy_init_fields c size
  have hK : initKval c size < 64 := lt_of_le_of_lt (initKval_le c hc size) hc.2.2.2.1
  have hlive : ∀ o, Live (fun i => if i = initKval c size then [0] else []) [] o → o = 0 := by
    rintro o (h | ⟨i, h⟩)
    · simp at h
    · exact (mem_initial_lists.1 h).2
  refine
    { K_lt := by rw [h1]; exact hK
      numbytes_eq := by rw [h1, h2, shl1_eq hK]
      head_tag := ?_
      lists := ?_
      above := ?_
      nodup := ?_
      res_nodup := List.nodup_nil
      free_tag := ?_
      res_tag := ?_
      sep := ?_
      inflight := ?_
      aligned := ?_
      disjoint := ?_
      cover := ?_
      nobuddy := ?_
      order_ge := ?_ }
  · intro i hi
    rw [h1] at hi
    rw [h5]; simp [hi]
  · intro i hi
    rw [h1] at hi
    by_cases e : i = initKval c size
    · subst e
      simp only [if_true]
      refine ⟨?_, ?_, ?_, ?_⟩ <;> simp [h3, h4]
    · simp only [e, if_false]
      refine ⟨?_, ?_⟩ <;> simp [h3, h4, e, hi]
  · intro i hi
    rw [h1] at hi
    have : i ≠ initKval c size := by omega
    simp [this]
  · intro i
    by_cases e : i = initKval c size <;> simp [e]
  · intro i o ho
    obtain ⟨-, rfl⟩ := mem_initial_lists.1 ho
    simp [h5, h6]
    exact (mem_initial_lists.1 ho).1.symm
  · intro o ho; simp at ho
  · intro i o _; simp
  · intro o ho; simp at ho
  · intro o ho
    have := hlive o ho
    subst this
    simp [h1, h6]
  · intro o o2 ho ho2 _ _
    rw [hlive o ho, hlive o2 ho2]
  · intro y hy
    rw [h1] at hy
    refine ⟨0, Or.inr ⟨initKval c size, by simp⟩, Nat.zero_le _, ?_⟩
    simp [h6, hy]
  · intro i o hi ho
    rw [h1] at hi
    have := (mem_initial_lists.1 ho).1
    omega
  · intro o ho
    have := hlive o ho
    subst this
    rw [h6]
    simp only [if_true]
    exact le_trans hc.1 (initKval_ge c hc size)

/-! ## Consequences of the invariant -/

theorem mem_update_list {fl : Nat → List Nat} {j i y : Nat} {l : List Nat} :
    y ∈ Function.update fl j l i ↔ (i = j ∧ y ∈ l) ∨ (i ≠ j ∧ y ∈ fl i) := by
  by_cases h : i = j
  · subst h; simp
  · simp [Function.update_noteq h, h]

theorem Inv.mem_unique {c : Config} {p : Pool} {fl : Nat → List Nat} {res : List Nat}
    {x : Option Nat} (h : Inv c p fl res x) {o i i2 : Nat} (h1 : o ∈ fl i) (h2 : o ∈ fl i2) :
    i = i2 := by
  rw [← (h.free_tag i o h1).2, ← (h.free_tag i2 o h2).2]

/-- Under the invariant the head of a list is the sentinel itself exactly when the list is
empty, and an arena block otherwise. -/
theorem Inv.next_head {c : Config} {p : Pool} {fl : Nat → List Nat} {res : List Nat}
    {x : Option Nat} (h : Inv c p fl res x) {i : Nat} (hi : i ≤ p.kval_m) :
    (fl i = [] ∧ p.next (head i) = head i) ∨
      ∃ o l, fl i = o :: l ∧ p.next (head i) = blk o := by
  have := h.lists i hi
  cases e : fl i with
  | nil => rw [e] at this; exact Or.inl ⟨rfl, this.1⟩
  | cons o l => rw [e] at this; exact Or.inr ⟨o, l, rfl, this.1⟩

/-! ## Step R2 keeps the invariant -/

theorem inv_takeHead {c : Config} {p : Pool} {fl : Nat → List Nat} {res : List Nat}
    (h : Inv c p fl res none) {j o : Nat} {l : List Nat} (hj : j ≤ p.kval_m)
    (hfl : fl j = o :: l) :
    Inv c (takeHead c p j) (Function.update fl j l) (o :: res) none := by
  have hL := h.lists j hj
  rw [hfl] at hL
  have hnd : (o :: l).Nodup := hfl ▸ h.nodup j
  have hoj : o ∈ fl j := by rw [hfl]; exact List.mem_cons_self _ _
  have hlj : ∀ y, y ∈ l → y ∈ fl j := fun y hy => by rw [hfl]; exact List.mem_cons_of_mem _ hy
  obtain ⟨e1, e2, e3, e4, e5, e6⟩ := takeHead_fields c p j o hL.1
  have e4b : (takeHead c p j).kval = p.kval := by
    rw [e4, ← (h.free_tag j o hoj).2]; exact Function.update_eq_self _ _
  have hnb : (l = [] ∧ p.next (blk o) = head j) ∨ ∃ o2 ∈ l, p.next (blk o) = blk o2 :=
    Links.next_mem [] (head j) hL
  have hlive : ∀ y, Live (Function.update fl j l) (o :: res) y ↔ Live fl res y := by
    intro y
    constructor
    · rintro (hy | ⟨i, hy⟩)
      · rcases List.mem_cons.1 hy with e | e
        · exact Or.inr ⟨j, e ▸ hoj⟩
        · exact Or.inl e
      · rcases mem_update_list.1 hy with ⟨-, hy2⟩ | ⟨-, hy2⟩
        · exact Or.inr ⟨j, hlj y hy2⟩
        · exact Or.inr ⟨i, hy2⟩
    · rintro (hy | ⟨i, hy⟩)
      · exact Or.inl (List.mem_cons_of_mem _ hy)
      · by_cases hij : i = j
        · subst hij
          rw [hfl] at hy
          rcases List.mem_cons.1 hy with e | e
          · exact Or.inl (e ▸ List.mem_cons_self _ _)
          · exact Or.inr ⟨i, mem_update_list.2 (Or.inl ⟨rfl, e⟩)⟩
        · exact Or.inr ⟨i, mem_update_list.2 (Or.inr ⟨hij, hy⟩)⟩
  have hmem : ∀ i y, y ∈ Function.update fl j l i → y ∈ fl i ∧ y ≠ o := by
    intro i y hy
    rcases mem_update_list.1 hy with ⟨e, hy2⟩ | ⟨e, hy2⟩
    · subst e
      exact ⟨hlj y hy2, fun e2 => (List.nodup_cons.1 hnd).1 (e2 ▸ hy2)⟩
    · exact ⟨hy2, fun e2 => e (h.mem_unique (e2 ▸ hy2) hoj)⟩
  refine
    { K_lt := by rw [e1]; exact h.K_lt
      numbytes_eq := by rw [e1, e2]; exact h.numbytes_eq
      head_tag := ?_
      lists := ?_
      above := ?_
      nodup := ?_
      res_nodup := List.nodup_cons.2 ⟨h.sep j o hoj, h.res_nodup⟩
      free_tag := ?_
      res_tag := ?_
      sep := ?_
      inflight := by intro y hy; simp at hy
      aligned := ?_
      disjoint := ?_
      cover := ?_
      nobuddy := ?_
      order_ge := ?_ }
  · intro i hi
    rw [e1] at hi
    rw [e3]; simp [Function.update_apply]; exact h.head_tag i hi
  · intro i hi
    rw [e1] at hi
    by_cases hij : i = j
    · subst hij
      rw [Function.update_same]
      exact Links.takeHead (hfl ▸ h.lists i hi) hnd
    · rw [Function.update_noteq hij]
      refine Links.frame (fl i) (head i) (head i) (h.lists i hi) ?_ ?_ ?_ ?_
      · rw [e5]; simp [Function.update_apply, hij]
      · intro m _; rw [e5]; simp [Function.update_apply]
      · intro m hm
        rw [e6]
        rcases hnb with ⟨-, e⟩ | ⟨o2, ho2, e⟩
        · rw [e]; simp [Function.update_apply]
        · have : m ≠ o2 := fun e2 => hij (h.mem_unique hm (e2 ▸ hlj o2 ho2))
          rw [e]; simp [Function.update_apply, this]
      · rw [e6]
        rcases hnb with ⟨-, e⟩ | ⟨o2, ho2, e⟩
        · rw [e]; simp [Function.update_apply, hij]
        · rw [e]; simp [Function.update_apply]
  · intro i hi
    rw [e1] at hi
    have : i ≠ j := by omega
    rw [Function.update_noteq this]
    exact h.above i hi
  · intro i
    by_cases hij : i = j
    · subst hij
      rw [Function.update_same]
      exact (List.nodup_cons.1 hnd).2
    · rw [Function.update_noteq hij]; exact h.nodup i
  · intro i y hy
    obtain ⟨h1, h2⟩ := hmem i y hy
    rw [e3, e4b]
    simp only [Function.update_apply]
    rw [if_neg (by simpa using h2)]
    exact h.free_tag i y h1
  · intro y hy _
    rw [e3]
    rcases List.mem_cons.1 hy with e | e
    · subst e; simp
    · have : y ≠ o := fun e2 => h.sep j o hoj (e2 ▸ e)
      simp only [Function.update_apply]
      rw [if_neg (by simpa using this)]
      exact h.res_tag y e (by simp)
  · intro i y hy hy2
    obtain ⟨h1, h2⟩ := hmem i y hy
    rcases List.mem_cons.1 hy2 with e | e
    · exact h2 e
    · exact h.sep i y h1 e
  · intro y hy
    rw [e4b, e1]
    exact h.aligned y ((hlive y).1 hy)
  · intro y y2 hy hy2
    rw [e4b]
    exact h.disjoint y y2 ((hlive y).1 hy) ((hlive y2).1 hy2)
  · intro y hy
    rw [e1] at hy
    obtain ⟨z, hz, hz2⟩ := h.cover y hy
    exact ⟨z, (hlive z).2 hz, by rw [e4b]; exact hz2⟩
  · intro i y hi hy hy2
    rw [e1] at hi
    exact h.nobuddy i y hi (hmem i y hy).1 (hmem i _ hy2).1
  · intro y hy
    rw [e4b]
    exact h.order_ge y ((hlive y).1 hy)

/-! ## Step R4 keeps the invariant -/

theorem Links.congr {p q : Pool} (hn : q.next = p.next) (hp : q.prev = p.prev) {a z : Ptr}
    {l : List Nat} (h : Links p a l z) : Links q a l z :=
  Links.frame l a z h (by rw [hn]) (fun _ _ => by rw [hn]) (fun _ _ => by rw [hp]) (by rw [hp])

theorem splitStep_fields (c : Config) (p : Pool) (o k : Nat) :
    (splitStep c o k p).kval_m = p.kval_m ∧ (splitStep c o k p).numbytes = p.numbytes ∧
    (splitStep c o k p).tag = Function.update p.tag (blk (o + shl1 k)) c.BLOCK_AVAIL ∧
    (splitStep c o k p).kval =
      Function.update (Function.update p.kval (blk (o + shl1 k)) k) (blk o) k ∧
    (splitStep c o k p).next =
      Function.update (Function.update p.next (blk (o + shl1 k)) (p.next (head k))) (head k)
        (blk (o + shl1 k)) ∧
    (splitStep c o k p).prev =
      Function.update (Function.update p.prev (blk (o + shl1 k)) (head k)) (p.next (head k))
        (blk (o + shl1 k)) := by
  simp [splitStep, insertHead]

theorem inv_splitStep {c : Config} {p : Pool} {fl : Nat → List Nat} {res : List Nat}
    (h : Inv c p fl res none) {o k : Nat} (ho : o ∈ res) (hk : p.kval (blk o) = k + 1)
    (hsk : c.SMALLEST_K ≤ k) :
    Inv c (splitStep c o k p) (Function.update fl k ((o + 2 ^ k) :: fl k)) res none ∧
      (splitStep c o k p).kval (blk o) = k ∧
      (splitStep c o k p).kval_m = p.kval_m ∧
      (∀ y, y ∈ res → y ≠ o → (splitStep c o k p).kval (blk y) = p.kval (blk y)) := by
  obtain ⟨a1, a2, a3⟩ := h.aligned o (Or.inl ho)
  rw [hk] at a1 a2 a3
  have hK := h.K_lt
  have hk64 : k < 64 := by omega
  have hkK : k ≤ p.kval_m := by omega
  have hpos : 0 < 2 ^ k := Nat.two_pow_pos k
  have hpow : 2 ^ (k + 1) = 2 ^ k + 2 ^ k := by rw [pow_succ]; ring
  obtain ⟨e1, e2, e3, e4, e5, e6⟩ := splitStep_fields c p o k
  rw [shl1_eq hk64] at e3 e4 e5 e6
  -- the upper half is no live block yet
  have hb : ¬ Live fl res (o + 2 ^ k) := by
    intro hl
    have := h.disjoint o (o + 2 ^ k) (Or.inl ho) hl
      (by have := Nat.two_pow_pos (p.kval (blk (o + 2 ^ k))); omega) (by rw [hk]; omega)
    omega
  have hbres : o + 2 ^ k ∉ res := fun e => hb (Or.inl e)
  have hbfl : ∀ i, o + 2 ^ k ∉ fl i := fun i e => hb (Or.inr ⟨i, e⟩)
  have hofl : ∀ i, o ∉ fl i := fun i e => h.sep i o e ho
  have hbo : o + 2 ^ k ≠ o := by omega
  have hkv : ∀ y, y ≠ o → y ≠ o + 2 ^ k → (splitStep c o k p).kval (blk y) = p.kval (blk y) := by
    intro y h1 h2
    rw [e4]; simp [Function.update_apply, h1, h2]
  have hkvo : (splitStep c o k p).kval (blk o) = k := by rw [e4]; simp
  have hkvb : (splitStep c o k p).kval (blk (o + 2 ^ k)) = k := by
    rw [e4]; simp [Function.update_apply]
  have hlive : ∀ y, Live (Function.update fl k ((o + 2 ^ k) :: fl k)) res y ↔
      (Live fl res y ∨ y = o + 2 ^ k) := by
    intro y
    constructor
    · rintro (hy | ⟨i, hy⟩)
      · exact Or.inl (Or.inl hy)
      · rcases mem_update_list.1 hy with ⟨e, hy2⟩ | ⟨-, hy2⟩
        · rcases List.mem_cons.1 hy2 with e2 | e2
          · exact Or.inr e2
          · exact Or.inl (Or.inr ⟨k, e2⟩)
        · exact Or.inl (Or.inr ⟨i, hy2⟩)
    · rintro ((hy | ⟨i, hy⟩) | hy)
      · exact Or.inl hy
      · by_cases hik : i = k
        · subst hik
          exact Or.inr ⟨i, mem_update_list.2 (Or.inl ⟨rfl, List.mem_cons_of_mem _ hy⟩)⟩
        · exact Or.inr ⟨i, mem_update_list.2 (Or.inr ⟨hik, hy⟩)⟩
      · exact Or.inr ⟨k, mem_update_list.2 (Or.inl ⟨rfl, hy ▸ List.mem_cons_self _ _⟩)⟩
  have hmem : ∀ i y, y ∈ Function.update fl k ((o + 2 ^ k) :: fl k) i →
      (i = k ∧ y = o + 2 ^ k) ∨ y ∈ fl i := by
    intro i y hy
    rcases mem_update_list.1 hy with ⟨e, hy2⟩ | ⟨-, hy2⟩
    · rcases List.mem_cons.1 hy2 with e2 | e2
      · exact Or.inl ⟨e, e2⟩
      · exact Or.inr (e ▸ e2)
    · exact Or.inr hy2
  have hxor : (o + 2 ^ k) ^^^ 2 ^ k = o := by
    rw [← xor_pow_of_dvd a2, Nat.xor_cancel_right]
  refine ⟨?_, hkvo, e1, fun y hy hyo => hkv y hyo (fun e => hbres (e ▸ hy))⟩
  refine
    { K_lt := by rw [e1]; exact h.K_lt
      numbytes_eq := by rw [e1, e2]; exact h.numbytes_eq
      head_tag := ?_
      lists := ?_
      above := ?_
      nodup := ?_
      res_nodup := h.res_nodup
      free_tag := ?_
      res_tag := ?_
      sep := ?_
      inflight := by intro y hy; simp at hy
      aligned := ?_
      disjoint := ?_
      cover := ?_
      nobuddy := ?_
      order_ge := ?_ }
  · intro i hi
    rw [e1] at hi
    rw [e3]; simp [Function.update_apply]; exact h.head_tag i hi
  · intro i hi
    rw [e1] at hi
    by_cases hik : i = k
    · subst hik
      rw [Function.update_same]
      have := Links.insertHead (h.lists i hi) (hbfl i) (h.nodup i)
      obtain ⟨-, -, -, -, f5, f6⟩ := insertHead_fields p i (o + 2 ^ i)
      exact Links.congr (by rw [e5, f5]) (by rw [e6, f6]) this
    · rw [Function.update_noteq hik]
      refine Links.frame (fl i) (head i) (head i) (h.lists i hi) ?_ ?_ ?_ ?_
      · rw [e5]; simp [Function.update_apply, hik]
      · intro m hm
        have : m ≠ o + 2 ^ k := fun e => hbfl i (e ▸ hm)
        rw [e5]; simp [Function.update_apply, this]
      · intro m hm
        have h1 : m ≠ o + 2 ^ k := fun e => hbfl i (e ▸ hm)
        rw [e6]
        rcases h.next_head hkK with ⟨-, e⟩ | ⟨o2, l2, e7, e⟩
        · rw [e]; simp [Function.update_apply, h1]
        · have : m ≠ o2 := fun e2 =>
            hik (h.mem_unique hm (e2 ▸ (e7 ▸ List.mem_cons_self _ _ : o2 ∈ fl k)))
          rw [e]; simp [Function.update_apply, h1, this]
      · rw [e6]
        rcases h.next_head hkK with ⟨-, e⟩ | ⟨o2, l2, e7, e⟩
        · rw [e]; simp [Function.update_apply, hik]
        · rw [e]; simp [Function.update_apply]
  · intro i hi
    rw [e1] at hi
    have : i ≠ k := by omega
    rw [Function.update_noteq this]
    exact h.above i hi
  · intro i
    by_cases hik : i = k
    · subst hik
      rw [Function.update_same]
      exact List.nodup_cons.2 ⟨hbfl i, h.nodup i⟩
    · rw [Function.update_noteq hik]; exact h.nodup i
  · intro i y hy
    rcases hmem i y hy with ⟨e, e2⟩ | hy2
    · subst e2
      rw [hkvb, e3]
      exact ⟨by simp, e.symm⟩
    · have h1 : y ≠ o + 2 ^ k := fun e => hbfl i (e ▸ hy2)
      have h2 : y ≠ o := fun e => hofl i (e ▸ hy2)
      rw [hkv y h2 h1, e3]
      simp only [Function.update_apply]
      rw [if_neg (by simpa using h1)]
      exact h.free_tag i y hy2
  · intro y hy _
    have h1 : y ≠ o + 2 ^ k := fun e => hbres (e ▸ hy)
    rw [e3]
    simp only [Function.update_apply]
    rw [if_neg (by simpa using h1)]
    exact h.res_tag y hy (by simp)
  · intro i y hy hy2
    rcases hmem i y hy with ⟨-, e2⟩ | hy3
    · exact hbres (e2 ▸ hy2)
    · exact h.sep i y hy3 hy2
  · intro y hy
    rw [e1]
    rcases (hlive y).1 hy with hy2 | hy2
    · by_cases hyo : y = o
      · subst hyo
        rw [hkvo]
        exact ⟨hkK, Nat.dvd_trans (Nat.pow_dvd_pow 2 (Nat.le_succ k)) a2, by omega⟩
      · have h1 : y ≠ o + 2 ^ k := fun e => hb (e ▸ hy2)
        rw [hkv y hyo h1]
        exact h.aligned y hy2
    · subst hy2
      rw [hkvb]
      refine ⟨hkK, Nat.dvd_add (Nat.dvd_trans (Nat.pow_dvd_pow 2 (Nat.le_succ k)) a2)
        (dvd_refl _), by omega⟩
  · intro y y2 hy hy2 h1 h2
    have key : ∀ z, Live fl res z → z ≠ o → z < o + 2 ^ (k + 1) →
        o < z + 2 ^ p.kval (blk z) → False := by
      intro z hz hzo h3 h4
      exact hzo (h.disjoint z o hz (Or.inl ho) (by rw [hk]; exact h3) h4)
    rcases (hlive y).1 hy with hy3 | hy3 <;> rcases (hlive y2).1 hy2 with hy4 | hy4
    · by_cases hyo : y = o <;> by_cases hyo2 : y2 = o
      · rw [hyo, hyo2]
      · subst hyo
        have h3 : y2 ≠ y + 2 ^ k := fun e => hb (e ▸ hy4)
        rw [hkv y2 hyo2 h3] at h1
        rw [hkvo] at h2
        exact absurd (h.disjoint y y2 hy3 hy4 h1 (by rw [hk]; omega)) (Ne.symm hyo2)
      · subst hyo2
        have h3 : y ≠ y2 + 2 ^ k := fun e => hb (e ▸ hy3)
        rw [hkv y hyo h3] at h2
        rw [hkvo] at h1
        exact absurd (h.disjoint y y2 hy3 hy4 (by rw [hk]; omega) h2) hyo
      · have h3 : y ≠ o + 2 ^ k := fun e => hb (e ▸ hy3)
        have h4 : y2 ≠ o + 2 ^ k := fun e => hb (e ▸ hy4)
        rw [hkv y hyo h3] at h2
        rw [hkv y2 hyo2 h4] at h1
        exact h.disjoint y y2 hy3 hy4 h1 h2
    · subst hy4
      rw [hkvb] at h1
      by_cases hyo : y = o
      · subst hyo
        rw [hkvo] at h2
        omega
      · have h3 : y ≠ o + 2 ^ k := fun e => hb (e ▸ hy3)
        rw [hkv y hyo h3] at h2
        exact (key y hy3 hyo (by omega) (by omega)).elim
    · subst hy3
      rw [hkvb] at h2
      by_cases hyo : y2 = o
      · subst hyo
        rw [hkvo] at h1
        omega
      · have h3 : y2 ≠ o + 2 ^ k := fun e => hb (e ▸ hy4)
        rw [hkv y2 hyo h3] at h1
        exact (key y2 hy4 hyo (by omega) (by omega)).elim
    · rw [hy3, hy4]
  · intro y hy
    rw [e1] at hy
    obtain ⟨z, hz, hz1, hz2⟩ := h.cover y hy
    by_cases hzo : z = o
    · subst hzo
      rw [hk] at hz2
      by_cases hlt : y < z + 2 ^ k
      · exact ⟨z, (hlive z).2 (Or.inl hz), hz1, by rw [hkvo]; exact hlt⟩
      · exact ⟨z + 2 ^ k, (hlive _).2 (Or.inr rfl), by omega, by rw [hkvb]; omega⟩
    · have h3 : z ≠ o + 2 ^ k := fun e => hb (e ▸ hz)
      exact ⟨z, (hlive z).2 (Or.inl hz), hz1, by rw [hkv z hzo h3]; exact hz2⟩
  · intro i y hi hy hy2
    rw [e1] at hi
    rcases hmem i y hy with ⟨e, e2⟩ | hy3
    · subst e e2
      rw [hxor] at hy2
      rcases hmem i o hy2 with ⟨-, e3⟩ | hy4
      · omega
      · exact hofl i hy4
    · rcases hmem i _ hy2 with ⟨e, e2⟩ | hy4
      · subst e
        have : y = o := by
          rw [← hxor, ← e2, Nat.xor_cancel_right]
        exact hofl i (this ▸ hy3)
      · exact h.nobuddy i y hi hy3 hy4
  · intro y hy
    rcases (hlive y).1 hy with hy2 | hy2
    · by_cases hyo : y = o
      · subst hyo
        rw [hkvo]
        exact hsk
      · have h1 : y ≠ o + 2 ^ k := fun e => hb (e ▸ hy2)
        rw [hkv y hyo h1]
        exact h.order_ge y hy2
    · subst hy2
      rw [hkvb]
      exact hsk

/-! ## The merge step keeps the invariant -/

theorem mergeStep_fields (p : Pool) (f b : Nat) :
    (mergeStep p f b).2 = (if b < f then b else f) ∧
    (mergeStep p f b).1.kval_m = p.kval_m ∧ (mergeStep p f b).1.numbytes = p.numbytes ∧
    (mergeStep p f b).1.tag = p.tag ∧
    (mergeStep p f b).1.kval =
      Function.update p.kval (blk (if b < f then b else f))
        (p.kval (blk (if b < f then b else f)) + 1) ∧
    (mergeStep p f b).1.next = Function.update p.next (p.prev (blk b)) (p.next (blk b)) ∧
    (mergeStep p f b).1.prev = Function.update p.prev (p.next (blk b)) (p.prev (blk b)) := by
  obtain ⟨-, -, -, u4, u5, u6⟩ := unlink_fields p (blk b)
  refine ⟨rfl, rfl, rfl, rfl, ?_, ?_, ?_⟩
  · simp only [mergeStep, setKval_fields, u4]
  · simp only [mergeStep, setKval_fields, u5]
  · simp only [mergeStep, setKval_fields, u6]

/-- The buddy address of a live block of order below `kval_m` lies in the arena and is
the start of a live block of at most the same order. -/
theorem Inv.buddy_of_live {c : Config} {p : Pool} {fl : Nat → List Nat} {res : List Nat}
    {x : Option Nat} {f : Nat} (h : Inv c p fl res x) (hf : Live fl res f)
    (h1 : p.kval (blk f) < p.kval_m) :
    buddy_calc p f = f ^^^ 2 ^ p.kval (blk f) ∧
    Live fl res (buddy_calc p f) ∧ buddy_calc p f < 2 ^ p.kval_m ∧
    p.kval (blk (buddy_calc p f)) ≤ p.kval (blk f) ∧
    ((2 ^ (p.kval (blk f) + 1) ∣ f ∧ buddy_calc p f = f + 2 ^ p.kval (blk f)) ∨
      (2 ^ (p.kval (blk f) + 1) ∣ buddy_calc p f ∧
        f = buddy_calc p f + 2 ^ p.kval (blk f))) ∧
    (if buddy_calc p f < f then buddy_calc p f else f) + 2 ^ (p.kval (blk f) + 1) ≤
      2 ^ p.kval_m := by
  obtain ⟨a1, a2, a3⟩ := h.aligned f hf
  have hK := h.K_lt
  have hb : buddy_calc p f = f ^^^ 2 ^ p.kval (blk f) := by
    unfold buddy_calc
    simp only []
    rw [shl1_eq (by omega)]
  generalize hkdef : p.kval (blk f) = k at *
  generalize hbdef : buddy_calc p f = b at *
  have hpos : 0 < 2 ^ k := Nat.two_pow_pos k
  have hpow : 2 ^ (k + 1) = 2 ^ k + 2 ^ k := by rw [pow_succ]; ring
  have hdK : 2 ^ (k + 1) ∣ 2 ^ p.kval_m := Nat.pow_dvd_pow 2 h1
  have hcase : (2 ^ (k + 1) ∣ f ∧ b = f + 2 ^ k) ∨ (2 ^ (k + 1) ∣ b ∧ f = b + 2 ^ k) := by
    rcases pow_succ_dvd_or a2 with h4 | ⟨h4, h5⟩
    · exact Or.inl ⟨h4, by rw [hb, xor_pow_of_dvd h4]⟩
    · have := xor_pow_of_dvd_sub h4 h5
      right
      rw [hb, this]
      exact ⟨h5, by omega⟩
  have hP : (if b < f then b else f) + 2 ^ (k + 1) ≤ 2 ^ p.kval_m := by
    rcases hcase with ⟨h4, h5⟩ | ⟨h4, h5⟩
    · have : ¬ b < f := by omega
      rw [if_neg this]
      exact le_of_dvd_of_lt_add (Nat.dvd_add h4 (dvd_refl _)) hdK (by omega)
    · have : b < f := by omega
      rw [if_pos this]
      exact le_of_dvd_of_lt_add (Nat.dvd_add h4 (dvd_refl _)) hdK (by omega)
  have hblt : b < 2 ^ p.kval_m := by
    rcases hcase with ⟨h4, h5⟩ | ⟨h4, h5⟩
    · have : ¬ b < f := by omega
      rw [if_neg this] at hP; omega
    · omega
  have hbk : 2 ^ k ∣ b := by
    rcases hcase with ⟨h4, h5⟩ | ⟨h4, h5⟩
    · rw [h5]; exact Nat.dvd_add a2 (dvd_refl _)
    · exact Nat.dvd_trans (Nat.pow_dvd_pow 2 (Nat.le_succ k)) h4
  obtain ⟨z, hz, hz1, hz2⟩ := h.cover b hblt
  obtain ⟨z1, z2, z3⟩ := h.aligned z hz
  have hzb : z = b ∧ p.kval (blk z) ≤ k := by
    by_cases hj : p.kval (blk z) ≤ k
    · exact ⟨start_eq_of_aligned z2 hbk hj hz1 hz2, hj⟩
    · exfalso
      have hj2 : k < p.kval (blk z) := by omega
      rcases hcase with ⟨h4, h5⟩ | ⟨h4, h5⟩
      · obtain ⟨c1, c2⟩ := contains_of_aligned z2 h4 hj2 hz1 hz2 (by omega) (by omega)
        have := h.disjoint f z hf hz (by omega) (by rw [hkdef]; omega)
        rw [← this, hkdef] at hj2
        omega
      · obtain ⟨c1, c2⟩ := contains_of_aligned z2 h4 hj2 hz1 hz2 (by omega) (by omega)
        have := h.disjoint f z hf hz (by omega) (by rw [hkdef]; omega)
        rw [← this, hkdef] at hj2
        omega
  obtain ⟨hzb1, hzb2⟩ := hzb
  subst hzb1
  exact ⟨hb, hz, hblt, hzb2, hcase, hP⟩

/-- The buddy of the block under release is the start of a live block. -/
theorem Inv.buddy_live {c : Config} {p : Pool} {fl : Nat → List Nat} {res : List Nat}
    {f : Nat} (h : Inv c p fl res (some f)) (h1 : p.kval (blk f) < p.kval_m) :
    buddy_calc p f = f ^^^ 2 ^ p.kval (blk f) ∧
    Live fl res (buddy_calc p f) ∧ buddy_calc p f < 2 ^ p.kval_m ∧
    p.kval (blk (buddy_calc p f)) ≤ p.kval (blk f) ∧
    ((2 ^ (p.kval (blk f) + 1) ∣ f ∧ buddy_calc p f = f + 2 ^ p.kval (blk f)) ∨
      (2 ^ (p.kval (blk f) + 1) ∣ buddy_calc p f ∧
        f = buddy_calc p f + 2 ^ p.kval (blk f))) ∧
    (if buddy_calc p f < f then buddy_calc p f else f) + 2 ^ (p.kval (blk f) + 1) ≤
      2 ^ p.kval_m :=
  h.buddy_of_live (Or.inl (h.inflight f rfl)) h1

theorem Inv.buddy_mem {c : Config} (hc : c.WF) {p : Pool} {fl : Nat → List Nat}
    {res : List Nat} {f : Nat} (h : Inv c p fl res (some f)) (h1 : p.kval (blk f) < p.kval_m)
    (h2 : p.tag (blk (buddy_calc p f)) = c.BLOCK_AVAIL) :
    buddy_calc p f ∈ fl (p.kval (blk (buddy_calc p f))) := by
  obtain ⟨hb, hl, -, -, hcase, -⟩ := h.buddy_live h1
  have hpos : 0 < 2 ^ p.kval (blk f) := Nat.two_pow_pos _
  rcases hl with hl | ⟨i, hl⟩
  · have hne : some (buddy_calc p f) ≠ some f := by
      intro e
      have := Option.some.inj e
      omega
    have := h.res_tag _ hl hne
    rw [h2] at this
    exact absurd this hc.2.2.2.2.2.2.1
  · rw [(h.free_tag i _ hl).2]; exact hl

theorem inv_mergeStep {c : Config} (hc : c.WF) {p : Pool} {fl : Nat → List Nat}
    {res : List Nat} {f : Nat} (h : Inv c p fl res (some f))
    (h1 : p.kval (blk f) < p.kval_m)
    (h2 : p.tag (blk (buddy_calc p f)) = c.BLOCK_AVAIL)
    (h3 : p.kval (blk (buddy_calc p f)) = p.kval (blk f)) :
    (mergeStep p f (buddy_calc p f)).1.kval (blk (mergeStep p f (buddy_calc p f)).2) =
      p.kval (blk f) + 1 ∧
    (∀ y, y ∈ res → y ≠ f →
      (mergeStep p f (buddy_calc p f)).1.kval (blk y) = p.kval (blk y)) ∧
    Inv c (mergeStep p f (buddy_calc p f)).1
      (Function.update fl (p.kval (blk f)) ((fl (p.kval (blk f))).erase (buddy_calc p f)))
      ((mergeStep p f (buddy_calc p f)).2 :: res.erase f)
      (some (mergeStep p f (buddy_calc p f)).2) := by
  have hf : f ∈ res := h.inflight f rfl
  obtain ⟨a1, a2, a3⟩ := h.aligned f (Or.inl hf)
  have hbm := h.buddy_mem hc h1 h2
  obtain ⟨-, hbl, hblt, -, hcase, hPle⟩ := h.buddy_live h1
  obtain ⟨e0, e1, e2, e3, e4, e5, e6⟩ := mergeStep_fields p f (buddy_calc p f)
  rw [h3] at hbm
  generalize hbdef : buddy_calc p f = b at *
  generalize hkdef : p.kval (blk f) = k at *
  generalize hqdef : (mergeStep p f b).1 = q at *
  rw [e0]
  generalize hPdef : (if b < f then b else f) = P at *
  have hpos : 0 < 2 ^ k := Nat.two_pow_pos k
  have hpow : 2 ^ (k + 1) = 2 ^ k + 2 ^ k := by rw [pow_succ]; ring
  have hkP : p.kval (blk P) = k := by
    rw [← hPdef]; split_ifs
    · exact h3
    · exact hkdef
  rw [hkP] at e4
  have hPcase : (P = f ∧ b = P + 2 ^ k) ∨ (P = b ∧ f = P + 2 ^ k) := by
    rcases hcase with ⟨h4, h5⟩ | ⟨h4, h5⟩
    · left
      have : ¬ b < f := by omega
      rw [if_neg this] at hPdef
      exact ⟨hPdef.symm, by omega⟩
    · right
      have : b < f := by omega
      rw [if_pos this] at hPdef
      exact ⟨hPdef.symm, by omega⟩
  have hPd : 2 ^ (k + 1) ∣ P := by
    rcases hcase with ⟨h4, h5⟩ | ⟨h4, h5⟩ <;> rcases hPcase with ⟨h6, h7⟩ | ⟨h6, h7⟩
    · rw [h6]; exact h4
    · omega
    · omega
    · rw [h6]; exact h4
  have hbf : b ≠ f := by rcases hPcase with ⟨h6, h7⟩ | ⟨h6, h7⟩ <;> omega
  have hbres : b ∉ res := h.sep k b hbm
  have hffl : ∀ i, f ∉ fl i := fun i e => h.sep i f e hf
  have hkvP : q.kval (blk P) = k + 1 := by rw [e4]; simp
  have hkv : ∀ y, y ≠ P → q.kval (blk y) = p.kval (blk y) := by
    intro y hy
    rw [e4]; simp [Function.update_apply, hy]
  have hmem : ∀ i y, y ∈ Function.update fl k ((fl k).erase b) i →
      y ∈ fl i ∧ y ≠ b ∧ y ≠ f := by
    intro i y hy
    rcases mem_update_list.1 hy with ⟨e, hy2⟩ | ⟨e, hy2⟩
    · subst e
      have := (List.Nodup.mem_erase_iff (h.nodup i)).1 hy2
      exact ⟨this.2, this.1, fun e2 => hffl i (e2 ▸ this.2)⟩
    · exact ⟨hy2, fun e2 => e (h.mem_unique (e2 ▸ hy2) hbm), fun e2 => hffl i (e2 ▸ hy2)⟩
  have hmemP : ∀ i y, y ∈ Function.update fl k ((fl k).erase b) i → y ≠ P := by
    intro i y hy e
    obtain ⟨-, m1, m2⟩ := hmem i y hy
    rcases hPcase with ⟨h6, -⟩ | ⟨h6, -⟩
    · exact m2 (e.trans h6)
    · exact m1 (e.trans h6)
  have hlive : ∀ y, Live (Function.update fl k ((fl k).erase b)) (P :: res.erase f) y ↔
      ((Live fl res y ∧ y ≠ b ∧ y ≠ f) ∨ y = P) := by
    intro y
    constructor
    · rintro (hy | ⟨i, hy⟩)
      · rcases List.mem_cons.1 hy with e | e
        · exact Or.inr e
        · have := (List.Nodup.mem_erase_iff h.res_nodup).1 e
          exact Or.inl ⟨Or.inl this.2, fun e2 => hbres (e2 ▸ this.2), this.1⟩
      · obtain ⟨m0, m1, m2⟩ := hmem i y hy
        exact Or.inl ⟨Or.inr ⟨i, m0⟩, m1, m2⟩
    · rintro (⟨hy | ⟨i, hy⟩, m1, m2⟩ | hy)
      · exact Or.inl (List.mem_cons_of_mem _
          ((List.Nodup.mem_erase_iff h.res_nodup).2 ⟨m2, hy⟩))
      · by_cases hik : i = k
        · subst hik
          exact Or.inr ⟨i, mem_update_list.2
            (Or.inl ⟨rfl, (List.Nodup.mem_erase_iff (h.nodup i)).2 ⟨m1, hy⟩⟩)⟩
        · exact Or.inr ⟨i, mem_update_list.2 (Or.inr ⟨hik, hy⟩)⟩
      · exact Or.inl (hy ▸ List.mem_cons_self _ _)
  have hnotP : ∀ y, y ≠ b → y ≠ f → y ≠ P := by
    intro y m1 m2 e
    rcases hPcase with ⟨h6, -⟩ | ⟨h6, -⟩
    · exact m2 (e.trans h6)
    · exact m1 (e.trans h6)
  obtain ⟨l1, l2, hsplit⟩ := List.append_of_mem hbm
  have hnd := h.nodup k
  rw [hsplit] at hnd
  have hbl1 : b ∉ l1 := by
    intro e
    have := List.nodup_append.1 hnd
    exact this.2.2 e (List.mem_cons_self _ _)
  have herase : (fl k).erase b = l1 ++ l2 := by
    rw [hsplit, List.erase_append_right _ hbl1, List.erase_cons_head]
  have hLk := h.lists k a1
  rw [hsplit] at hLk
  have hpred := Links.prev_mem l1 (head k) hLk
  have hsucc := Links.next_mem l1 (head k) hLk
  have hl1 : ∀ m, m ∈ l1 → m ∈ fl k := fun m hm => by
    rw [hsplit]; exact List.mem_append_left _ hm
  have hl2 : ∀ m, m ∈ l2 → m ∈ fl k := fun m hm => by
    rw [hsplit]; exact List.mem_append_right _ (List.mem_cons_of_mem _ hm)
  refine ⟨hkvP, fun y hy hyf => hkv y (hnotP y (fun e => hbres (e ▸ hy)) hyf), ?_⟩
  refine
    { K_lt := by rw [e1]; exact h.K_lt
      numbytes_eq := by rw [e1, e2]; exact h.numbytes_eq
      head_tag := ?_
      lists := ?_
      above := ?_
      nodup := ?_
      res_nodup := ?_
      free_tag := ?_
      res_tag := ?_
      sep := ?_
      inflight := ?_
      aligned := ?_
      disjoint := ?_
      cover := ?_
      nobuddy := ?_
      order_ge := ?_ }
  · intro i hi
    rw [e1] at hi
    rw [e3]; exact h.head_tag i hi
  · intro i hi
    rw [e1] at hi
    by_cases hik : i = k
    · subst hik
      rw [Function.update_same, herase]
      have := Links.unlink l1 (head i) hLk hnd (by intro m _; simp)
      obtain ⟨-, -, -, -, u5, u6⟩ := unlink_fields p (blk b)
      exact Links.congr (by rw [e5, u5]) (by rw [e6, u6]) this
    · rw [Function.update_noteq hik]
      refine Links.frame (fl i) (head i) (head i) (h.lists i hi) ?_ ?_ ?_ ?_
      · rw [e5]
        rcases hpred with ⟨-, e⟩ | ⟨m, hm, e⟩
        · rw [e]; simp [Function.update_apply, hik]
        · rw [e]; simp [Function.update_apply]
      · intro y hy
        rw [e5]
        rcases hpred with ⟨-, e⟩ | ⟨m, hm, e⟩
        · rw [e]; simp [Function.update_apply]
        · have : y ≠ m := fun e2 => hik (h.mem_unique hy (e2 ▸ hl1 m hm))
          rw [e]; simp [Function.update_apply, this]
      · intro y hy
        rw [e6]
        rcases hsucc with ⟨-, e⟩ | ⟨m, hm, e⟩
        · rw [e]; simp [Function.update_apply]
        · have : y ≠ m := fun e2 => hik (h.mem_unique hy (e2 ▸ hl2 m hm))
          rw [e]; simp [Function.update_apply, this]
      · rw [e6]
        rcases hsucc with ⟨-, e⟩ | ⟨m, hm, e⟩
        · rw [e]; simp [Function.update_apply, hik]
        · rw [e]; simp [Function.update_apply]
  · intro i hi
    rw [e1] at hi
    have : i ≠ k := by omega
    rw [Function.update_noteq this]
    exact h.above i hi
  · intro i
    by_cases hik : i = k
    · subst hik
      rw [Function.update_same]
      exact (h.nodup i).erase b
    · rw [Function.update_noteq hik]; exact h.nodup i
  · refine List.nodup_cons.2 ⟨?_, h.res_nodup.erase f⟩
    intro e
    have := (List.Nodup.mem_erase_iff h.res_nodup).1 e
    rcases hPcase with ⟨h6, -⟩ | ⟨h6, -⟩
    · exact this.1 h6
    · exact hbres (h6 ▸ this.2)
  · intro i y hy
    obtain ⟨m0, m1, m2⟩ := hmem i y hy
    rw [hkv y (hnotP y m1 m2), e3]
    exact h.free_tag i y m0
  · intro y hy hne
    rcases List.mem_cons.1 hy with e | e
    · exact absurd (congrArg some e) hne
    · have := (List.Nodup.mem_erase_iff h.res_nodup).1 e
      rw [e3]
      exact h.res_tag y this.2 (fun e2 => this.1 (Option.some.inj e2))
  · intro i y hy hy2
    obtain ⟨m0, m1, m2⟩ := hmem i y hy
    rcases List.mem_cons.1 hy2 with e | e
    · exact hnotP y m1 m2 e
    · exact h.sep i y m0 (List.mem_of_mem_erase e)
  · intro y hy
    rw [← Option.some.inj hy]
    exact List.mem_cons_self _ _
  · intro y hy
    rw [e1]
    rcases (hlive y).1 hy with ⟨hy2, m1, m2⟩ | hy2
    · rw [hkv y (hnotP y m1 m2)]
      exact h.aligned y hy2
    · subst hy2
      rw [hkvP]
      exact ⟨by omega, hPd, hPle⟩
  · intro y y2 hy hy2 g1 g2
    have key : ∀ z, Live fl res z → z ≠ b → z ≠ f → z < P + 2 ^ (k + 1) →
        P < z + 2 ^ p.kval (blk z) → False := by
      intro z hz m1 m2 g3 g4
      have hzpos := Nat.two_pow_pos (p.kval (blk z))
      have d1 := h.disjoint z f hz (Or.inl hf)
      have d2 := h.disjoint z b hz hbl
      rw [hkdef] at d1
      rw [h3] at d2
      rcases hPcase with ⟨h6, h7⟩ | ⟨h6, h7⟩
      · by_cases hlt : z < P + 2 ^ k
        · exact m2 (d1 (by omega) (by omega))
        · exact m1 (d2 (by omega) (by omega))
      · by_cases hlt : z < P + 2 ^ k
        · exact m1 (d2 (by omega) (by omega))
        · exact m2 (d1 (by omega) (by omega))
    rcases (hlive y).1 hy with ⟨hy3, m1, m2⟩ | hy3 <;>
      rcases (hlive y2).1 hy2 with ⟨hy4, m3, m4⟩ | hy4
    · rw [hkv y (hnotP y m1 m2)] at g2
      rw [hkv y2 (hnotP y2 m3 m4)] at g1
      exact h.disjoint y y2 hy3 hy4 g1 g2
    · subst hy4
      rw [hkvP] at g1
      rw [hkv y (hnotP y m1 m2)] at g2
      exact (key y hy3 m1 m2 g1 g2).elim
    · subst hy3
      rw [hkvP] at g2
      rw [hkv y2 (hnotP y2 m3 m4)] at g1
      exact (key y2 hy4 m3 m4 g2 g1).elim
    · rw [hy3, hy4]
  · intro y hy
    rw [e1] at hy
    obtain ⟨z, hz, hz1, hz2⟩ := h.cover y hy
    by_cases hzf : z = f
    · subst hzf
      rw [hkdef] at hz2
      refine ⟨P, (hlive P).2 (Or.inr rfl), ?_, ?_⟩
      · rcases hPcase with ⟨h6, h7⟩ | ⟨h6, h7⟩ <;> omega
      · rw [hkvP]; rcases hPcase with ⟨h6, h7⟩ | ⟨h6, h7⟩ <;> omega
    · by_cases hzb : z = b
      · subst hzb
        rw [h3] at hz2
        refine ⟨P, (hlive P).2 (Or.inr rfl), ?_, ?_⟩
        · rcases hPcase with ⟨h6, h7⟩ | ⟨h6, h7⟩ <;> omega
        · rw [hkvP]; rcases hPcase with ⟨h6, h7⟩ | ⟨h6, h7⟩ <;> omega
      · exact ⟨z, (hlive z).2 (Or.inl ⟨hz, hzb, hzf⟩), hz1,
          by rw [hkv z (hnotP z hzb hzf)]; exact hz2⟩
  · intro i y hi hy hy2
    rw [e1] at hi
    exact h.nobuddy i y hi (hmem i y hy).1 (hmem i _ hy2).1
  · intro y hy
    rcases (hlive y).1 hy with ⟨hy2, m1, m2⟩ | hy2
    · rw [hkv y (hnotP y m1 m2)]
      exact h.order_ge y hy2
    · subst hy2
      rw [hkvP]
      have := h.order_ge f (Or.inl hf)
      rw [hkdef] at this
      omega

/-! ## The end of `buddy_free` restores the invariant -/

theorem release_fields (c : Config) (p : Pool) (f : Nat) :
    (release c p f).kval_m = p.kval_m ∧ (release c p f).numbytes = p.numbytes ∧
    (release c p f).tag = Function.update p.tag (blk f) c.BLOCK_AVAIL ∧
    (release c p f).kval = p.kval ∧
    (release c p f).next =
      Function.update (Function.update p.next (blk f) (p.next (head (p.kval (blk f)))))
        (head (p.kval (blk f))) (blk f) ∧
    (release c p f).prev =
      Function.update (Function.update p.prev (blk f) (head (p.kval (blk f))))
        (p.next (head (p.kval (blk f)))) (blk f) := by
  simp [release, insertHead]

theorem xor_pow_ne (x k : Nat) : x ^^^ 2 ^ k ≠ x := by
  intro e
  have h1 : x ^^^ 2 ^ k = x ^^^ 0 := by rw [Nat.xor_zero]; exact e
  have := Nat.xor_right_injective h1
  exact absurd this (Nat.two_pow_pos k).ne'

theorem inv_release {c : Config} {p : Pool} {fl : Nat → List Nat}
    {res : List Nat} {f : Nat} (h : Inv c p fl res (some f))
    (hstop : ¬ (p.kval (blk f) < p.kval_m ∧ p.tag (blk (buddy_calc p f)) = c.BLOCK_AVAIL ∧
      p.kval (blk (buddy_calc p f)) = p.kval (blk f))) :
    Inv c (release c p f) (Function.update fl (p.kval (blk f)) (f :: fl (p.kval (blk f))))
      (res.erase f) none := by
  have hf : f ∈ res := h.inflight f rfl
  obtain ⟨a1, a2, a3⟩ := h.aligned f (Or.inl hf)
  obtain ⟨e1, e2, e3, e4, e5, e6⟩ := release_fields c p f
  have hK := h.K_lt
  have hb : buddy_calc p f = f ^^^ 2 ^ p.kval (blk f) := by
    unfold buddy_calc
    simp only []
    rw [shl1_eq (by omega)]
  rw [hb] at hstop
  generalize hkdef : p.kval (blk f) = k at *
  have hffl : ∀ i, f ∉ fl i := fun i e => h.sep i f e hf
  have hmem : ∀ i y, y ∈ Function.update fl k (f :: fl k) i → (i = k ∧ y = f) ∨ y ∈ fl i := by
    intro i y hy
    rcases mem_update_list.1 hy with ⟨e, hy2⟩ | ⟨-, hy2⟩
    · rcases List.mem_cons.1 hy2 with e2 | e2
      · exact Or.inl ⟨e, e2⟩
      · exact Or.inr (e ▸ e2)
    · exact Or.inr hy2
  have hlive : ∀ y, Live (Function.update fl k (f :: fl k)) (res.erase f) y ↔ Live fl res y := by
    intro y
    constructor
    · rintro (hy | ⟨i, hy⟩)
      · exact Or.inl (List.mem_of_mem_erase hy)
      · rcases hmem i y hy with ⟨-, e⟩ | hy2
        · exact Or.inl (e ▸ hf)
        · exact Or.inr ⟨i, hy2⟩
    · rintro (hy | ⟨i, hy⟩)
      · by_cases e : y = f
        · exact Or.inr ⟨k, mem_update_list.2 (Or.inl ⟨rfl, e ▸ List.mem_cons_self _ _⟩)⟩
        · exact Or.inl ((List.Nodup.mem_erase_iff h.res_nodup).2 ⟨e, hy⟩)
      · by_cases hik : i = k
        · subst hik
          exact Or.inr ⟨i, mem_update_list.2 (Or.inl ⟨rfl, List.mem_cons_of_mem _ hy⟩)⟩
        · exact Or.inr ⟨i, mem_update_list.2 (Or.inr ⟨hik, hy⟩)⟩
  have hnb : k < p.kval_m → f ^^^ 2 ^ k ∉ fl k := by
    intro hlt hm
    have := h.free_tag k _ hm
    exact hstop ⟨hlt, this.1, this.2⟩
  refine
    { K_lt := by rw [e1]; exact h.K_lt
      numbytes_eq := by rw [e1, e2]; exact h.numbytes_eq
      head_tag := ?_
      lists := ?_
      above := ?_
      nodup := ?_
      res_nodup := h.res_nodup.erase f
      free_tag := ?_
      res_tag := ?_
      sep := ?_
      inflight := by intro y hy; simp at hy
      aligned := ?_
      disjoint := ?_
      cover := ?_
      nobuddy := ?_
      order_ge := ?_ }
  · intro i hi
    rw [e1] at hi
    rw [e3]; simp [Function.update_apply]; exact h.head_tag i hi
  · intro i hi
    rw [e1] at hi
    by_cases hik : i = k
    · subst hik
      rw [Function.update_same]
      have := Links.insertHead (h.lists i hi) (hffl i) (h.nodup i)
      obtain ⟨-, -, -, -, f5, f6⟩ := insertHead_fields p i f
      exact Links.congr (by rw [e5, f5]) (by rw [e6, f6]) this
    · rw [Function.update_noteq hik]
      refine Links.frame (fl i) (head i) (head i) (h.lists i hi) ?_ ?_ ?_ ?_
      · rw [e5]; simp [Function.update_apply, hik]
      · intro m hm
        have : m ≠ f := fun e => hffl i (e ▸ hm)
        rw [e5]; simp [Function.update_apply, this]
      · intro m hm
        have h1 : m ≠ f := fun e => hffl i (e ▸ hm)
        rw [e6]
        rcases h.next_head a1 with ⟨-, e⟩ | ⟨o2, l2, e7, e⟩
        · rw [e]; simp [Function.update_apply, h1]
        · have : m ≠ o2 := fun e2 =>
            hik (h.mem_unique hm (e2 ▸ (e7 ▸ List.mem_cons_self _ _ : o2 ∈ fl k)))
          rw [e]; simp [Function.update_apply, h1, this]
      · rw [e6]
        rcases h.next_head a1 with ⟨-, e⟩ | ⟨o2, l2, e7, e⟩
        · rw [e]; simp [Function.update_apply, hik]
        · rw [e]; simp [Function.update_apply]
  · intro i hi
    rw [e1] at hi
    have : i ≠ k := by omega
    rw [Function.update_noteq this]
    exact h.above i hi
  · intro i
    by_cases hik : i = k
    · subst hik
      rw [Function.update_same]
      exact List.nodup_cons.2 ⟨hffl i, h.nodup i⟩
    · rw [Function.update_noteq hik]; exact h.nodup i
  · intro i y hy
    rw [e4, e3]
    rcases hmem i y hy with ⟨e, e2⟩ | hy2
    · subst e2
      exact ⟨by simp, by rw [hkdef, e]⟩
    · have h1 : y ≠ f := fun e => hffl i (e ▸ hy2)
      simp only [Function.update_apply]
      rw [if_neg (by simpa using h1)]
      exact h.free_tag i y hy2
  · intro y hy _
    have := (List.Nodup.mem_erase_iff h.res_nodup).1 hy
    rw [e3]
    simp only [Function.update_apply]
    rw [if_neg (by simpa using this.1)]
    exact h.res_tag y this.2 (fun e2 => this.1 (Option.some.inj e2))
  · intro i y hy hy2
    have := (List.Nodup.mem_erase_iff h.res_nodup).1 hy2
    rcases hmem i y hy with ⟨-, e2⟩ | hy3
    · exact this.1 e2
    · exact h.sep i y hy3 this.2
  · intro y hy
    rw [e4, e1]
    exact h.aligned y ((hlive y).1 hy)
  · intro y y2 hy hy2
    rw [e4]
    exact h.disjoint y y2 ((hlive y).1 hy) ((hlive y2).1 hy2)
  · intro y hy
    rw [e1] at hy
    obtain ⟨z, hz, hz2⟩ := h.cover y hy
    exact ⟨z, (hlive z).2 hz, by rw [e4]; exact hz2⟩
  · intro i y hi hy hy2
    rw [e1] at hi
    rcases hmem i y hy with ⟨e, e2⟩ | hy3
    · subst e e2
      rcases hmem i _ hy2 with ⟨-, e3⟩ | hy4
      · exact xor_pow_ne y i e3
      · exact hnb hi hy4
    · rcases hmem i _ hy2 with ⟨e, e2⟩ | hy4
      · subst e
        have : y = f ^^^ 2 ^ i := by
          rw [← e2, Nat.xor_cancel_right]
        exact hnb hi (this ▸ hy3)
      · exact h.nobuddy i y hi hy3 hy4
  · intro y hy
    rw [e4]
    exact h.order_ge y ((hlive y).1 hy)

/-! ## `buddy_malloc` keeps the invariant -/

theorem Inv.head_self_iff {c : Config} {p : Pool} {fl : Nat → List Nat} {res : List Nat}
    {x : Option Nat} (h : Inv c p fl res x) {i : Nat} (hi : i ≤ p.kval_m) :
    p.next (head i) = head i ↔ fl i = [] := by
  rcases h.next_head hi with ⟨e1, e2⟩ | ⟨o, l, e1, e2⟩
  · simp [e1, e2]
  · simp [e1, e2]

theorem scanLoop_eq {c : Config} {p : Pool} {fl : Nat → List Nat} {res : List Nat}
    {x : Option Nat} (h : Inv c p fl res x) :
    ∀ fuel index, scanLoop p fuel index = scanG fl p.kval_m fuel index := by
  intro fuel
  induction fuel with
  | zero => intro index; rfl
  | succ n ih =>
    intro index
    simp only [scanLoop, scanG]
    by_cases hi : index ≤ p.kval_m
    · simp only [hi, true_and, h.head_self_iff hi, ih]
    · simp [hi]

/-- What the scan finds: every list from `index` up to the result is empty, and the list
at the result is not, unless the result is `K + 1`. -/
theorem scanG_spec (fl : Nat → List Nat) (K : Nat) :
    ∀ fuel index, fuel = K + 1 - index →
      index ≤ scanG fl K fuel index ∧
      (∀ i, index ≤ i → i < scanG fl K fuel index → fl i = []) ∧
      (scanG fl K fuel index ≤ K → fl (scanG fl K fuel index) ≠ []) ∧
      (index ≤ K + 1 → scanG fl K fuel index ≤ K + 1) := by
  intro fuel
  induction fuel with
  | zero =>
    intro index hf
    simp only [scanG]
    exact ⟨le_rfl, fun i h1 h2 => by omega, fun h1 => by omega, fun h1 => h1⟩
  | succ n ih =>
    intro index hf
    simp only [scanG]
    by_cases hc : index ≤ K ∧ fl index = []
    · rw [if_pos hc]
      obtain ⟨h1, h2, h3, h4⟩ := ih (index + 1) (by omega)
      refine ⟨by omega, ?_, h3, fun _ => h4 (by omega)⟩
      intro i hi1 hi2
      by_cases e : i = index
      · rw [e]; exact hc.2
      · exact h2 i (by omega) hi2
    · rw [if_neg hc]
      refine ⟨le_rfl, fun i h1 h2 => by omega, fun h1 e => hc ⟨h1, e⟩, fun h1 => h1⟩

theorem inv_splitLoop {c : Config} {r o : Nat} :
    ∀ (fuel index : Nat) (p : Pool) (fl : Nat → List Nat) (res : List Nat),
      Inv c p fl res none → o ∈ res → p.kval (blk o) = index → fuel = index - r →
      r ≤ index → c.SMALLEST_K ≤ r →
      Inv c (splitLoop c r o fuel index p) (splitG r o fuel index fl) res none ∧
        (splitLoop c r o fuel index p).kval (blk o) = r ∧
        (splitLoop c r o fuel index p).kval_m = p.kval_m ∧
        (∀ y, y ∈ res → y ≠ o →
          (splitLoop c r o fuel index p).kval (blk y) = p.kval (blk y)) := by
  intro fuel
  induction fuel with
  | zero =>
    intro index p fl res h _ hk hf hr _
    simp only [splitLoop, splitG]
    exact ⟨h, by omega, trivial, fun _ _ _ => trivial⟩
  | succ n ih =>
    intro index p fl res h ho hk hf hr hsk
    have hgt : index > r := by omega
    simp only [splitLoop, splitG, hgt, if_true]
    obtain ⟨h1, h2, h3, h4⟩ := inv_splitStep h ho (k := index - 1) (by omega) (by omega)
    obtain ⟨g1, g2, g3, g4⟩ := ih (index - 1) _ _ res h1 ho h2 (by omega) (by omega) hsk
    exact ⟨g1, g2, g3.trans h3, fun y hy hyo => (g4 y hy hyo).trans (h4 y hy hyo)⟩

/-- The effect of a successful or failed `buddy_malloc` on a pool that satisfies the
invariant, in terms of the list contents. -/
theorem malloc_inv {c : Config} (hc : c.WF) {p : Pool} {fl : Nat → List Nat}
    {res : List Nat} (h : Inv c p fl res none) (size : Nat) (hs : size ≠ 0) :
    (p.kval_m < scanG fl p.kval_m (p.kval_m + 1 - btok c (wrap64 (size + c.hdr)))
        (btok c (wrap64 (size + c.hdr))) ∧
      buddy_malloc c (some p) size = some { pool := p, ret := none, err := some c.ENOMEM }) ∨
    (scanG fl p.kval_m (p.kval_m + 1 - btok c (wrap64 (size + c.hdr)))
        (btok c (wrap64 (size + c.hdr))) ≤ p.kval_m ∧
      ∃ o l q, fl (scanG fl p.kval_m (p.kval_m + 1 - btok c (wrap64 (size + c.hdr)))
          (btok c (wrap64 (size + c.hdr)))) = o :: l ∧
        buddy_malloc c (some p) size = some { pool := q, ret := some (o + c.hdr), err := none } ∧
        q.kval (blk o) = btok c (wrap64 (size + c.hdr)) ∧
        q.kval_m = p.kval_m ∧ (∀ y, y ∈ res → q.kval (blk y) = p.kval (blk y)) ∧
        Inv c q
          (splitG (btok c (wrap64 (size + c.hdr))) o
            (scanG fl p.kval_m (p.kval_m + 1 - btok c (wrap64 (size + c.hdr)))
              (btok c (wrap64 (size + c.hdr))) - btok c (wrap64 (size + c.hdr)))
            (scanG fl p.kval_m (p.kval_m + 1 - btok c (wrap64 (size + c.hdr)))
              (btok c (wrap64 (size + c.hdr))))
            (Function.update fl
              (scanG fl p.kval_m (p.kval_m + 1 - btok c (wrap64 (size + c.hdr)))
                (btok c (wrap64 (size + c.hdr)))) l))
          (o :: res) none) := by
  have hrge : c.SMALLEST_K ≤ btok c (wrap64 (size + c.hdr)) :=
    btok_ge c (by have := hc.1; have := hc.2.1; have := hc.2.2.1; omega) _
  generalize hr : btok c (wrap64 (size + c.hdr)) = r at hrge ⊢
  have hscan := scanLoop_eq h (p.kval_m + 1 - r) r
  generalize hj : scanG fl p.kval_m (p.kval_m + 1 - r) r = j at *
  obtain ⟨s1, s2, s3, s4⟩ := scanG_spec fl p.kval_m (p.kval_m + 1 - r) r rfl
  rw [hj] at s1 s2 s3 s4
  by_cases hjK : j ≤ p.kval_m
  · right
    refine ⟨hjK, ?_⟩
    rcases h.next_head hjK with ⟨e1, -⟩ | ⟨o, l, e1, e2⟩
    · exact absurd e1 (s3 hjK)
    · have hT := inv_takeHead h hjK e1
      obtain ⟨t1, t2, t3, t4, t5, t6⟩ := takeHead_fields c p j o e2
      have hkv : (takeHead c p j).kval (blk o) = j := by rw [t4]; simp
      obtain ⟨hI, hk, hkm, hfr⟩ := inv_splitLoop (j - r) j (takeHead c p j) _ (o :: res) hT
        (List.mem_cons_self _ _) hkv rfl s1 hrge
      have hoj : o ∈ fl j := e1 ▸ List.mem_cons_self _ _
      have hkvT : (takeHead c p j).kval = p.kval := by
        rw [t4, ← (h.free_tag j o hoj).2]; exact Function.update_eq_self _ _
      refine ⟨o, l, _, e1, ?_, hk, hkm.trans t1, ?_, hI⟩
      · simp only [buddy_malloc, hs, if_false, mallocBody, hr, hscan, e2, Ptr.off]
        rw [if_neg (by omega)]
      · intro y hy
        have hyo : y ≠ o := fun e => h.sep j o hoj (e ▸ hy)
        rw [hfr y (List.mem_cons_of_mem _ hy) hyo, hkvT]
  · left
    refine ⟨by omega, ?_⟩
    simp only [buddy_malloc, hs, if_false, mallocBody, hr, hscan]
    rw [if_pos (by omega)]

/-! ## `buddy_free` keeps the invariant -/

theorem Inv.res_congr {c : Config} {p : Pool} {fl : Nat → List Nat} {res res2 : List Nat}
    {x : Option Nat} (h : Inv c p fl res x) (hnd : res2.Nodup)
    (hm : ∀ y, y ∈ res2 ↔ y ∈ res) : Inv c p fl res2 x := by
  have hl : ∀ y, Live fl res2 y ↔ Live fl res y := by
    intro y; unfold Live; rw [hm]
  exact
    { K_lt := h.K_lt
      numbytes_eq := h.numbytes_eq
      head_tag := h.head_tag
      lists := h.lists
      above := h.above
      nodup := h.nodup
      res_nodup := hnd
      free_tag := h.free_tag
      res_tag := fun y hy => h.res_tag y ((hm y).1 hy)
      sep := fun i y hy hy2 => h.sep i y hy ((hm y).1 hy2)
      inflight := fun y hy => (hm y).2 (h.inflight y hy)
      aligned := fun y hy => h.aligned y ((hl y).1 hy)
      disjoint := fun y y2 hy hy2 => h.disjoint y y2 ((hl y).1 hy) ((hl y2).1 hy2)
      cover := fun y hy => by
        obtain ⟨z, hz, hz2⟩ := h.cover y hy
        exact ⟨z, (hl z).2 hz, hz2⟩
      nobuddy := h.nobuddy
      order_ge := fun y hy => h.order_ge y ((hl y).1 hy) }

/-- A block that is handed out may be put under release. -/
theorem Inv.start_release {c : Config} {p : Pool} {fl : Nat → List Nat} {res : List Nat}
    (h : Inv c p fl res none) {o : Nat} (ho : o ∈ res) :
    Inv c p fl (o :: res.erase o) (some o) := by
  have h2 : Inv c p fl res (some o) :=
    { K_lt := h.K_lt
      numbytes_eq := h.numbytes_eq
      head_tag := h.head_tag
      lists := h.lists
      above := h.above
      nodup := h.nodup
      res_nodup := h.res_nodup
      free_tag := h.free_tag
      res_tag := fun y hy _ => h.res_tag y hy (by simp)
      sep := h.sep
      inflight := fun y hy => by rw [← Option.some.inj hy]; exact ho
      aligned := h.aligned
      disjoint := h.disjoint
      cover := h.cover
      nobuddy := h.nobuddy
      order_ge := h.order_ge }
  refine h2.res_congr ?_ ?_
  · exact List.nodup_cons.2 ⟨h.res_nodup.not_mem_erase, h.res_nodup.erase o⟩
  · intro y
    constructor
    · intro hy
      rcases List.mem_cons.1 hy with e | e
      · exact e ▸ ho
      · exact List.mem_of_mem_erase e
    · intro hy
      by_cases e : y = o
      · exact e ▸ List.mem_cons_self _ _
      · exact List.mem_cons_of_mem _ ((List.Nodup.mem_erase_iff h.res_nodup).2 ⟨e, hy⟩)

/-- The test of the merge loop, read on the list contents. -/
theorem Inv.merge_cond_iff {c : Config} (hc : c.WF) {p : Pool} {fl : Nat → List Nat}
    {res : List Nat} {f : Nat} (h : Inv c p fl res (some f)) :
    (p.kval (blk f) < p.kval_m ∧ p.tag (blk (buddy_calc p f)) = c.BLOCK_AVAIL ∧
      p.kval (blk (buddy_calc p f)) = p.kval (blk f)) ↔
    (p.kval (blk f) < p.kval_m ∧ (f ^^^ 2 ^ p.kval (blk f)) ∈ fl (p.kval (blk f))) := by
  constructor
  · rintro ⟨h1, h2, h3⟩
    have := h.buddy_mem hc h1 h2
    rw [h3, (h.buddy_live h1).1] at this
    exact ⟨h1, this⟩
  · rintro ⟨h1, h2⟩
    rw [← (h.buddy_live h1).1] at h2
    have := h.free_tag _ _ h2
    exact ⟨h1, this.1, this.2⟩

theorem inv_mergeLoop {c : Config} (hc : c.WF) {rest : List Nat} :
    ∀ (fuel f : Nat) (p : Pool) (fl : Nat → List Nat),
      Inv c p fl (f :: rest) (some f) → fuel = p.kval_m - p.kval (blk f) →
      (mergeLoop c fuel f (buddy_calc p f) p).2 =
        (mergeG p.kval_m fuel f (p.kval (blk f)) fl).2.1 ∧
      (mergeLoop c fuel f (buddy_calc p f) p).1.kval
          (blk (mergeLoop c fuel f (buddy_calc p f) p).2) =
        (mergeG p.kval_m fuel f (p.kval (blk f)) fl).2.2 ∧
      (mergeLoop c fuel f (buddy_calc p f) p).1.kval_m = p.kval_m ∧
      (∀ y, y ∈ rest → (mergeLoop c fuel f (buddy_calc p f) p).1.kval (blk y) = p.kval (blk y)) ∧
      Inv c (mergeLoop c fuel f (buddy_calc p f) p).1
        (mergeG p.kval_m fuel f (p.kval (blk f)) fl).1
        ((mergeLoop c fuel f (buddy_calc p f) p).2 :: rest)
        (some (mergeLoop c fuel f (buddy_calc p f) p).2) ∧
      ¬ ((mergeLoop c fuel f (buddy_calc p f) p).1.kval
            (blk (mergeLoop c fuel f (buddy_calc p f) p).2) <
          (mergeLoop c fuel f (buddy_calc p f) p).1.kval_m ∧
        (mergeLoop c fuel f (buddy_calc p f) p).1.tag
            (blk (buddy_calc (mergeLoop c fuel f (buddy_calc p f) p).1
              (mergeLoop c fuel f (buddy_calc p f) p).2)) = c.BLOCK_AVAIL ∧
        (mergeLoop c fuel f (buddy_calc p f) p).1.kval
            (blk (buddy_calc (mergeLoop c fuel f (buddy_calc p f) p).1
              (mergeLoop c fuel f (buddy_calc p f) p).2)) =
          (mergeLoop c fuel f (buddy_calc p f) p).1.kval
            (blk (mergeLoop c fuel f (buddy_calc p f) p).2)) := by
  intro fuel
  induction fuel with
  | zero =>
    intro f p fl h hf
    simp only [mergeLoop, mergeG]
    exact ⟨trivial, trivial, trivial, fun _ _ => trivial, h, fun hcond => by omega⟩
  | succ n ih =>
    intro f p fl h hf
    have hiff := h.merge_cond_iff hc
    by_cases hcond : p.kval (blk f) < p.kval_m ∧
        p.tag (blk (buddy_calc p f)) = c.BLOCK_AVAIL ∧
        p.kval (blk (buddy_calc p f)) = p.kval (blk f)
    · have hg := hiff.1 hcond
      obtain ⟨m1, m0, m2⟩ := inv_mergeStep hc h hcond.1 hcond.2.1 hcond.2.2
      obtain ⟨e0, e1, -⟩ := mergeStep_fields p f (buddy_calc p f)
      rw [List.erase_cons_head] at m2
      have hb := (h.buddy_live hcond.1).1
      have hfr : ∀ y, y ∈ rest → y ≠ f := fun y hy e =>
        (List.nodup_cons.1 h.res_nodup).1 (e ▸ hy)
      simp only [mergeLoop, mergeG, if_pos hcond, if_pos hg]
      have := ih _ _ _ m2 (by rw [m1, e1]; omega)
      rw [m1, e1, e0, hb] at this
      rw [e0, hb]
      obtain ⟨g1, g2, g3, g4, g5⟩ := this
      refine ⟨g1, g2, g3, fun y hy => ?_, g5⟩
      rw [g4 y hy]
      have := m0 y (List.mem_cons_of_mem _ hy) (hfr y hy)
      rw [hb] at this
      exact this
    · have hg := fun hg => hcond (hiff.2 hg)
      simp only [mergeLoop, mergeG, if_neg hcond, if_neg hg]
      exact ⟨trivial, trivial, trivial, fun _ _ => trivial, h, hcond⟩

/-- The effect of `buddy_free` on a pool that satisfies the invariant, in terms of the
list contents: `o` is the offset of a block that is handed out. -/
theorem free_inv {c : Config} (hc : c.WF) {p : Pool} {fl : Nat → List Nat} {res : List Nat}
    (h : Inv c p fl res none) {o : Nat} (ho : o ∈ res) :
    Inv c (buddy_free c p (some (o + c.hdr))) (freeG p.kval_m o (p.kval (blk o)) fl)
        (res.erase o) none ∧
      (buddy_free c p (some (o + c.hdr))).kval_m = p.kval_m ∧
      (∀ y, y ∈ res → y ≠ o →
        (buddy_free c p (some (o + c.hdr))).kval (blk y) = p.kval (blk y)) := by
  have h1 := h.start_release ho
  obtain ⟨m1, m2, m3, m6, m4, m5⟩ := inv_mergeLoop hc _ o p fl h1 rfl
  have := inv_release m4 m5
  obtain ⟨r1, -, -, r4, -⟩ := release_fields c
    (mergeLoop c (p.kval_m - p.kval (blk o)) o (buddy_calc p o) p).1
    (mergeLoop c (p.kval_m - p.kval (blk o)) o (buddy_calc p o) p).2
  rw [List.erase_cons_head, m2, m1] at this
  simp only [buddy_free, Nat.add_sub_cancel, freeG]
  refine ⟨?_, r1.trans m3, ?_⟩
  · rw [m1]
    exact this
  · intro y hy hyo
    rw [r4]
    exact m6 y ((List.Nodup.mem_erase_iff h.res_nodup).2 ⟨hyo, hy⟩)

/-! ## The invariant holds in every reachable state -/

theorem reachable_inv {c : Config} (hc : c.WF) {p : Pool} {L : List Nat}
    (h : Reachable c p L) :
    ∃ fl res, Inv c p fl res none ∧ L = res.map (fun o => o + c.hdr) := by
  induction h with
  | init size _ => exact ⟨_, [], inv_init c hc size, rfl⟩
  | malloc p L size r _ _ hr ih =>
    obtain ⟨fl, res, hI, hL⟩ := ih
    by_cases hs : size = 0
    · simp only [buddy_malloc, hs, if_true, Option.some.injEq] at hr
      subst hr
      exact ⟨fl, res, hI, by simpa using hL⟩
    · rcases malloc_inv hc hI size hs with ⟨-, e⟩ | ⟨-, o, l, q, -, e, -, -, -, hq⟩
      · rw [e] at hr
        have := Option.some.inj hr
        subst this
        exact ⟨fl, res, hI, by simpa using hL⟩
      · rw [e] at hr
        have := Option.some.inj hr
        subst this
        exact ⟨_, o :: res, hq, by simp [hL]⟩
  | free p L h _ hh ih =>
    obtain ⟨fl, res, hI, hL⟩ := ih
    rw [hL] at hh
    obtain ⟨o, ho, rfl⟩ := List.mem_map.1 hh
    refine ⟨_, res.erase o, (free_inv hc hI ho).1, ?_⟩
    rw [hL]
    have hinj : Function.Injective (fun o => o + c.hdr) := fun a b hab => by
      simpa using hab
    exact (List.map_erase hinj res).symm

theorem Inv.mem_lt {c : Config} {p : Pool} {fl : Nat → List Nat} {res : List Nat}
    {x : Option Nat} (h : Inv c p fl res x) {i o : Nat} (ho : o ∈ fl i) :
    o < 2 ^ p.kval_m := by
  have := (h.aligned o (Or.inr ⟨i, ho⟩)).2.2
  have := Nat.two_pow_pos (p.kval (blk o))
  omega

/-- Under the invariant, reading list `i` off the pointers gives `fl i`. -/
theorem Inv.freeList_eq {c : Config} {p : Pool} {fl : Nat → List Nat} {res : List Nat}
    {x : Option Nat} (h : Inv c p fl res x) {i : Nat} (hi : i ≤ p.kval_m) :
    freeList p i = fl i := by
  unfold freeList
  apply walk_links p i (fl i) (head i) p.numbytes (h.lists i hi)
  rw [h.numbytes_eq, ← List.toFinset_card_of_nodup (h.nodup i)]
  have : (fl i).toFinset ⊆ Finset.range (2 ^ p.kval_m) := by
    intro o ho
    rw [List.mem_toFinset] at ho
    exact Finset.mem_range.2 (h.mem_lt ho)
  simpa using Finset.card_le_card this

/-! ## When nothing is handed out the pool is in its initial state -/

theorem list_eq_singleton_zero {l : List Nat} (hnd : l.Nodup) (h0 : ∀ o ∈ l, o = 0)
    (hne : l ≠ []) : l = [0] := by
  cases l with
  | nil => exact absurd rfl hne
  | cons a t =>
    cases t with
    | nil => rw [h0 a (List.mem_cons_self _ _)]
    | cons b t =>
      have ha := h0 a (List.mem_cons_self _ _)
      have hb := h0 b (List.mem_cons_of_mem _ (List.mem_cons_self _ _))
      have := (List.nodup_cons.1 hnd).1
      rw [ha, hb] at this
      exact absurd (List.mem_cons_self _ _) this

/-- Full coalescing: when no block is handed out, the whole arena is one available block
of order `kval_m`. -/
theorem Inv.all_free {c : Config} {p : Pool} {fl : Nat → List Nat}
    (h : Inv c p fl [] none) : ∀ i, fl i = if i = p.kval_m then [0] else [] := by
  have hlow : ∀ k, k < p.kval_m → fl k = [] := by
    intro k
    induction k using Nat.strong_induction_on with
    | _ k ih =>
      intro hk
      by_contra hne
      obtain ⟨o, ho⟩ := List.exists_mem_of_ne_nil _ hne
      have hkv := (h.free_tag k o ho).2
      obtain ⟨hb, hl, -, hle, -, -⟩ := h.buddy_of_live (Or.inr ⟨k, ho⟩) (by rw [hkv]; exact hk)
      rw [hkv] at hb hle
      rcases hl with hl | ⟨i, hl⟩
      · simp at hl
      · have hi := (h.free_tag i _ hl).2
        rw [hi] at hle
        rcases Nat.lt_or_eq_of_le hle with hlt | heq
        · rw [ih i hlt (by omega)] at hl
          simp at hl
        · rw [heq, hb] at hl
          exact h.nobuddy k o hk ho hl
  have hK0 : ∀ o, o ∈ fl p.kval_m → o = 0 := by
    intro o ho
    obtain ⟨-, -, a3⟩ := h.aligned o (Or.inr ⟨_, ho⟩)
    rw [(h.free_tag _ o ho).2] at a3
    omega
  have hne : fl p.kval_m ≠ [] := by
    obtain ⟨z, hz, -⟩ := h.cover 0 (Nat.two_pow_pos _)
    rcases hz with hz | ⟨i, hz⟩
    · simp at hz
    · intro e
      rcases Nat.lt_trichotomy i p.kval_m with hi | hi | hi
      · rw [hlow i hi] at hz; simp at hz
      · rw [hi, e] at hz; simp at hz
      · rw [h.above i hi] at hz; simp at hz
  intro i
  by_cases hi : i = p.kval_m
  · rw [if_pos hi, hi]
    exact list_eq_singleton_zero (h.nodup _) hK0 hne
  · rw [if_neg hi]
    rcases Nat.lt_or_gt_of_ne hi with h1 | h1
    · exact hlow i h1
    · exact h.above i h1

theorem Inv.pristine {c : Config} {p : Pool} {fl : Nat → List Nat}
    (h : Inv c p fl [] none) : Pristine c p := by
  have hfl := h.all_free
  have hK := h.lists p.kval_m le_rfl
  rw [hfl, if_pos rfl] at hK
  obtain ⟨k1, k2, k3, k4⟩ := hK
  have hT := h.free_tag p.kval_m 0 (by rw [hfl, if_pos rfl]; exact List.mem_cons_self _ _)
  refine ⟨?_, k1, k4, k3, k2, hT.1, hT.2, ?_⟩
  · rw [h.freeList_eq le_rfl, hfl, if_pos rfl]
  · intro i hi
    have hL := h.lists i hi.le
    rw [hfl, if_neg (by omega)] at hL
    refine ⟨?_, hL.1, hL.2, h.head_tag i hi.le⟩
    rw [h.freeList_eq hi.le, hfl, if_neg (by omega)]

/-- Whenever every handle has been released, the pool is back in its initial state. -/
theorem reachable_pristine {c : Config} (hc : c.WF) {p : Pool}
    (h : Reachable c p []) : Pristine c p := by
  obtain ⟨fl, res, hI, hL⟩ := reachable_inv hc h
  have : res = [] := by
    cases res with
    | nil => rfl
    | cons a t => simp at hL
  subst this
  exact hI.pristine

theorem reachable_nodup {c : Config} (hc : c.WF) {p : Pool} {L : List Nat}
    (h : Reachable c p L) : L.Nodup := by
  obtain ⟨fl, res, hI, hL⟩ := reachable_inv hc h
  rw [hL]
  exact hI.res_nodup.map (fun a b hab => by simpa using hab)

/-- The order of the pool never changes after `buddy_init`. -/
theorem malloc_kval_m {c : Config} (hc : c.WF) {p : Pool} {L : List Nat}
    (h : Reachable c p L) (size : Nat) (r : MallocResult)
    (hr : buddy_malloc c (some p) size = some r) : r.pool.kval_m = p.kval_m := by
  obtain ⟨fl, res, hI, -⟩ := reachable_inv hc h
  by_cases hs : size = 0
  · simp only [buddy_malloc, hs, if_true, Option.some.injEq] at hr
    subst hr; rfl
  · rcases malloc_inv hc hI size hs with ⟨-, e⟩ | ⟨-, o, l, q, -, e, -, hk, -⟩
    · rw [e] at hr
      have := Option.some.inj hr
      subst this; rfl
    · rw [e] at hr
      have := Option.some.inj hr
      subst this; exact hk

theorem free_kval_m {c : Config} (hc : c.WF) {p : Pool} {L : List Nat}
    (h : Reachable c p L) {a : Nat} (ha : a ∈ L) :
    (buddy_free c p (some a)).kval_m = p.kval_m := by
  obtain ⟨fl, res, hI, hL⟩ := reachable_inv hc h
  rw [hL] at ha
  obtain ⟨o, ho, rfl⟩ := List.mem_map.1 ha
  exact (free_inv hc hI ho).2.1

/-! ## What a successful `buddy_malloc` returns -/

/-- In a reachable state a successful `buddy_malloc` returns the address just after the
control record of a block that is now reserved, with the order
`btok (size + sizeof(struct avail))` (the sum taken in 64 bits), which is at most the
order of the pool.  When the sum is at most `2 ^ 30` and that order is below `MAX_K`, the
payload capacity of the block is at least `size`. -/
theorem malloc_block {c : Config} (hc : c.WF) {p : Pool} {L : List Nat}
    (h : Reachable c p L) (size : Nat) (r : MallocResult) (a : Nat)
    (hr : buddy_malloc c (some p) size = some r) (ha : r.ret = some a) :
    ∃ o, a = o + c.hdr ∧ r.pool.tag (blk o) = c.BLOCK_RESERVED ∧
      r.pool.kval (blk o) = btok c (wrap64 (size + c.hdr)) ∧
      btok c (wrap64 (size + c.hdr)) ≤ p.kval_m ∧ r.err = none ∧
      (c.SMALLEST_K ≤ 31 → size + c.hdr ≤ 2 ^ 30 → btok c (wrap64 (size + c.hdr)) < c.MAX_K →
        size ≤ 2 ^ btok c (wrap64 (size + c.hdr)) - c.hdr) := by
  obtain ⟨fl, res, hI, -⟩ := reachable_inv hc h
  by_cases hs : size = 0
  · simp only [buddy_malloc, hs, if_true, Option.some.injEq] at hr
    subst hr
    simp at ha
  · rcases malloc_inv hc hI size hs with ⟨-, e⟩ | ⟨hj, o, l, q, -, e, hk, -, -, hq⟩
    · rw [e] at hr
      have := Option.some.inj hr
      subst this
      simp at ha
    · rw [e] at hr
      have := Option.some.inj hr
      subst this
      have hao : a = o + c.hdr := by
        have := Option.some.inj ha
        exact this.symm
      have hle := (scanG_spec fl p.kval_m (p.kval_m + 1 - btok c (wrap64 (size + c.hdr)))
        (btok c (wrap64 (size + c.hdr))) rfl).1
      refine ⟨o, hao, hq.res_tag o (List.mem_cons_self _ _) (by simp), hk, by omega, rfl, ?_⟩
      intro hsk hsz hlt
      have hw : wrap64 (size + c.hdr) = size + c.hdr := by
        unfold wrap64
        exact Nat.mod_eq_of_lt (lt_of_le_of_lt hsz (by norm_num))
      rw [hw] at hlt ⊢
      rcases btok_small c hsk (size + c.hdr) hsz with ⟨-, -, g3, -⟩ | ⟨g1, -⟩
      · omega
      · omega

/-! ## Concrete reachable states -/

theorem reach_pool20 : Reachable labConfig pool20 [] :=
  Reachable.init (2 ^ 20) (by norm_num)

theorem reach_pool20a : Reachable labConfig pool20a [24] :=
  Reachable.malloc pool20 [] 100 (mallocBody labConfig pool20 100) reach_pool20
    (by norm_num) rfl

theorem reach_pool20b : Reachable labConfig pool20b [152, 24] :=
  Reachable.malloc pool20a [24] 100 (mallocBody labConfig pool20a 100) reach_pool20a
    (by norm_num) rfl


/-! ## Free lists as circular lists -/

/-- Along a chain, `prev` undoes `next` and `next` undoes `prev`. -/
theorem Links.inverse {p : Pool} :
    ∀ (l : List Nat) (a z : Ptr), Links p a l z →
      p.prev (p.next a) = a ∧ (∀ o ∈ l, p.prev (p.next (blk o)) = blk o) ∧
      (∀ o ∈ l, p.next (p.prev (blk o)) = blk o) ∧ p.next (p.prev z) = z := by
  intro l
  induction l with
  | nil =>
    intro a z h
    refine ⟨by rw [h.1, h.2], ?_, ?_, by rw [h.2, h.1]⟩ <;> intro o ho <;> simp at ho
  | cons o l ih =>
    intro a z h
    obtain ⟨h1, h2, h3⟩ := h
    obtain ⟨g1, g2, g3, g4⟩ := ih (blk o) z h3
    refine ⟨by rw [h1, h2], ?_, ?_, g4⟩
    · intro y hy
      rcases List.mem_cons.1 hy with e | e
      · rw [e]; exact g1
      · exact g2 y e
    · intro y hy
      rcases List.mem_cons.1 hy with e | e
      · rw [e, h2, h1]
      · exact g3 y e

/-! ## When `buddy_malloc` fails -/

/-- In a state that satisfies the invariant, `buddy_malloc` with a size other than 0
returns `NULL` with `ENOMEM` and an unchanged pool when every list from the requested order
up to `kval_m` is empty, and a handle otherwise. -/
theorem malloc_cases {c : Config} (hc : c.WF) {p : Pool} {fl : Nat → List Nat}
    {res : List Nat} (h : Inv c p fl res none) (size : Nat) (hs : size ≠ 0) :
    ((∀ i, btok c (wrap64 (size + c.hdr)) ≤ i → i ≤ p.kval_m → fl i = []) →
      buddy_malloc c (some p) size = some { pool := p, ret := none, err := some c.ENOMEM }) ∧
    ((∃ i, btok c (wrap64 (size + c.hdr)) ≤ i ∧ i ≤ p.kval_m ∧ fl i ≠ []) →
      ∃ q a, buddy_malloc c (some p) size = some { pool := q, ret := some a, err := none }) := by
  obtain ⟨s1, s2, s3, -⟩ := scanG_spec fl p.kval_m
    (p.kval_m + 1 - btok c (wrap64 (size + c.hdr))) (btok c (wrap64 (size + c.hdr))) rfl
  constructor
  · intro hall
    rcases malloc_inv hc h size hs with ⟨-, e⟩ | ⟨hj, -⟩
    · exact e
    · exact absurd (hall _ s1 hj) (s3 hj)
  · rintro ⟨i, h1, h2, h3⟩
    rcases malloc_inv hc h size hs with ⟨hgt, -⟩ | ⟨-, o, l, q, -, e, -⟩
    · exact absurd (s2 i h1 (by omega)) h3
    · exact ⟨q, o + c.hdr, e⟩

/-! ## The lists after the split loop -/

/-- The split loop puts `o + 2 ^ i` at the head of every list `i` with `r ≤ i < index`
and touches no other list. -/
theorem splitG_apply (r o : Nat) :
    ∀ (fuel index : Nat) (fl : Nat → List Nat), fuel = index - r → r ≤ index →
      ∀ i, splitG r o fuel index fl i =
        if r ≤ i ∧ i < index then (o + 2 ^ i) :: fl i else fl i := by
  intro fuel
  induction fuel with
  | zero =>
    intro index fl hf hr i
    simp only [splitG]
    rw [if_neg (by omega)]
  | succ n ih =>
    intro index fl hf hr i
    have hgt : index > r := by omega
    simp only [splitG, hgt, if_true]
    rw [ih (index - 1) _ (by omega) (by omega) i]
    by_cases e : i = index - 1
    · subst e
      rw [if_neg (by omega), if_pos (by omega), Function.update_same]
    · rw [Function.update_noteq e]
      by_cases hcnd : r ≤ i ∧ i < index
      · rw [if_pos hcnd, if_pos (by omega)]
      · rw [if_neg hcnd, if_neg (by omega)]

/-! ## The lists after the merge loop -/

theorem clearLow_eq_mul (o i : Nat) : clearLow o i = 2 ^ i * (o / 2 ^ i) := by
  unfold clearLow
  have := Nat.div_add_mod o (2 ^ i)
  omega

theorem clearLow_of_dvd {o i : Nat} (h : 2 ^ i ∣ o) : clearLow o i = o := by
  unfold clearLow
  rw [Nat.mod_eq_zero_of_dvd h, Nat.sub_zero]

theorem clearLow_dvd (o i : Nat) : 2 ^ i ∣ clearLow o i := by
  rw [clearLow_eq_mul]
  exact Dvd.intro _ rfl

theorem clearLow_le (o i : Nat) : clearLow o i ≤ o := Nat.sub_le _ _

theorem clearLow_clearLow {o j i : Nat} (h : j ≤ i) :
    clearLow (clearLow o j) i = clearLow o i := by
  rw [clearLow_eq_mul (clearLow o j) i, clearLow_eq_mul o i, clearLow_eq_mul o j]
  congr 1
  obtain ⟨d, rfl⟩ := Nat.exists_eq_add_of_le h
  rw [pow_add, ← Nat.div_div_eq_div_mul, ← Nat.div_div_eq_div_mul,
    Nat.mul_div_cancel_left _ (Nat.two_pow_pos j)]

/-- The block that survives a merge at order `i` is the block with bit `i` cleared. -/
theorem merge_survivor {f i : Nat} (h : 2 ^ i ∣ f) :
    (if f ^^^ 2 ^ i < f then f ^^^ 2 ^ i else f) = clearLow f (i + 1) := by
  have hpos : 0 < 2 ^ i := Nat.two_pow_pos i
  rcases pow_succ_dvd_or h with h1 | ⟨h1, h2⟩
  · rw [xor_pow_of_dvd h1, if_neg (by omega), clearLow_of_dvd h1]
  · rw [xor_pow_of_dvd_sub h1 h2, if_pos (by omega)]
    obtain ⟨m, hm⟩ := h2
    have hf : f = 2 ^ (i + 1) * m + 2 ^ i := by omega
    have hlt : 2 ^ i < 2 ^ (i + 1) := Nat.pow_lt_pow_right (by norm_num) (Nat.lt_succ_self i)
    have hmod : f % 2 ^ (i + 1) = 2 ^ i := by
      rw [hf, Nat.mul_add_mod, Nat.mod_eq_of_lt hlt]
    unfold clearLow
    rw [hmod]

/-- What the merge loop does to the lists: starting with the block `f` of order `k`, it
stops at the first order `k2` that is `K` or at which the buddy is not on its list; on the
way it takes the buddy `clearLow f i XOR 2 ^ i` off list `i` for every `k ≤ i < k2`; the
final block is `clearLow f k2`. -/
theorem mergeG_spec (K : Nat) :
    ∀ (fuel f k : Nat) (fl : Nat → List Nat), fuel = K - k → k ≤ K → 2 ^ k ∣ f →
      k ≤ (mergeG K fuel f k fl).2.2 ∧ (mergeG K fuel f k fl).2.2 ≤ K ∧
      (mergeG K fuel f k fl).2.1 = clearLow f (mergeG K fuel f k fl).2.2 ∧
      (∀ i, k ≤ i → i < (mergeG K fuel f k fl).2.2 →
        (clearLow f i ^^^ 2 ^ i) ∈ fl i ∧
        (mergeG K fuel f k fl).1 i = (fl i).erase (clearLow f i ^^^ 2 ^ i)) ∧
      (∀ i, (i < k ∨ (mergeG K fuel f k fl).2.2 ≤ i) → (mergeG K fuel f k fl).1 i = fl i) ∧
      ((mergeG K fuel f k fl).2.2 = K ∨
        (clearLow f (mergeG K fuel f k fl).2.2 ^^^ 2 ^ (mergeG K fuel f k fl).2.2) ∉
          fl (mergeG K fuel f k fl).2.2) := by
  intro fuel
  induction fuel with
  | zero =>
    intro f k fl hf hk hd
    simp only [mergeG]
    have : k = K := by omega
    exact ⟨le_rfl, hk, (clearLow_of_dvd hd).symm, fun i h1 h2 => by omega, fun _ _ => trivial,
      Or.inl this⟩
  | succ n ih =>
    intro f k fl hf hk hd
    have hlt : k < K := by omega
    by_cases hcond : k < K ∧ (f ^^^ 2 ^ k) ∈ fl k
    · simp only [mergeG, if_pos hcond]
      rw [merge_survivor hd]
      obtain ⟨g1, g2, g3, g4, g5, g6⟩ := ih (clearLow f (k + 1)) (k + 1)
        (Function.update fl k ((fl k).erase (f ^^^ 2 ^ k))) (by omega) (by omega)
        (clearLow_dvd f (k + 1))
      generalize (mergeG K n (clearLow f (k + 1)) (k + 1)
        (Function.update fl k ((fl k).erase (f ^^^ 2 ^ k)))) = s at *
      have hcl : ∀ i, k + 1 ≤ i → clearLow (clearLow f (k + 1)) i = clearLow f i :=
        fun i hi => clearLow_clearLow hi
      refine ⟨by omega, g2, by rw [g3, hcl _ g1], ?_, ?_, ?_⟩
      · intro i h1 h2
        by_cases e : i = k
        · subst e
          rw [clearLow_of_dvd hd]
          refine ⟨hcond.2, ?_⟩
          rw [g5 i (Or.inl (by omega)), Function.update_same]
        · have h3 : k + 1 ≤ i := by omega
          obtain ⟨m1, m2⟩ := g4 i h3 h2
          rw [hcl i h3, Function.update_noteq e] at m1 m2
          exact ⟨m1, m2⟩
      · intro i hi
        have e : i ≠ k := by omega
        rw [g5 i (by omega), Function.update_noteq e]
      · rcases g6 with g6 | g6
        · exact Or.inl g6
        · right
          have e : s.2.2 ≠ k := by omega
          rw [hcl _ g1, Function.update_noteq e] at g6
          exact g6
    · simp only [mergeG, if_neg hcond]
      refine ⟨le_rfl, hk, (clearLow_of_dvd hd).symm, fun i h1 h2 => by omega,
        fun _ _ => trivial, Or.inr ?_⟩
      rw [clearLow_of_dvd hd]
      exact fun hm => hcond ⟨hlt, hm⟩

/-! ## Splitting a block and merging it back -/

/-- Releasing the block that the split loop has just cut out of the head `o` of list `j`
gives back the lists from before the allocation. -/
theorem freeG_splitG (K r j o : Nat) (l : List Nat) (fl : Nat → List Nat) (hr : r ≤ j)
    (hj : j ≤ K) (hd : 2 ^ j ∣ o) (hfl : fl j = o :: l) (hnb : j < K → (o ^^^ 2 ^ j) ∉ l) :
    ∀ i, freeG K o r (splitG r o (j - r) j (Function.update fl j l)) i = fl i := by
  have hsp := splitG_apply r o (j - r) j (Function.update fl j l) rfl hr
  have hdv : ∀ i, i ≤ j → 2 ^ i ∣ o := fun i hi => Nat.dvd_trans (Nat.pow_dvd_pow 2 hi) hd
  have hcl : ∀ i, i ≤ j → clearLow o i = o := fun i hi => clearLow_of_dvd (hdv i hi)
  obtain ⟨g1, g2, g3, g4, g5, g6⟩ := mergeG_spec K (K - r) o r
    (splitG r o (j - r) j (Function.update fl j l)) rfl (by omega) (hdv r hr)
  unfold freeG
  generalize mergeG K (K - r) o r (splitG r o (j - r) j (Function.update fl j l)) = s at *
  have hge : j ≤ s.2.2 := by
    by_contra hlt
    have hlt : s.2.2 < j := by omega
    rcases g6 with g6 | g6
    · omega
    · apply g6
      rw [hcl _ hlt.le, xor_pow_of_dvd (hdv _ hlt), hsp, if_pos ⟨g1, hlt⟩]
      exact List.mem_cons_self _ _
  have hle : s.2.2 ≤ j := by
    by_contra hgt
    have hgt : j < s.2.2 := by omega
    have := (g4 j hr hgt).1
    rw [hcl j le_rfl, hsp, if_neg (by omega), Function.update_same] at this
    exact hnb (by omega) this
  have hk2 : s.2.2 = j := le_antisymm hle hge
  rw [hk2] at g3 g4 g5
  rw [hk2, g3, hcl j le_rfl]
  intro i
  by_cases e : i = j
  · subst e
    rw [Function.update_same, g5 i (Or.inr le_rfl), hsp, if_neg (by omega),
      Function.update_same, hfl]
  · rw [Function.update_noteq e]
    by_cases hin : r ≤ i ∧ i < j
    · rw [(g4 i hin.1 hin.2).2, hcl i hin.2.le, xor_pow_of_dvd (hdv _ hin.2), hsp,
        if_pos hin, List.erase_cons_head, Function.update_noteq e]
    · rw [g5 i (by omega), hsp, if_neg hin, Function.update_noteq e]

/-- Every state in which the merge loop evaluates its test satisfies the invariant, with
the block under release in flight, and `buddy_ptr` is the buddy address of `free_ptr`. -/
theorem inv_mergeTests {c : Config} (hc : c.WF) {rest : List Nat} :
    ∀ (fuel f : Nat) (p : Pool) (fl : Nat → List Nat),
      Inv c p fl (f :: rest) (some f) →
      ∀ t, t ∈ mergeTests c fuel f (buddy_calc p f) p →
        t.2.2 = buddy_calc t.1 t.2.1 ∧ t.1.kval_m = p.kval_m ∧
        ∃ fl2, Inv c t.1 fl2 (t.2.1 :: rest) (some t.2.1) := by
  intro fuel
  induction fuel with
  | zero =>
    intro f p fl h t ht
    simp only [mergeTests, List.mem_singleton] at ht
    subst ht
    exact ⟨rfl, rfl, fl, h⟩
  | succ n ih =>
    intro f p fl h t ht
    simp only [mergeTests, List.mem_cons] at ht
    rcases ht with ht | ht
    · subst ht
      exact ⟨rfl, rfl, fl, h⟩
    · by_cases hcond : p.kval (blk f) < p.kval_m ∧
          p.tag (blk (buddy_calc p f)) = c.BLOCK_AVAIL ∧
          p.kval (blk (buddy_calc p f)) = p.kval (blk f)
      · rw [if_pos hcond] at ht
        obtain ⟨m1, -, m2⟩ := inv_mergeStep hc h hcond.1 hcond.2.1 hcond.2.2
        obtain ⟨-, e1, -⟩ := mergeStep_fields p f (buddy_calc p f)
        rw [List.erase_cons_head] at m2
        obtain ⟨g1, g2, g3⟩ := ih _ _ _ m2 t ht
        exact ⟨g1, g2.trans e1, g3⟩
      · rw [if_neg hcond] at ht
        simp at ht

/-- The last state in which the merge loop evaluates its test is the state the loop ends
in. -/
theorem mergeTests_getLast (c : Config) :
    ∀ (fuel f b : Nat) (p : Pool),
      ∃ b2, (mergeTests c fuel f b p).getLast? =
        some ((mergeLoop c fuel f b p).1, (mergeLoop c fuel f b p).2, b2) := by
  intro fuel
  induction fuel with
  | zero =>
    intro f b p
    exact ⟨b, rfl⟩
  | succ n ih =>
    intro f b p
    by_cases hcond : p.kval (blk f) < p.kval_m ∧ p.tag (blk b) = c.BLOCK_AVAIL ∧
        p.kval (blk b) = p.kval (blk f)
    · obtain ⟨b2, hb2⟩ := ih (mergeStep p f b).2
        (buddy_calc (mergeStep p f b).1 (mergeStep p f b).2) (mergeStep p f b).1
      refine ⟨b2, ?_⟩
      simp only [mergeTests, mergeLoop, if_pos hcond]
      rw [List.getLast?_cons, hb2]
      rfl
    · refine ⟨b, ?_⟩
      simp only [mergeTests, mergeLoop, if_neg hcond]
      rfl

/-! ## The loops end through their tests -/

theorem scanPasses_le (p : Pool) :
    ∀ fuel index, scanPasses p fuel index ≤ p.kval_m + 1 - index := by
  intro fuel
  induction fuel with
  | zero => intro index; simp [scanPasses]
  | succ n ih =>
    intro index
    unfold scanPasses
    split_ifs with hcond
    · have := ih (index + 1)
      omega
    · omega

theorem scanLoop_passes (p : Pool) :
    ∀ fuel index, scanLoop p fuel index = index + scanPasses p fuel index := by
  intro fuel
  induction fuel with
  | zero => intro index; simp [scanPasses, scanLoop]
  | succ n ih =>
    intro index
    unfold scanPasses scanLoop
    split_ifs with hcond
    · rw [ih (index + 1)]
      omega
    · rfl

theorem scanPasses_fuel (p : Pool) :
    ∀ fuel1 fuel2 index, p.kval_m + 1 - index ≤ fuel1 → p.kval_m + 1 - index ≤ fuel2 →
      scanPasses p fuel1 index = scanPasses p fuel2 index := by
  intro fuel1
  induction fuel1 with
  | zero =>
    intro fuel2 index h1 h2
    cases fuel2 with
    | zero => rfl
    | succ m =>
      unfold scanPasses
      rw [if_neg (fun hcond => by omega)]
  | succ n ih =>
    intro fuel2 index h1 h2
    cases fuel2 with
    | zero =>
      unfold scanPasses
      rw [if_neg (fun hcond => by omega)]
    | succ m =>
      unfold scanPasses
      split_ifs with hcond
      · rw [ih m (index + 1) (by omega) (by omega)]
      · rfl

theorem splitLoop_fuel (c : Config) (r o : Nat) :
    ∀ fuel1 fuel2 index p, index - r ≤ fuel1 → index - r ≤ fuel2 →
      splitLoop c r o fuel1 index p = splitLoop c r o fuel2 index p ∧
      splitPasses c r o fuel1 index p = index - r := by
  intro fuel1
  induction fuel1 with
  | zero =>
    intro fuel2 index p h1 h2
    have hcond : ¬ index > r := by omega
    cases fuel2 with
    | zero => exact ⟨rfl, by simp only [splitPasses]; omega⟩
    | succ m =>
      simp only [splitLoop, splitPasses, if_neg hcond]
      constructor
      · first | rfl | trivial
      · omega
  | succ n ih =>
    intro fuel2 index p h1 h2
    by_cases hcond : index > r
    · cases fuel2 with
      | zero => omega
      | succ m =>
        simp only [splitLoop, splitPasses, if_pos hcond]
        obtain ⟨g1, g2⟩ := ih m (index - 1) (splitStep c o (index - 1) p) (by omega) (by omega)
        exact ⟨g1, by rw [g2]; omega⟩
    · cases fuel2 with
      | zero =>
        simp only [splitLoop, splitPasses, if_neg hcond]
        constructor
        · first | rfl | trivial
        · omega
      | succ m =>
        simp only [splitLoop, splitPasses, if_neg hcond]
        constructor
        · first | rfl | trivial
        · omega

/-- One pass of the merge loop, entered with the loop test true, raises the order of the
block under release by one and leaves `kval_m` alone. -/
theorem mergeStep_kval (p : Pool) (f b : Nat) (hcond : p.kval (blk b) = p.kval (blk f)) :
    (mergeStep p f b).1.kval_m = p.kval_m ∧
    (mergeStep p f b).1.kval (blk (mergeStep p f b).2) = p.kval (blk f) + 1 := by
  obtain ⟨e0, e1, -, -, e4, -⟩ := mergeStep_fields p f b
  refine ⟨e1, ?_⟩
  rw [e4, e0, Function.update_same]
  split_ifs
  · rw [hcond]
  · rfl

theorem mergePasses_spec (c : Config) :
    ∀ fuel f b p,
      mergePasses c fuel f b p ≤ p.kval_m - p.kval (blk f) ∧
      (mergeLoop c fuel f b p).1.kval (blk (mergeLoop c fuel f b p).2) =
        p.kval (blk f) + mergePasses c fuel f b p := by
  intro fuel
  induction fuel with
  | zero =>
    intro f b p
    simp [mergePasses, mergeLoop]
  | succ n ih =>
    intro f b p
    by_cases hcond : p.kval (blk f) < p.kval_m ∧ p.tag (blk b) = c.BLOCK_AVAIL ∧
        p.kval (blk b) = p.kval (blk f)
    · simp only [mergePasses, mergeLoop, if_pos hcond]
      obtain ⟨e1, e2⟩ := mergeStep_kval p f b hcond.2.2
      obtain ⟨g1, g2⟩ := ih (mergeStep p f b).2
        (buddy_calc (mergeStep p f b).1 (mergeStep p f b).2) (mergeStep p f b).1
      rw [e1, e2] at g1
      rw [e2] at g2
      exact ⟨by omega, by rw [g2]; omega⟩
    · simp only [mergePasses, mergeLoop, if_neg hcond]
      exact ⟨by omega, by omega⟩

theorem mergeLoop_fuel (c : Config) :
    ∀ fuel1 fuel2 f b p, p.kval_m - p.kval (blk f) ≤ fuel1 →
      p.kval_m - p.kval (blk f) ≤ fuel2 →
      mergeLoop c fuel1 f b p = mergeLoop c fuel2 f b p ∧
      mergePasses c fuel1 f b p = mergePasses c fuel2 f b p := by
  intro fuel1
  induction fuel1 with
  | zero =>
    intro fuel2 f b p h1 h2
    have hcond : ¬ (p.kval (blk f) < p.kval_m ∧ p.tag (blk b) = c.BLOCK_AVAIL ∧
        p.kval (blk b) = p.kval (blk f)) := fun hcond => by omega
    cases fuel2 with
    | zero => exact ⟨rfl, rfl⟩
    | succ m =>
      simp only [mergeLoop, mergePasses, if_neg hcond]
      constructor <;> first | rfl | trivial
  | succ n ih =>
    intro fuel2 f b p h1 h2
    by_cases hcond : p.kval (blk f) < p.kval_m ∧ p.tag (blk b) = c.BLOCK_AVAIL ∧
        p.kval (blk b) = p.kval (blk f)
    · cases fuel2 with
      | zero => omega
      | succ m =>
        simp only [mergeLoop, mergePasses, if_pos hcond]
        obtain ⟨e1, e2⟩ := mergeStep_kval p f b hcond.2.2
        obtain ⟨g1, g2⟩ := ih m (mergeStep p f b).2
          (buddy_calc (mergeStep p f b).1 (mergeStep p f b).2) (mergeStep p f b).1
          (by rw [e1, e2]; omega) (by rw [e1, e2]; omega)
        exact ⟨g1, by rw [g2]⟩
    · cases fuel2 with
      | zero =>
        simp only [mergeLoop, mergePasses, if_neg hcond]
        constructor <;> first | rfl | trivial
      | succ m =>
        simp only [mergeLoop, mergePasses, if_neg hcond]
        constructor <;> first | rfl | trivial

/-! # The claims -/

/-- C1 (code at the failing input): `btok` holds the power of two in a C `int`, so for
`bytes = 2 ^ 31 + 1` it returns 31 although `2 ^ 31 < bytes`; the smallest order in
`[SMALLEST_K, MAX_K)` whose power of two is at least `bytes` is 32. -/
theorem btok_int_truncation :
    btok labConfig (2 ^ 31 + 1) = 31 ∧ 2 ^ 31 < 2 ^ 31 + 1 ∧
      labConfig.SMALLEST_K ≤ 32 ∧ 32 < labConfig.MAX_K ∧ 2 ^ 31 + 1 ≤ 2 ^ 32 := by
  decide

/-- C2: for every size hint, after `buddy_init` the pool is in its initial state: the
block at offset 0 is available with order `K = kval_m` and alone on list `K`, every list of
order below `K` is empty with a self-linked sentinel tagged unused, there is no other
available block, and `numbytes = 2 ^ K`. -/
theorem init_single_block (c : Config) (hc : c.WF) (size : Nat) :
    (buddy_init c size).numbytes = 2 ^ (buddy_init c size).kval_m ∧
      Pristine c (buddy_init c size) ∧
      ∀ o k, Available (buddy_init c size) o k ↔ (k = (buddy_init c size).kval_m ∧ o = 0) := by
  have hI := inv_init c hc size
  refine ⟨hI.numbytes_eq, hI.pristine, ?_⟩
  intro o k
  have hK : (buddy_init c size).kval_m = initKval c size := (buddy_init_fields c size).1
  constructor
  · rintro ⟨h1, h2⟩
    rw [hI.freeList_eq h1] at h2
    rw [hK]
    exact mem_initial_lists.1 h2
  · rintro ⟨h1, h2⟩
    refine ⟨h1.le, ?_⟩
    rw [hI.freeList_eq h1.le]
    rw [hK] at h1
    exact mem_initial_lists.2 ⟨h1, h2⟩

theorem init_single_block_witness :
    labConfig.WF ∧ (buddy_init labConfig (2 ^ 20)).numbytes =
        2 ^ (buddy_init labConfig (2 ^ 20)).kval_m ∧
      Pristine labConfig (buddy_init labConfig (2 ^ 20)) ∧
      ∀ o k, Available (buddy_init labConfig (2 ^ 20)) o k ↔
        (k = (buddy_init labConfig (2 ^ 20)).kval_m ∧ o = 0) :=
  ⟨by decide, init_single_block labConfig (by decide) (2 ^ 20)⟩

/-- C3 (code at the failing input): for the size hint `2 ^ 64 - 1`, `btok` returns
`MAX_K`; the test `kval > MAX_K` does not catch it, so `buddy_init` chooses the order
`MAX_K`, which is above `MAX_K - 1`. -/
theorem init_order_reaches_max :
    btok labConfig (2 ^ 64 - 1) = labConfig.MAX_K ∧
      (buddy_init labConfig (2 ^ 64 - 1)).kval_m = labConfig.MAX_K ∧
      ¬ (buddy_init labConfig (2 ^ 64 - 1)).kval_m ≤ labConfig.MAX_K - 1 := by
  decide

/-- C4 (code at the failing input): on the fresh pool of order 20, `buddy_malloc` with
`size = 2 ^ 64 - 1` succeeds, because `size + sizeof(struct avail)` wraps around to 23: the
handle is 24, the block at offset 0 is reserved with order 6, and its payload capacity
`2 ^ 6 - 24` is far below `size`. -/
theorem malloc_size_wraps :
    Reachable labConfig pool20 [] ∧
      ∃ r, buddy_malloc labConfig (some pool20) (2 ^ 64 - 1) = some r ∧
        r.ret = some (0 + labConfig.hdr) ∧
        r.pool.tag (blk 0) = labConfig.BLOCK_RESERVED ∧
        r.pool.kval (blk 0) = 6 ∧
        btok labConfig (wrap64 (2 ^ 64 - 1 + labConfig.hdr)) = 6 ∧
        2 ^ 6 - labConfig.hdr < 2 ^ 64 - 1 :=
  ⟨reach_pool20, _, rfl, by decide, by decide, by decide, by decide,
    by decide⟩

/-- C5: partition invariant.  In every state reachable from `buddy_init` by
`buddy_malloc` calls and `buddy_free` calls on live handles, the byte ranges
`[o, o + 2 ^ k)` of the available blocks (the members of the free lists) and of the
reserved blocks (handed out, not yet released) are pairwise disjoint and their union is
the arena `[0, 2 ^ kval_m)`: no block is listed twice, every range lies in the arena, two
different blocks never overlap, no block is both available and reserved, and every byte of
the arena lies in a block. -/
theorem partition_invariant (c : Config) (hc : c.WF) (p : Pool) (L : List Nat)
    (h : Reachable c p L) : Partition c p L := by
  obtain ⟨fl, res, hI, hL⟩ := reachable_inv hc h
  have hres : ∀ o, o + c.hdr ∈ L ↔ o ∈ res := by
    intro o
    rw [hL, List.mem_map]
    constructor
    · rintro ⟨a, ha, e⟩
      have : a = o := by simpa using e
      exact this ▸ ha
    · intro ho
      exact ⟨o, ho, rfl⟩
  have hblock : ∀ o k, Available p o k ∨ Reserved c p L o k →
      Live fl res o ∧ p.kval (blk o) = k := by
    rintro o k (⟨h1, h2⟩ | ⟨h1, h2⟩)
    · rw [hI.freeList_eq h1] at h2
      exact ⟨Or.inr ⟨k, h2⟩, (hI.free_tag k o h2).2⟩
    · exact ⟨Or.inl ((hres o).1 h1), h2⟩
  refine ⟨?_, reachable_nodup hc h, ?_, ?_, ?_, ?_⟩
  · intro k hk
    rw [hI.freeList_eq hk]
    exact hI.nodup k
  · intro o k hb
    obtain ⟨h1, h2⟩ := hblock o k hb
    rw [← h2]
    exact (hI.aligned o h1).2.2
  · intro o k o2 k2 hb hb2 hne
    obtain ⟨h1, h2⟩ := hblock o k hb
    obtain ⟨h3, h4⟩ := hblock o2 k2 hb2
    by_contra hcon
    have h5 := hI.disjoint o o2 h1 h3 (by rw [h4]; omega) (by rw [h2]; omega)
    subst h5
    rcases hne with e | e
    · exact e rfl
    · exact e (h2.symm.trans h4)
  · rintro o k k2 ⟨h1, h2⟩ ⟨h3, -⟩
    rw [hI.freeList_eq h1] at h2
    exact hI.sep k o h2 ((hres o).1 h3)
  · intro y hy
    obtain ⟨o, ho, h1, h2⟩ := hI.cover y hy
    refine ⟨o, p.kval (blk o), ?_, h1, h2⟩
    rcases ho with ho | ⟨i, ho⟩
    · exact Or.inr ⟨(hres o).2 ho, rfl⟩
    · have hi : i ≤ p.kval_m := by
        by_contra hgt
        rw [hI.above i (by omega)] at ho
        simp at ho
      rw [(hI.free_tag i o ho).2]
      exact Or.inl ⟨hi, by rw [hI.freeList_eq hi]; exact ho⟩

theorem partition_invariant_witness :
    labConfig.WF ∧ Reachable labConfig pool20b [152, 24] ∧
      Partition labConfig pool20b [152, 24] :=
  ⟨by decide, reach_pool20b, partition_invariant labConfig (by decide) pool20b [152, 24]
    reach_pool20b⟩

/-- C6: round trip on a fresh pool.  For every size hint and every size for which
`buddy_malloc` succeeds on the freshly initialised pool, `buddy_free` of the returned
handle leaves the pool in its initial state (one available block of order `K` at offset
0 on list `K`, every other list empty), with the order `K` it had. -/
theorem roundtrip_fresh (c : Config) (hc : c.WF) (hint size : Nat) (hh : hint < 2 ^ 64)
    (hs : size < 2 ^ 64) (r : MallocResult) (a : Nat)
    (hr : buddy_malloc c (some (buddy_init c hint)) size = some r) (ha : r.ret = some a) :
    Pristine c (buddy_free c r.pool (some a)) ∧
      (buddy_free c r.pool (some a)).kval_m = (buddy_init c hint).kval_m := by
  have h0 : Reachable c (buddy_init c hint) [] := Reachable.init hint hh
  have h1 := Reachable.malloc _ _ size r h0 hs hr
  rw [ha] at h1
  have ha1 : a ∈ (some a).toList ++ ([] : List Nat) := by simp
  have h2 := Reachable.free _ _ a h1 ha1
  have he : ((some a).toList ++ ([] : List Nat)).erase a = [] := by simp
  rw [he] at h2
  exact ⟨reachable_pristine hc h2,
    (free_kval_m hc h1 ha1).trans (malloc_kval_m hc h0 size r hr)⟩

theorem roundtrip_fresh_witness :
    labConfig.WF ∧ 2 ^ 20 < 2 ^ 64 ∧ 100 < 2 ^ 64 ∧
      buddy_malloc labConfig (some (buddy_init labConfig (2 ^ 20))) 100 =
        some (mallocBody labConfig pool20 100) ∧
      (mallocBody labConfig pool20 100).ret = some 24 ∧
      Pristine labConfig (buddy_free labConfig (mallocBody labConfig pool20 100).pool (some 24)) ∧
      (buddy_free labConfig (mallocBody labConfig pool20 100).pool (some 24)).kval_m =
        (buddy_init labConfig (2 ^ 20)).kval_m :=
  ⟨by decide, by norm_num, by norm_num, rfl, by decide,
    roundtrip_fresh labConfig (by decide) (2 ^ 20) 100 (by norm_num) (by norm_num)
      (mallocBody labConfig pool20 100) 24 rfl (by decide)⟩

/-- C7: full coalescing independent of the release order.  On a freshly initialised pool,
when two consecutive `buddy_malloc` calls succeed with the handles `a` and `b`, releasing
`a` then `b`, or `b` then `a`, brings the pool back to its initial state: one available
block of order `K` and every other list empty. -/
theorem coalesce_any_order (c : Config) (hc : c.WF) (hint s1 s2 : Nat) (hh : hint < 2 ^ 64)
    (hs1 : s1 < 2 ^ 64) (hs2 : s2 < 2 ^ 64) (r1 r2 : MallocResult) (a b : Nat)
    (h1 : buddy_malloc c (some (buddy_init c hint)) s1 = some r1) (ha : r1.ret = some a)
    (h2 : buddy_malloc c (some r1.pool) s2 = some r2) (hb : r2.ret = some b) :
    (Pristine c (buddy_free c (buddy_free c r2.pool (some a)) (some b)) ∧
      (buddy_free c (buddy_free c r2.pool (some a)) (some b)).kval_m =
        (buddy_init c hint).kval_m) ∧
    (Pristine c (buddy_free c (buddy_free c r2.pool (some b)) (some a)) ∧
      (buddy_free c (buddy_free c r2.pool (some b)) (some a)).kval_m =
        (buddy_init c hint).kval_m) := by
  have g0 : Reachable c (buddy_init c hint) [] := Reachable.init hint hh
  have g1 := Reachable.malloc _ _ s1 r1 g0 hs1 h1
  rw [ha] at g1
  have g2 := Reachable.malloc _ _ s2 r2 g1 hs2 h2
  rw [hb] at g2
  have hL : (some b).toList ++ ((some a).toList ++ ([] : List Nat)) = [b, a] := by simp
  rw [hL] at g2
  have hnd := reachable_nodup hc g2
  have hab : b ≠ a := by
    intro e
    rw [e] at hnd
    simp at hnd
  have hK := (malloc_kval_m hc g1 s2 r2 h2).trans (malloc_kval_m hc g0 s1 r1 h1)
  constructor
  · have ha2 : a ∈ [b, a] := by simp
    have g3 := Reachable.free _ _ a g2 ha2
    have e3 : [b, a].erase a = [b] := by simp [List.erase_cons, hab]
    rw [e3] at g3
    have hb3 : b ∈ [b] := by simp
    have g4 := Reachable.free _ _ b g3 hb3
    have e4 : [b].erase b = [] := by simp
    rw [e4] at g4
    exact ⟨reachable_pristine hc g4,
      (free_kval_m hc g3 hb3).trans ((free_kval_m hc g2 ha2).trans hK)⟩
  · have hb2 : b ∈ [b, a] := by simp
    have g3 := Reachable.free _ _ b g2 hb2
    have e3 : [b, a].erase b = [a] := by simp
    rw [e3] at g3
    have ha3 : a ∈ [a] := by simp
    have g4 := Reachable.free _ _ a g3 ha3
    have e4 : [a].erase a = [] := by simp
    rw [e4] at g4
    exact ⟨reachable_pristine hc g4,
      (free_kval_m hc g3 ha3).trans ((free_kval_m hc g2 hb2).trans hK)⟩

theorem coalesce_any_order_witness :
    labConfig.WF ∧ 2 ^ 20 < 2 ^ 64 ∧ 100 < 2 ^ 64 ∧
      buddy_malloc labConfig (some (buddy_init labConfig (2 ^ 20))) 100 =
        some (mallocBody labConfig pool20 100) ∧
      (mallocBody labConfig pool20 100).ret = some 24 ∧
      buddy_malloc labConfig (some (mallocBody labConfig pool20 100).pool) 100 =
        some (mallocBody labConfig pool20a 100) ∧
      (mallocBody labConfig pool20a 100).ret = some 152 ∧
      (Pristine labConfig (buddy_free labConfig (buddy_free labConfig pool20b (some 24)) (some 152)) ∧
        (buddy_free labConfig (buddy_free labConfig pool20b (some 24)) (some 152)).kval_m =
          (buddy_init labConfig (2 ^ 20)).kval_m) ∧
      (Pristine labConfig (buddy_free labConfig (buddy_free labConfig pool20b (some 152)) (some 24)) ∧
        (buddy_free labConfig (buddy_free labConfig pool20b (some 152)) (some 24)).kval_m =
          (buddy_init labConfig (2 ^ 20)).kval_m) :=
  ⟨by decide, by norm_num, by norm_num, rfl, by decide, rfl, by decide,
    coalesce_any_order labConfig (by decide) (2 ^ 20) 100 100 (by norm_num) (by norm_num)
      (by norm_num) (mallocBody labConfig pool20 100) (mallocBody labConfig pool20a 100) 24 152
      rfl (by decide) rfl (by decide)⟩

/-- C8: exhaustion.  For every freshly initialised pool of an order `K` up to 31 (with the
constants of `lab.h` these are the orders 20 to 31, the only ones for which `buddy_init`
leaves a pool behind: for the one other order it can choose, 48, there is a pool only if
`mmap` grants `2 ^ 48` bytes, and without them `buddy_init` ends the process; see
`initKval_lab_orders`), `buddy_malloc(2 ^ K - sizeof(struct avail))` succeeds and
reserves the whole arena as one block of order `K` at offset 0, leaving every free list
empty; an immediately following `buddy_malloc(1)` returns `NULL`, sets `errno` to
`ENOMEM` and leaves the pool unchanged. -/
theorem exhaustion_fresh (c : Config) (hc : c.WF) (hint : Nat)
    (hK : (buddy_init c hint).kval_m ≤ 31)
    (hh : c.hdr < 2 ^ (buddy_init c hint).kval_m) :
    ∃ q, buddy_malloc c (some (buddy_init c hint)) (2 ^ (buddy_init c hint).kval_m - c.hdr) =
        some { pool := q, ret := some (0 + c.hdr), err := none } ∧
      q.kval_m = (buddy_init c hint).kval_m ∧
      q.tag (blk 0) = c.BLOCK_RESERVED ∧ q.kval (blk 0) = q.kval_m ∧
      Reserved c q [0 + c.hdr] 0 q.kval_m ∧
      (∀ i, i ≤ q.kval_m → freeList q i = [] ∧ q.next (head i) = head i) ∧
      (∀ o k, ¬ Available q o k) ∧
      buddy_malloc c (some q) 1 = some { pool := q, ret := none, err := some c.ENOMEM } := by
  have hI := inv_init c hc hint
  have hKe : (buddy_init c hint).kval_m = initKval c hint := (buddy_init_fields c hint).1
  generalize hp : buddy_init c hint = p at *
  generalize hKdef : p.kval_m = K at *
  have hrange := initKval_range c hc hint
  rw [← hKe] at hrange hI
  have hsz : 2 ^ K - c.hdr ≠ 0 := by omega
  have hw : wrap64 (2 ^ K - c.hdr + c.hdr) = 2 ^ K := by
    unfold wrap64
    rw [Nat.sub_add_cancel hh.le]
    exact Nat.mod_eq_of_lt (Nat.pow_lt_pow_right (by norm_num) (by omega))
  have hbt : btok c (wrap64 (2 ^ K - c.hdr + c.hdr)) = K := by
    rw [hw]
    exact btok_two_pow_le31 c K (le_trans hc.1 hrange.1) hrange.2.1 hK
  have hfl : (fun i => if i = K then [0] else ([] : List Nat)) K = [0] := by simp
  rcases malloc_inv hc hI (2 ^ K - c.hdr) hsz with ⟨hgt, -⟩ | ⟨hj, o, l, q, e1, e, hk, hkm, -, hq⟩
  · exfalso
    rw [hbt, hKdef] at hgt
    have : K + 1 - K = 1 := by omega
    rw [this] at hgt
    simp [scanG] at hgt
  · rw [hbt, hKdef] at e1 hq
    rw [hbt] at hk
    have h1 : K + 1 - K = 1 := by omega
    have hscan : scanG (fun i => if i = K then [0] else ([] : List Nat)) K 1 K = K := by
      simp [scanG]
    rw [h1, hscan] at e1 hq
    simp only [if_true] at e1
    obtain ⟨rfl, rfl⟩ := List.cons.inj e1
    rw [Nat.sub_self] at hq
    simp only [splitG] at hq
    rw [hKdef] at hkm
    have hempty : ∀ i, Function.update (fun i => if i = K then [0] else ([] : List Nat)) K [] i
        = [] := by
      intro i
      by_cases hi : i = K
      · rw [hi]; simp
      · simp [Function.update_noteq hi, hi]
    have hlists : ∀ i, i ≤ q.kval_m → freeList q i = [] := by
      intro i hi
      rw [hq.freeList_eq hi, hempty i]
    refine ⟨q, e, hkm, hq.res_tag 0 (List.mem_cons_self _ _) (by simp), by rw [hk, hkm],
      ⟨List.mem_cons_self _ _, by rw [hk, hkm]⟩, ?_, ?_, ?_⟩
    · intro i hi
      have := hq.head_self_iff hi
      exact ⟨hlists i hi, this.2 (hempty i)⟩
    · rintro o k ⟨h1, h2⟩
      rw [hlists k h1] at h2
      exact absurd h2 (List.not_mem_nil _)
    · rcases malloc_inv hc hq 1 (by norm_num) with ⟨-, e2⟩ | ⟨hj2, o2, l2, q2, e3, -⟩
      · exact e2
      · rw [hempty] at e3
        exact absurd e3 (by simp)

theorem exhaustion_fresh_witness :
    labConfig.WF ∧ (buddy_init labConfig (2 ^ 31)).kval_m = 31 ∧
      (buddy_init labConfig (2 ^ 31)).kval_m ≤ 31 ∧
      labConfig.hdr < 2 ^ (buddy_init labConfig (2 ^ 31)).kval_m ∧
      ∃ q, buddy_malloc labConfig (some (buddy_init labConfig (2 ^ 31)))
          (2 ^ (buddy_init labConfig (2 ^ 31)).kval_m - labConfig.hdr) =
          some { pool := q, ret := some (0 + labConfig.hdr), err := none } ∧
        q.kval_m = (buddy_init labConfig (2 ^ 31)).kval_m ∧
        q.tag (blk 0) = labConfig.BLOCK_RESERVED ∧ q.kval (blk 0) = q.kval_m ∧
        Reserved labConfig q [0 + labConfig.hdr] 0 q.kval_m ∧
        (∀ i, i ≤ q.kval_m → freeList q i = [] ∧ q.next (head i) = head i) ∧
        (∀ o k, ¬ Available q o k) ∧
        buddy_malloc labConfig (some q) 1 =
          some { pool := q, ret := none, err := some labConfig.ENOMEM } :=
  ⟨by decide, by decide, by decide, by decide,
    exhaustion_fresh labConfig (by decide) (2 ^ 31) (by decide) (by decide)⟩

/-- C9 (counterexample): on the fresh pool of order 20 the size `2 ^ 20 - 24` has
`btok(size) = 20 >= K`, and yet `buddy_malloc(size)` succeeds (it is the request that
takes the whole arena). -/
theorem oversize_counterexample :
    Reachable labConfig pool20 [] ∧
      pool20.kval_m ≤ btok labConfig (2 ^ 20 - labConfig.hdr) ∧
      ∃ r, buddy_malloc labConfig (some pool20) (2 ^ 20 - labConfig.hdr) = some r ∧
        r.ret = some (0 + labConfig.hdr) ∧ r.err = none :=
  ⟨reach_pool20, by decide, _, rfl, by decide, by decide⟩

/-- C9 (amended): for every pool, in any state, and every size other than 0 whose
requested order `btok(size + sizeof(struct avail))` (the sum taken in 64 bits) is above
the order `K` of the pool, `buddy_malloc` returns `NULL`, sets `errno` to `ENOMEM`, and
leaves the pool as it was. -/
theorem oversize_fails (c : Config) (p : Pool) (size : Nat) (hs : size ≠ 0)
    (h : p.kval_m < btok c (wrap64 (size + c.hdr))) :
    buddy_malloc c (some p) size = some { pool := p, ret := none, err := some c.ENOMEM } :=
  malloc_fail_of_gt c p size hs h

theorem oversize_fails_witness :
    2 ^ 20 ≠ 0 ∧ pool20.kval_m < btok labConfig (wrap64 (2 ^ 20 + labConfig.hdr)) ∧
      buddy_malloc labConfig (some pool20) (2 ^ 20) =
        some { pool := pool20, ret := none, err := some labConfig.ENOMEM } :=
  ⟨by norm_num, by decide, oversize_fails labConfig pool20 (2 ^ 20) (by norm_num) (by decide)⟩

/-- C10: buddy involution.  For every pool, every order `k` and every block at arena
offset `o` whose recorded order is `k`, when the block at the buddy address is recorded at
order `k` too, `buddy_calc(buddy_calc(block))` is the block itself; on offsets,
`(o XOR 2 ^ k) XOR 2 ^ k = o`. -/
theorem buddy_involution (p : Pool) (o k : Nat) (hk : p.kval (blk o) = k)
    (hb : p.kval (blk (buddy_calc p o)) = k) :
    buddy_calc p (buddy_calc p o) = o ∧ (o ^^^ 2 ^ k) ^^^ 2 ^ k = o :=
  ⟨buddy_calc_twice p o (hb.trans hk.symm), Nat.xor_cancel_right _ _⟩

theorem buddy_involution_witness :
    pool20a.kval (blk 0) = 7 ∧ pool20a.kval (blk (buddy_calc pool20a 0)) = 7 ∧
      buddy_calc pool20a (buddy_calc pool20a 0) = 0 ∧ (0 ^^^ 2 ^ 7) ^^^ 2 ^ 7 = 0 :=
  ⟨by decide, by decide, buddy_involution pool20a 0 7 (by decide) (by decide)⟩

/-- C11: buddy tiling.  For every block offset `o` below `2 ^ K` that is a multiple of
`2 ^ k`, where `k < K` is the order recorded for the block, the buddy offset
`buddy_calc = o XOR 2 ^ k` is a multiple of `2 ^ k`, lies below `2 ^ K`, differs from `o`
by exactly `2 ^ k`, the ranges `[o, o + 2 ^ k)` and `[b, b + 2 ^ k)` are disjoint, and
together they are the range of size `2 ^ (k + 1)` that starts at the multiple
`min o b` of `2 ^ (k + 1)`, inside the arena. -/
theorem buddy_tiling (p : Pool) (o k : Nat) (hK : p.kval_m < 64) (hk : p.kval (blk o) = k)
    (hkK : k < p.kval_m) (ho : o < 2 ^ p.kval_m) (hd : 2 ^ k ∣ o) :
    buddy_calc p o = o ^^^ 2 ^ k ∧ 2 ^ k ∣ buddy_calc p o ∧
    buddy_calc p o < 2 ^ p.kval_m ∧
    (buddy_calc p o = o + 2 ^ k ∨ o = buddy_calc p o + 2 ^ k) ∧
    (o + 2 ^ k ≤ buddy_calc p o ∨ buddy_calc p o + 2 ^ k ≤ o) ∧
    2 ^ (k + 1) ∣ min o (buddy_calc p o) ∧
    min o (buddy_calc p o) + 2 ^ (k + 1) ≤ 2 ^ p.kval_m ∧
    ∀ y, ((o ≤ y ∧ y < o + 2 ^ k) ∨ (buddy_calc p o ≤ y ∧ y < buddy_calc p o + 2 ^ k)) ↔
      (min o (buddy_calc p o) ≤ y ∧ y < min o (buddy_calc p o) + 2 ^ (k + 1)) := by
  have hb : buddy_calc p o = o ^^^ 2 ^ k := by
    unfold buddy_calc
    simp only []
    rw [hk, shl1_eq (by omega)]
  have hpos : 0 < 2 ^ k := Nat.two_pow_pos k
  have hpow : 2 ^ (k + 1) = 2 ^ k + 2 ^ k := by rw [pow_succ]; ring
  have hdK : 2 ^ (k + 1) ∣ 2 ^ p.kval_m := Nat.pow_dvd_pow 2 hkK
  generalize hbdef : buddy_calc p o = b at *
  rcases pow_succ_dvd_or hd with h1 | ⟨h1, h2⟩
  · have e : b = o + 2 ^ k := by rw [hb, xor_pow_of_dvd h1]
    have hmin : min o b = o := by rw [e]; exact Nat.min_eq_left (by omega)
    have hle : o + 2 ^ (k + 1) ≤ 2 ^ p.kval_m :=
      le_of_dvd_of_lt_add (Nat.dvd_add h1 (dvd_refl _)) hdK (by omega)
    rw [hmin]
    refine ⟨hb, ?_, by omega, Or.inl e, by omega, h1, hle, ?_⟩
    · rw [e]; exact Nat.dvd_add hd (dvd_refl _)
    · intro y; omega
  · have e : b = o - 2 ^ k := by rw [hb, xor_pow_of_dvd_sub h1 h2]
    have hmin : min o b = b := by rw [e]; exact Nat.min_eq_right (by omega)
    have h2b : 2 ^ (k + 1) ∣ b := by rw [e]; exact h2
    have hle : b + 2 ^ (k + 1) ≤ 2 ^ p.kval_m :=
      le_of_dvd_of_lt_add (Nat.dvd_add h2b (dvd_refl _)) hdK (by omega)
    rw [hmin]
    refine ⟨hb, ?_, by omega, Or.inr (by omega), by omega, h2b, hle, ?_⟩
    · exact Nat.dvd_trans (Nat.pow_dvd_pow 2 (Nat.le_succ k)) h2b
    · intro y; omega

theorem buddy_tiling_witness :
    pool20a.kval_m < 64 ∧ pool20a.kval (blk 0) = 7 ∧ 7 < pool20a.kval_m ∧
      0 < 2 ^ pool20a.kval_m ∧ 2 ^ 7 ∣ 0 ∧
      (buddy_calc pool20a 0 = 0 ^^^ 2 ^ 7 ∧ 2 ^ 7 ∣ buddy_calc pool20a 0 ∧
      buddy_calc pool20a 0 < 2 ^ pool20a.kval_m ∧
      (buddy_calc pool20a 0 = 0 + 2 ^ 7 ∨ 0 = buddy_calc pool20a 0 + 2 ^ 7) ∧
      (0 + 2 ^ 7 ≤ buddy_calc pool20a 0 ∨ buddy_calc pool20a 0 + 2 ^ 7 ≤ 0) ∧
      2 ^ (7 + 1) ∣ min 0 (buddy_calc pool20a 0) ∧
      min 0 (buddy_calc pool20a 0) + 2 ^ (7 + 1) ≤ 2 ^ pool20a.kval_m ∧
      ∀ y, ((0 ≤ y ∧ y < 0 + 2 ^ 7) ∨
          (buddy_calc pool20a 0 ≤ y ∧ y < buddy_calc pool20a 0 + 2 ^ 7)) ↔
        (min 0 (buddy_calc pool20a 0) ≤ y ∧ y < min 0 (buddy_calc pool20a 0) + 2 ^ (7 + 1))) :=
  ⟨by decide, by decide, by decide, by decide, by decide,
    buddy_tiling pool20a 0 7 (by decide) (by decide) (by decide) (by decide) (by decide)⟩

/-- C12: eager-coalescing invariant.  In every state reachable from `buddy_init` by
`buddy_malloc` calls and `buddy_free` calls on live handles (so in particular after every
`buddy_free`), for no order `k < K` and offset `o` are the block at `o` and the block at
its buddy address `o XOR 2 ^ k` both available with order `k`. -/
theorem no_available_buddies (c : Config) (hc : c.WF) (p : Pool) (L : List Nat)
    (h : Reachable c p L) (o k : Nat) (hk : k < p.kval_m) (ha : Available p o k) :
    buddy_calc p o = o ^^^ 2 ^ k ∧ ¬ Available p (o ^^^ 2 ^ k) k := by
  obtain ⟨fl, res, hI, -⟩ := reachable_inv hc h
  obtain ⟨h1, h2⟩ := ha
  rw [hI.freeList_eq h1] at h2
  have hkv := (hI.free_tag k o h2).2
  have hK := hI.K_lt
  constructor
  · unfold buddy_calc
    simp only []
    rw [hkv, shl1_eq (by omega)]
  · rintro ⟨-, h3⟩
    rw [hI.freeList_eq h1] at h3
    exact hI.nobuddy k o hk h2 h3

theorem no_available_buddies_witness :
    labConfig.WF ∧ Reachable labConfig pool20b [152, 24] ∧ 8 < pool20b.kval_m ∧
      Available pool20b 256 8 ∧
      buddy_calc pool20b 256 = 256 ^^^ 2 ^ 8 ∧ ¬ Available pool20b (256 ^^^ 2 ^ 8) 8 :=
  ⟨by decide, reach_pool20b, by decide, ⟨by decide, by decide⟩,
    no_available_buddies labConfig (by decide) pool20b [152, 24] reach_pool20b 256 8
      (by decide) ⟨by decide, by decide⟩⟩

/-- C13: free-list well-formedness invariant.  In every state reachable from `buddy_init`
by `buddy_malloc` calls and `buddy_free` calls on live handles, each free list `i` in
`0..K` is a circular doubly linked list through its sentinel (on the sentinel and on every
member `prev` undoes `next` and `next` undoes `prev`), it has no member twice, every
member is tagged available, has recorded order `i`, an offset that is a multiple of
`2 ^ i` and is not a reserved block, and no block is on two lists. -/
theorem free_lists_well_formed (c : Config) (hc : c.WF) (p : Pool) (L : List Nat)
    (h : Reachable c p L) (i : Nat) (hi : i ≤ p.kval_m) :
    Links p (head i) (freeList p i) (head i) ∧
    (p.prev (p.next (head i)) = head i ∧ p.next (p.prev (head i)) = head i) ∧
    (freeList p i).Nodup ∧
    (∀ o, o ∈ freeList p i →
      p.prev (p.next (blk o)) = blk o ∧ p.next (p.prev (blk o)) = blk o ∧
      p.tag (blk o) = c.BLOCK_AVAIL ∧ p.kval (blk o) = i ∧ 2 ^ i ∣ o ∧
      (∀ k, ¬ Reserved c p L o k) ∧
      ∀ j, j ≤ p.kval_m → o ∈ freeList p j → j = i) := by
  obtain ⟨fl, res, hI, hL⟩ := reachable_inv hc h
  rw [hI.freeList_eq hi]
  obtain ⟨g1, g2, g3, g4⟩ := Links.inverse (fl i) (head i) (head i) (hI.lists i hi)
  refine ⟨hI.lists i hi, ⟨g1, g4⟩, hI.nodup i, ?_⟩
  intro o ho
  obtain ⟨t1, t2⟩ := hI.free_tag i o ho
  refine ⟨g2 o ho, g3 o ho, t1, t2, ?_, ?_, ?_⟩
  · have := (hI.aligned o (Or.inr ⟨i, ho⟩)).2.1
    rw [t2] at this
    exact this
  · rintro k ⟨h1, -⟩
    rw [hL] at h1
    obtain ⟨a, ha, e⟩ := List.mem_map.1 h1
    have : a = o := by simpa using e
    exact hI.sep i o ho (this ▸ ha)
  · intro j hj hoj
    rw [hI.freeList_eq hj] at hoj
    exact hI.mem_unique hoj ho

theorem free_lists_well_formed_witness :
    labConfig.WF ∧ Reachable labConfig pool20b [152, 24] ∧ 8 ≤ pool20b.kval_m ∧
      (Links pool20b (head 8) (freeList pool20b 8) (head 8) ∧
      (pool20b.prev (pool20b.next (head 8)) = head 8 ∧
        pool20b.next (pool20b.prev (head 8)) = head 8) ∧
      (freeList pool20b 8).Nodup ∧
      (∀ o, o ∈ freeList pool20b 8 →
        pool20b.prev (pool20b.next (blk o)) = blk o ∧
        pool20b.next (pool20b.prev (blk o)) = blk o ∧
        pool20b.tag (blk o) = labConfig.BLOCK_AVAIL ∧ pool20b.kval (blk o) = 8 ∧ 2 ^ 8 ∣ o ∧
        (∀ k, ¬ Reserved labConfig pool20b [152, 24] o k) ∧
        ∀ j, j ≤ pool20b.kval_m → o ∈ freeList pool20b j → j = 8)) :=
  ⟨by decide, reach_pool20b, by decide,
    free_lists_well_formed labConfig (by decide) pool20b [152, 24] reach_pool20b 8 (by decide)⟩

/-- C14: `buddy_malloc` fails exactly when the pool is `NULL`, the size is 0, or every
free list of order `r..K` is empty, where `r = btok(size + sizeof(struct avail))`.  For the
`NULL` pool it returns `NULL`; for size 0 it returns `NULL`, sets no `errno` and leaves
the pool as it is; when the lists are empty it returns `NULL`, sets `errno` to `ENOMEM` and
leaves the pool as it is; in every other case it returns a handle. -/
theorem malloc_fails_iff (c : Config) (hc : c.WF) (p : Pool) (L : List Nat)
    (h : Reachable c p L) (size : Nat) :
    buddy_malloc c none size = none ∧
    (size = 0 → buddy_malloc c (some p) size = some { pool := p, ret := none, err := none }) ∧
    (size ≠ 0 →
      (∀ i, btok c (wrap64 (size + c.hdr)) ≤ i → i ≤ p.kval_m → freeList p i = []) →
      buddy_malloc c (some p) size = some { pool := p, ret := none, err := some c.ENOMEM }) ∧
    (size ≠ 0 →
      (∃ i, btok c (wrap64 (size + c.hdr)) ≤ i ∧ i ≤ p.kval_m ∧ freeList p i ≠ []) →
      ∃ q a, buddy_malloc c (some p) size = some { pool := q, ret := some a, err := none }) := by
  obtain ⟨fl, res, hI, -⟩ := reachable_inv hc h
  refine ⟨rfl, ?_, ?_, ?_⟩
  · intro hs
    simp [buddy_malloc, hs]
  · intro hs hall
    refine (malloc_cases hc hI size hs).1 ?_
    intro i h1 h2
    rw [← hI.freeList_eq h2]
    exact hall i h1 h2
  · rintro hs ⟨i, h1, h2, h3⟩
    refine (malloc_cases hc hI size hs).2 ⟨i, h1, h2, ?_⟩
    rw [← hI.freeList_eq h2]
    exact h3

theorem malloc_fails_iff_witness :
    labConfig.WF ∧ Reachable labConfig pool20b [152, 24] ∧
      (buddy_malloc labConfig none 100 = none ∧
      (100 = 0 → buddy_malloc labConfig (some pool20b) 100 =
        some { pool := pool20b, ret := none, err := none }) ∧
      (100 ≠ 0 →
        (∀ i, btok labConfig (wrap64 (100 + labConfig.hdr)) ≤ i → i ≤ pool20b.kval_m →
          freeList pool20b i = []) →
        buddy_malloc labConfig (some pool20b) 100 =
          some { pool := pool20b, ret := none, err := some labConfig.ENOMEM }) ∧
      (100 ≠ 0 →
        (∃ i, btok labConfig (wrap64 (100 + labConfig.hdr)) ≤ i ∧ i ≤ pool20b.kval_m ∧
          freeList pool20b i ≠ []) →
        ∃ q a, buddy_malloc labConfig (some pool20b) 100 =
          some { pool := q, ret := some a, err := none })) :=
  ⟨by decide, reach_pool20b,
    malloc_fails_iff labConfig (by decide) pool20b [152, 24] reach_pool20b 100⟩

/-- C15: lowest sufficient order and split result.  When `buddy_malloc` succeeds in a
reachable state with requested order `r = btok(size + sizeof(struct avail))`, the block it
takes is the head `o` of free list `j`, where `j` is the least order in `r..K` whose list
is not empty; after the call list `j` has lost that head, each list `i` with `r ≤ i < j`
has the new available block of order `i` at offset `o + 2 ^ i` at its head, every other
list is unchanged, and the returned block is the reserved block at offset `o` with order
`r`. -/
theorem malloc_takes_lowest (c : Config) (hc : c.WF) (p : Pool) (L : List Nat)
    (h : Reachable c p L) (size : Nat) (r : MallocResult) (a : Nat)
    (hr : buddy_malloc c (some p) size = some r) (ha : r.ret = some a) :
    ∃ j o l, btok c (wrap64 (size + c.hdr)) ≤ j ∧ j ≤ p.kval_m ∧
      (∀ i, btok c (wrap64 (size + c.hdr)) ≤ i → i < j → freeList p i = []) ∧
      freeList p j = o :: l ∧ freeList r.pool j = l ∧
      a = o + c.hdr ∧ r.pool.tag (blk o) = c.BLOCK_RESERVED ∧
      r.pool.kval (blk o) = btok c (wrap64 (size + c.hdr)) ∧
      (∀ i, btok c (wrap64 (size + c.hdr)) ≤ i → i < j →
        freeList r.pool i = (o + 2 ^ i) :: freeList p i ∧
        r.pool.tag (blk (o + 2 ^ i)) = c.BLOCK_AVAIL ∧ r.pool.kval (blk (o + 2 ^ i)) = i) ∧
      (∀ i, i ≤ p.kval_m → (i < btok c (wrap64 (size + c.hdr)) ∨ j < i) →
        freeList r.pool i = freeList p i) ∧
      r.pool.kval_m = p.kval_m := by
  obtain ⟨fl, res, hI, -⟩ := reachable_inv hc h
  have hs : size ≠ 0 := by
    intro hs
    simp only [buddy_malloc, hs, if_true, Option.some.injEq] at hr
    subst hr
    simp at ha
  obtain ⟨s1, s2, -, -⟩ := scanG_spec fl p.kval_m
    (p.kval_m + 1 - btok c (wrap64 (size + c.hdr))) (btok c (wrap64 (size + c.hdr))) rfl
  rcases malloc_inv hc hI size hs with ⟨-, e⟩ | ⟨hj, o, l, q, e1, e, hk, hkm, -, hq⟩
  · rw [e] at hr
    have := Option.some.inj hr
    subst this
    simp at ha
  · rw [e] at hr
    have := Option.some.inj hr
    subst this
    generalize btok c (wrap64 (size + c.hdr)) = rk at *
    generalize scanG fl p.kval_m (p.kval_m + 1 - rk) rk = j at *
    have hfl : ∀ i, i ≤ p.kval_m → freeList q i =
        if rk ≤ i ∧ i < j then (o + 2 ^ i) :: Function.update fl j l i
        else Function.update fl j l i := by
      intro i hi
      rw [hq.freeList_eq (by rw [hkm]; exact hi)]
      exact splitG_apply rk o (j - rk) j _ rfl s1 i
    refine ⟨j, o, l, s1, hj, ?_, ?_, ?_, (Option.some.inj ha).symm,
      hq.res_tag o (List.mem_cons_self _ _) (by simp), hk, ?_, ?_, hkm⟩
    · intro i h1 h2
      rw [hI.freeList_eq (by omega)]
      exact s2 i h1 h2
    · rw [hI.freeList_eq hj]; exact e1
    · rw [hfl j hj, if_neg (by omega), Function.update_same]
    · intro i h1 h2
      have hne : i ≠ j := by omega
      have hmem : o + 2 ^ i ∈ splitG rk o (j - rk) j (Function.update fl j l) i := by
        rw [splitG_apply rk o (j - rk) j _ rfl s1 i, if_pos ⟨h1, h2⟩]
        exact List.mem_cons_self _ _
      refine ⟨?_, hq.free_tag i _ hmem⟩
      rw [hfl i (by omega), if_pos ⟨h1, h2⟩, Function.update_noteq hne,
        hI.freeList_eq (by omega)]
    · intro i hi hout
      have hne : i ≠ j := by omega
      rw [hfl i hi, if_neg (by omega), Function.update_noteq hne, hI.freeList_eq hi]

theorem malloc_takes_lowest_witness :
    labConfig.WF ∧ Reachable labConfig pool20 [] ∧
      buddy_malloc labConfig (some pool20) 100 = some (mallocBody labConfig pool20 100) ∧
      (mallocBody labConfig pool20 100).ret = some 24 ∧
      ∃ j o l, btok labConfig (wrap64 (100 + labConfig.hdr)) ≤ j ∧ j ≤ pool20.kval_m ∧
        (∀ i, btok labConfig (wrap64 (100 + labConfig.hdr)) ≤ i → i < j →
          freeList pool20 i = []) ∧
        freeList pool20 j = o :: l ∧ freeList (mallocBody labConfig pool20 100).pool j = l ∧
        24 = o + labConfig.hdr ∧
        (mallocBody labConfig pool20 100).pool.tag (blk o) = labConfig.BLOCK_RESERVED ∧
        (mallocBody labConfig pool20 100).pool.kval (blk o) =
          btok labConfig (wrap64 (100 + labConfig.hdr)) ∧
        (∀ i, btok labConfig (wrap64 (100 + labConfig.hdr)) ≤ i → i < j →
          freeList (mallocBody labConfig pool20 100).pool i = (o + 2 ^ i) :: freeList pool20 i ∧
          (mallocBody labConfig pool20 100).pool.tag (blk (o + 2 ^ i)) =
            labConfig.BLOCK_AVAIL ∧
          (mallocBody labConfig pool20 100).pool.kval (blk (o + 2 ^ i)) = i) ∧
        (∀ i, i ≤ pool20.kval_m →
          (i < btok labConfig (wrap64 (100 + labConfig.hdr)) ∨ j < i) →
          freeList (mallocBody labConfig pool20 100).pool i = freeList pool20 i) ∧
        (mallocBody labConfig pool20 100).pool.kval_m = pool20.kval_m :=
  ⟨by decide, reach_pool20, rfl, by decide,
    malloc_takes_lowest labConfig (by decide) pool20 [] reach_pool20 100
      (mallocBody labConfig pool20 100) 24 rfl (by decide)⟩

/-- C16: release result.  For every reachable state and every live handle `a`, whose block
is at offset `o = a - sizeof(struct avail)` with order `k`, there is an order `k2` with
`k ≤ k2 ≤ K`, the first at which `k2 = K` or the buddy is not available with order `k2`,
such that: for every `k ≤ i < k2` the buddy `clearLow o i XOR 2 ^ i` was available with
order `i` and `buddy_free` takes exactly it off list `i`; `buddy_free` puts the block
`clearLow o k2` (the offset `o` with its low `k2` bits cleared, the lowest address of the
merged blocks) at the head of list `k2` as an available block of order `k2`; and every
other list is unchanged. -/
theorem free_result (c : Config) (hc : c.WF) (p : Pool) (L : List Nat)
    (h : Reachable c p L) (a : Nat) (ha : a ∈ L) :
    ∃ k2, p.kval (blk (a - c.hdr)) ≤ k2 ∧ k2 ≤ p.kval_m ∧
      (∀ i, p.kval (blk (a - c.hdr)) ≤ i → i < k2 →
        Available p (clearLow (a - c.hdr) i ^^^ 2 ^ i) i ∧
        clearLow (a - c.hdr) k2 ≤ clearLow (a - c.hdr) i ^^^ 2 ^ i ∧
        freeList (buddy_free c p (some a)) i =
          (freeList p i).erase (clearLow (a - c.hdr) i ^^^ 2 ^ i)) ∧
      (k2 = p.kval_m ∨ ¬ Available p (clearLow (a - c.hdr) k2 ^^^ 2 ^ k2) k2) ∧
      clearLow (a - c.hdr) k2 ≤ a - c.hdr ∧
      freeList (buddy_free c p (some a)) k2 = clearLow (a - c.hdr) k2 :: freeList p k2 ∧
      (buddy_free c p (some a)).tag (blk (clearLow (a - c.hdr) k2)) = c.BLOCK_AVAIL ∧
      (buddy_free c p (some a)).kval (blk (clearLow (a - c.hdr) k2)) = k2 ∧
      (∀ i, i ≤ p.kval_m → (i < p.kval (blk (a - c.hdr)) ∨ k2 < i) →
        freeList (buddy_free c p (some a)) i = freeList p i) ∧
      (buddy_free c p (some a)).kval_m = p.kval_m := by
  obtain ⟨fl, res, hI, hL⟩ := reachable_inv hc h
  rw [hL] at ha
  obtain ⟨o, ho, rfl⟩ := List.mem_map.1 ha
  simp only [Nat.add_sub_cancel]
  obtain ⟨hq, hkm, -⟩ := free_inv hc hI ho
  obtain ⟨a1, a2, -⟩ := hI.aligned o (Or.inl ho)
  obtain ⟨g1, g2, g3, g4, g5, g6⟩ := mergeG_spec p.kval_m (p.kval_m - p.kval (blk o)) o
    (p.kval (blk o)) fl rfl a1 a2
  have hfree : ∀ i, i ≤ p.kval_m → freeList (buddy_free c p (some (o + c.hdr))) i =
      freeG p.kval_m o (p.kval (blk o)) fl i := by
    intro i hi
    exact hq.freeList_eq (by rw [hkm]; exact hi)
  unfold freeG at hfree hq
  simp only [] at hfree hq
  generalize mergeG p.kval_m (p.kval_m - p.kval (blk o)) o (p.kval (blk o)) fl = s at *
  generalize p.kval (blk o) = k at *
  have hmem : clearLow o s.2.2 ∈ Function.update s.1 s.2.2 (s.2.1 :: s.1 s.2.2) s.2.2 := by
    rw [Function.update_same, g3]
    exact List.mem_cons_self _ _
  refine ⟨s.2.2, g1, g2, ?_, ?_, clearLow_le _ _, ?_, (hq.free_tag _ _ hmem).1,
    (hq.free_tag _ _ hmem).2, ?_, hkm⟩
  · intro i h1 h2
    obtain ⟨m1, m2⟩ := g4 i h1 h2
    have hi : i ≤ p.kval_m := by omega
    refine ⟨⟨hi, by rw [hI.freeList_eq hi]; exact m1⟩, ?_, ?_⟩
    · have hs := merge_survivor (clearLow_dvd o i)
      rw [clearLow_clearLow (Nat.le_succ i)] at hs
      have h3 : clearLow o s.2.2 ≤ clearLow o (i + 1) := by
        rw [← clearLow_clearLow (o := o) (j := i + 1) (i := s.2.2) (by omega)]
        exact clearLow_le _ _
      have h4 : clearLow o (i + 1) ≤ clearLow o i ^^^ 2 ^ i := by
        rw [← hs]
        split_ifs with hlt
        · exact le_rfl
        · omega
      exact le_trans h3 h4
    · have e : i ≠ s.2.2 := by omega
      rw [hfree i hi, Function.update_noteq e, m2, hI.freeList_eq hi]
  · rcases g6 with g6 | g6
    · exact Or.inl g6
    · right
      rintro ⟨h1, h2⟩
      rw [hI.freeList_eq h1] at h2
      exact g6 h2
  · rw [hfree _ g2, Function.update_same, g3, g5 _ (Or.inr le_rfl), hI.freeList_eq g2]
  · intro i hi hout
    have e : i ≠ s.2.2 := by omega
    rw [hfree i hi, Function.update_noteq e, g5 i (by omega), hI.freeList_eq hi]

theorem free_result_witness :
    labConfig.WF ∧ Reachable labConfig pool20a [24] ∧ 24 ∈ [24] ∧
      ∃ k2, pool20a.kval (blk (24 - labConfig.hdr)) ≤ k2 ∧ k2 ≤ pool20a.kval_m ∧
        (∀ i, pool20a.kval (blk (24 - labConfig.hdr)) ≤ i → i < k2 →
          Available pool20a (clearLow (24 - labConfig.hdr) i ^^^ 2 ^ i) i ∧
          clearLow (24 - labConfig.hdr) k2 ≤ clearLow (24 - labConfig.hdr) i ^^^ 2 ^ i ∧
          freeList (buddy_free labConfig pool20a (some 24)) i =
            (freeList pool20a i).erase (clearLow (24 - labConfig.hdr) i ^^^ 2 ^ i)) ∧
        (k2 = pool20a.kval_m ∨
          ¬ Available pool20a (clearLow (24 - labConfig.hdr) k2 ^^^ 2 ^ k2) k2) ∧
        clearLow (24 - labConfig.hdr) k2 ≤ 24 - labConfig.hdr ∧
        freeList (buddy_free labConfig pool20a (some 24)) k2 =
          clearLow (24 - labConfig.hdr) k2 :: freeList pool20a k2 ∧
        (buddy_free labConfig pool20a (some 24)).tag (blk (clearLow (24 - labConfig.hdr) k2)) =
          labConfig.BLOCK_AVAIL ∧
        (buddy_free labConfig pool20a (some 24)).kval (blk (clearLow (24 - labConfig.hdr) k2)) =
          k2 ∧
        (∀ i, i ≤ pool20a.kval_m → (i < pool20a.kval (blk (24 - labConfig.hdr)) ∨ k2 < i) →
          freeList (buddy_free labConfig pool20a (some 24)) i = freeList pool20a i) ∧
        (buddy_free labConfig pool20a (some 24)).kval_m = pool20a.kval_m :=
  ⟨by decide, reach_pool20a, by decide,
    free_result labConfig (by decide) pool20a [24] reach_pool20a 24 (by decide)⟩

/-- C17: round trip from any reachable state.  For every state reachable from `buddy_init`
by `buddy_malloc` calls and `buddy_free` calls on live handles and every size for which
`buddy_malloc` succeeds there, `buddy_free` of the returned handle right after it yields a
state with the same free lists (the same members in the same order on every list), the
same live handles and the same reserved blocks with the same orders. -/
theorem roundtrip_any (c : Config) (hc : c.WF) (p : Pool) (L : List Nat)
    (h : Reachable c p L) (size : Nat) (hsz : size < 2 ^ 64) (r : MallocResult) (a : Nat)
    (hr : buddy_malloc c (some p) size = some r) (ha : r.ret = some a) :
    (∀ i, i ≤ p.kval_m → freeList (buddy_free c r.pool (some a)) i = freeList p i) ∧
    (buddy_free c r.pool (some a)).kval_m = p.kval_m ∧
    (r.ret.toList ++ L).erase a = L ∧
    Reachable c (buddy_free c r.pool (some a)) L ∧
    (∀ o k, Reserved c (buddy_free c r.pool (some a)) L o k ↔ Reserved c p L o k) ∧
    (∀ o k, Available (buddy_free c r.pool (some a)) o k ↔ Available p o k) := by
  obtain ⟨fl, res, hI, hL⟩ := reachable_inv hc h
  have hs : size ≠ 0 := by
    intro hs
    simp only [buddy_malloc, hs, if_true, Option.some.injEq] at hr
    subst hr
    simp at ha
  have hreach1 := Reachable.malloc p L size r h hsz hr
  have herase : (r.ret.toList ++ L).erase a = L := by
    rw [ha]
    simp
  have hmem : a ∈ r.ret.toList ++ L := by
    rw [ha]
    simp
  have hreach2 := Reachable.free _ _ a hreach1 hmem
  rw [herase] at hreach2
  obtain ⟨s1, -, -, -⟩ := scanG_spec fl p.kval_m
    (p.kval_m + 1 - btok c (wrap64 (size + c.hdr))) (btok c (wrap64 (size + c.hdr))) rfl
  rcases malloc_inv hc hI size hs with ⟨-, e⟩ | ⟨hj, o, l, q1, e1, e, hk, hkm, hfr, hq1⟩
  · rw [e] at hr
    have := Option.some.inj hr
    subst this
    simp at ha
  · rw [e] at hr
    have := Option.some.inj hr
    subst this
    have hao : a = o + c.hdr := (Option.some.inj ha).symm
    subst hao
    generalize btok c (wrap64 (size + c.hdr)) = rk at *
    generalize scanG fl p.kval_m (p.kval_m + 1 - rk) rk = j at *
    have hoj : o ∈ fl j := e1 ▸ List.mem_cons_self _ _
    have hkvo := (hI.free_tag j o hoj).2
    have hal := (hI.aligned o (Or.inr ⟨j, hoj⟩)).2.1
    rw [hkvo] at hal
    have hnb : j < p.kval_m → (o ^^^ 2 ^ j) ∉ l := by
      intro hlt hm
      exact hI.nobuddy j o hlt hoj (e1 ▸ List.mem_cons_of_mem _ hm)
    obtain ⟨hq, hkm2, hfr2⟩ := free_inv hc hq1 (List.mem_cons_self o res)

    rw [hkm, hk] at hq
    have hlists : ∀ i, i ≤ p.kval_m →
        freeList (buddy_free c q1 (some (o + c.hdr))) i = freeList p i := by
      intro i hi
      rw [hq.freeList_eq (by rw [hkm2, hkm]; exact hi),
        freeG_splitG p.kval_m rk j o l fl s1 hj hal e1 hnb i, hI.freeList_eq hi]
    refine ⟨hlists, hkm2.trans hkm, herase, hreach2, ?_, ?_⟩
    · intro o2 k
      unfold Reserved
      constructor
      · rintro ⟨h1, h2⟩
        refine ⟨h1, ?_⟩
        have hor : o2 ∈ res := by
          rw [hL] at h1
          obtain ⟨x, hx, e2⟩ := List.mem_map.1 h1
          have : x = o2 := by simpa using e2
          exact this ▸ hx
        have hne : o2 ≠ o := fun e2 => hI.sep j o hoj (e2 ▸ hor)
        rw [← h2, hfr2 o2 (List.mem_cons_of_mem _ hor) hne, hfr o2 hor]
      · rintro ⟨h1, h2⟩
        refine ⟨h1, ?_⟩
        have hor : o2 ∈ res := by
          rw [hL] at h1
          obtain ⟨x, hx, e2⟩ := List.mem_map.1 h1
          have : x = o2 := by simpa using e2
          exact this ▸ hx
        have hne : o2 ≠ o := fun e2 => hI.sep j o hoj (e2 ▸ hor)
        rw [← h2, hfr2 o2 (List.mem_cons_of_mem _ hor) hne, hfr o2 hor]
    · intro o2 k
      unfold Available
      rw [hkm2, hkm]
      constructor
      · rintro ⟨h1, h2⟩
        exact ⟨h1, by rw [← hlists k h1]; exact h2⟩
      · rintro ⟨h1, h2⟩
        exact ⟨h1, by rw [hlists k h1]; exact h2⟩

theorem roundtrip_any_witness :
    labConfig.WF ∧ Reachable labConfig pool20a [24] ∧ 100 < 2 ^ 64 ∧
      buddy_malloc labConfig (some pool20a) 100 = some (mallocBody labConfig pool20a 100) ∧
      (mallocBody labConfig pool20a 100).ret = some 152 ∧
      ((∀ i, i ≤ pool20a.kval_m →
        freeList (buddy_free labConfig (mallocBody labConfig pool20a 100).pool (some 152)) i =
          freeList pool20a i) ∧
      (buddy_free labConfig (mallocBody labConfig pool20a 100).pool (some 152)).kval_m =
        pool20a.kval_m ∧
      ((mallocBody labConfig pool20a 100).ret.toList ++ [24]).erase 152 = [24] ∧
      Reachable labConfig
        (buddy_free labConfig (mallocBody labConfig pool20a 100).pool (some 152)) [24] ∧
      (∀ o k, Reserved labConfig
          (buddy_free labConfig (mallocBody labConfig pool20a 100).pool (some 152)) [24] o k ↔
        Reserved labConfig pool20a [24] o k) ∧
      (∀ o k, Available
          (buddy_free labConfig (mallocBody labConfig pool20a 100).pool (some 152)) o k ↔
        Available pool20a o k)) :=
  ⟨by decide, reach_pool20a, by norm_num, rfl, by decide,
    roundtrip_any labConfig (by decide) pool20a [24] reach_pool20a 100 (by norm_num)
      (mallocBody labConfig pool20a 100) 152 rfl (by decide)⟩

/-- C18: the buddy header is always a live header.  In every state reachable from
`buddy_init` by `buddy_malloc` calls and `buddy_free` calls on live handles, and for every
live handle `a` that is released, at every evaluation of the test of the merge loop (pool
`s`, block under release at offset `f`, buddy address `b`; `N` is the number of passes
the loop is allowed, `buddy_free` allows `kval_m - k`, which the loop never uses up) at
which the order `k` of the block under release is below `kval_m`: `b` is `f XOR 2 ^ k`, it lies inside the arena
together with the whole block that starts there, and it is the start of a live block of
order at most `k`, which is either available (on the free list of the order in its
control record, tagged `BLOCK_AVAIL`) or reserved (its handle is live, tagged
`BLOCK_RESERVED`). -/
theorem buddy_header_live (c : Config) (hc : c.WF) (p : Pool) (L : List Nat)
    (h : Reachable c p L) (a : Nat) (ha : a ∈ L) (N : Nat) (s : Pool) (f b : Nat)
    (ht : (s, f, b) ∈ mergeTests c N (a - c.hdr) (buddy_calc p (a - c.hdr)) p)
    (hk : s.kval (blk f) < s.kval_m) :
    b = f ^^^ 2 ^ s.kval (blk f) ∧ s.kval_m = p.kval_m ∧
    b + 2 ^ s.kval (blk b) ≤ 2 ^ s.kval_m ∧ c.hdr ≤ 2 ^ s.kval (blk b) ∧
    2 ^ s.kval (blk b) ∣ b ∧
    s.kval (blk b) ≤ s.kval (blk f) ∧
    ((Available s b (s.kval (blk b)) ∧ s.tag (blk b) = c.BLOCK_AVAIL) ∨
      (Reserved c s (L.erase a) b (s.kval (blk b)) ∧ s.tag (blk b) = c.BLOCK_RESERVED)) := by
  obtain ⟨fl, res, hI, hL⟩ := reachable_inv hc h
  subst hL
  obtain ⟨o, ho, rfl⟩ := List.mem_map.1 ha
  simp only [Nat.add_sub_cancel] at ht
  have hinj : Function.Injective (fun o => o + c.hdr) := fun x y e => by
    simpa using e
  obtain ⟨g1, g2, fl2, g3⟩ := inv_mergeTests hc _ o p fl (hI.start_release ho) _ ht
  simp only [] at g1 g2 g3
  obtain ⟨hb, hl, -, hle, -, -⟩ := g3.buddy_live hk
  rw [← g1] at hb hl hle
  obtain ⟨a1, a2, a3⟩ := g3.aligned b hl
  have hge := g3.order_ge b hl
  have hhdr : c.hdr ≤ 2 ^ s.kval (blk b) :=
    le_trans hc.2.2.2.2.2.1 (Nat.pow_le_pow_right (by norm_num) hge)
  refine ⟨hb, g2, a3, hhdr, a2, hle, ?_⟩
  rcases hl with hl | ⟨i, hl⟩
  · right
    have hne : b ≠ f := by
      rw [hb]
      exact xor_pow_ne _ _
    have hm : b ∈ res.erase o := by
      rcases List.mem_cons.1 hl with e | e
      · exact absurd e hne
      · exact e
    refine ⟨⟨?_, rfl⟩, g3.res_tag b hl (fun e => hne (Option.some.inj e))⟩
    rw [← List.map_erase hinj]
    exact List.mem_map.2 ⟨b, hm, rfl⟩
  · left
    obtain ⟨t1, t2⟩ := g3.free_tag i b hl
    refine ⟨⟨a1, ?_⟩, t1⟩
    rw [g3.freeList_eq a1, t2]
    exact hl

theorem buddy_header_live_witness :
    labConfig.WF ∧ Reachable labConfig pool20b [152, 24] ∧ 152 ∈ [152, 24] ∧
      (pool20b, 128, buddy_calc pool20b 128) ∈
        mergeTests labConfig 13 (152 - labConfig.hdr)
          (buddy_calc pool20b (152 - labConfig.hdr)) pool20b ∧
      pool20b.kval (blk 128) < pool20b.kval_m ∧
      (buddy_calc pool20b 128 = 128 ^^^ 2 ^ pool20b.kval (blk 128) ∧
        pool20b.kval_m = pool20b.kval_m ∧
        buddy_calc pool20b 128 + 2 ^ pool20b.kval (blk (buddy_calc pool20b 128)) ≤
          2 ^ pool20b.kval_m ∧
        labConfig.hdr ≤ 2 ^ pool20b.kval (blk (buddy_calc pool20b 128)) ∧
        2 ^ pool20b.kval (blk (buddy_calc pool20b 128)) ∣ buddy_calc pool20b 128 ∧
        pool20b.kval (blk (buddy_calc pool20b 128)) ≤ pool20b.kval (blk 128) ∧
        ((Available pool20b (buddy_calc pool20b 128)
              (pool20b.kval (blk (buddy_calc pool20b 128))) ∧
            pool20b.tag (blk (buddy_calc pool20b 128)) = labConfig.BLOCK_AVAIL) ∨
          (Reserved labConfig pool20b ([152, 24].erase 152) (buddy_calc pool20b 128)
              (pool20b.kval (blk (buddy_calc pool20b 128))) ∧
            pool20b.tag (blk (buddy_calc pool20b 128)) = labConfig.BLOCK_RESERVED))) :=
  ⟨by decide, reach_pool20b, by decide, List.mem_cons_self _ _, by decide,
    buddy_header_live labConfig (by decide) pool20b [152, 24] reach_pool20b 152 (by decide)
      13 pool20b 128 (buddy_calc pool20b 128) (List.mem_cons_self _ _) (by decide)⟩

/-- C19: termination with bounded loops.  On every pool state reachable from `buddy_init`
by `buddy_malloc` calls and `buddy_free` calls on live handles, with `K = kval_m`, and
whatever number `N` of passes the loops are allowed: the scan loop of `buddy_malloc`
started at the requested order `r` makes at most `K + 1 - r` passes (none if `r > K`) and
ends at an order `j ≥ r` that no longer depends on `N` once `N ≥ K + 1 - r`; the split
loop started at `j` makes exactly `j - r` passes once `N ≥ j - r` and gives the same pool
as with `j - r` passes allowed; and for every live handle the block under release has an
order `k ≤ K`, the merge loop of `buddy_free` makes at most `K - k` passes, each pass
raises the order by one (the final order is `k` plus the number of passes), and its
result no longer depends on `N` once `N ≥ K - k`.  The allowances `K + 1 - r`, `j - r`
and `K - k` that `buddy_malloc` and `buddy_free` give their loops are therefore never used
up before the loop test fails. -/
theorem loops_bounded (c : Config) (hc : c.WF) (p : Pool) (L : List Nat)
    (h : Reachable c p L) (r N : Nat) :
    scanPasses p N r ≤ p.kval_m + 1 - r ∧
    r ≤ scanLoop p (p.kval_m + 1 - r) r ∧
    (p.kval_m + 1 - r ≤ N →
      scanLoop p N r = scanLoop p (p.kval_m + 1 - r) r ∧
      scanPasses p N r = scanLoop p (p.kval_m + 1 - r) r - r) ∧
    (∀ (returned_block : Nat) (q : Pool), scanLoop p (p.kval_m + 1 - r) r - r ≤ N →
      splitPasses c r returned_block N (scanLoop p (p.kval_m + 1 - r) r) q =
        scanLoop p (p.kval_m + 1 - r) r - r ∧
      splitLoop c r returned_block N (scanLoop p (p.kval_m + 1 - r) r) q =
        splitLoop c r returned_block (scanLoop p (p.kval_m + 1 - r) r - r)
          (scanLoop p (p.kval_m + 1 - r) r) q) ∧
    (∀ a, a ∈ L →
      p.kval (blk (a - c.hdr)) ≤ p.kval_m ∧
      mergePasses c N (a - c.hdr) (buddy_calc p (a - c.hdr)) p ≤
        p.kval_m - p.kval (blk (a - c.hdr)) ∧
      (mergeLoop c N (a - c.hdr) (buddy_calc p (a - c.hdr)) p).1.kval
          (blk (mergeLoop c N (a - c.hdr) (buddy_calc p (a - c.hdr)) p).2) =
        p.kval (blk (a - c.hdr)) + mergePasses c N (a - c.hdr) (buddy_calc p (a - c.hdr)) p ∧
      (p.kval_m - p.kval (blk (a - c.hdr)) ≤ N →
        mergeLoop c N (a - c.hdr) (buddy_calc p (a - c.hdr)) p =
          mergeLoop c (p.kval_m - p.kval (blk (a - c.hdr))) (a - c.hdr)
            (buddy_calc p (a - c.hdr)) p)) := by
  refine ⟨scanPasses_le p N r, ?_, ?_, ?_, ?_⟩
  · rw [scanLoop_passes]
    omega
  · intro hN
    have e := scanPasses_fuel p N (p.kval_m + 1 - r) r hN le_rfl
    rw [scanLoop_passes p N r, scanLoop_passes p (p.kval_m + 1 - r) r, e]
    exact ⟨rfl, by omega⟩
  · intro rb q hN
    obtain ⟨g1, g2⟩ := splitLoop_fuel c r rb N (scanLoop p (p.kval_m + 1 - r) r - r)
      (scanLoop p (p.kval_m + 1 - r) r) q hN le_rfl
    exact ⟨g2, g1⟩
  · intro a ha
    obtain ⟨fl, res, hI, hL⟩ := reachable_inv hc h
    subst hL
    obtain ⟨o, ho, rfl⟩ := List.mem_map.1 ha
    simp only [Nat.add_sub_cancel]
    obtain ⟨g1, g2⟩ := mergePasses_spec c N o (buddy_calc p o) p
    refine ⟨(hI.aligned o (Or.inl ho)).1, g1, g2, fun hN => ?_⟩
    exact (mergeLoop_fuel c N (p.kval_m - p.kval (blk o)) o (buddy_calc p o) p hN le_rfl).1

theorem loops_bounded_witness :
    labConfig.WF ∧ Reachable labConfig pool20b [152, 24] ∧
    (scanPasses pool20b 100 7 ≤ pool20b.kval_m + 1 - 7 ∧
    7 ≤ scanLoop pool20b (pool20b.kval_m + 1 - 7) 7 ∧
    (pool20b.kval_m + 1 - 7 ≤ 100 →
      scanLoop pool20b 100 7 = scanLoop pool20b (pool20b.kval_m + 1 - 7) 7 ∧
      scanPasses pool20b 100 7 = scanLoop pool20b (pool20b.kval_m + 1 - 7) 7 - 7) ∧
    (∀ (returned_block : Nat) (q : Pool),
      scanLoop pool20b (pool20b.kval_m + 1 - 7) 7 - 7 ≤ 100 →
      splitPasses labConfig 7 returned_block 100
          (scanLoop pool20b (pool20b.kval_m + 1 - 7) 7) q =
        scanLoop pool20b (pool20b.kval_m + 1 - 7) 7 - 7 ∧
      splitLoop labConfig 7 returned_block 100 (scanLoop pool20b (pool20b.kval_m + 1 - 7) 7) q =
        splitLoop labConfig 7 returned_block (scanLoop pool20b (pool20b.kval_m + 1 - 7) 7 - 7)
          (scanLoop pool20b (pool20b.kval_m + 1 - 7) 7) q) ∧
    (∀ a, a ∈ [152, 24] →
      pool20b.kval (blk (a - labConfig.hdr)) ≤ pool20b.kval_m ∧
      mergePasses labConfig 100 (a - labConfig.hdr)
          (buddy_calc pool20b (a - labConfig.hdr)) pool20b ≤
        pool20b.kval_m - pool20b.kval (blk (a - labConfig.hdr)) ∧
      (mergeLoop labConfig 100 (a - labConfig.hdr)
            (buddy_calc pool20b (a - labConfig.hdr)) pool20b).1.kval
          (blk (mergeLoop labConfig 100 (a - labConfig.hdr)
            (buddy_calc pool20b (a - labConfig.hdr)) pool20b).2) =
        pool20b.kval (blk (a - labConfig.hdr)) +
          mergePasses labConfig 100 (a - labConfig.hdr)
            (buddy_calc pool20b (a - labConfig.hdr)) pool20b ∧
      (pool20b.kval_m - pool20b.kval (blk (a - labConfig.hdr)) ≤ 100 →
        mergeLoop labConfig 100 (a - labConfig.hdr)
            (buddy_calc pool20b (a - labConfig.hdr)) pool20b =
          mergeLoop labConfig (pool20b.kval_m - pool20b.kval (blk (a - labConfig.hdr)))
            (a - labConfig.hdr) (buddy_calc pool20b (a - labConfig.hdr)) pool20b))) :=
  ⟨by decide, reach_pool20b, loops_bounded labConfig (by decide) pool20b [152, 24]
    reach_pool20b 7 100⟩

end Buddy
